import Mathlib

/-!
# The `licenses` report command of fossa-cli

A shallow embedding of `cmd/fossa/cmd/report/licenses.go`: the command
`licensesRun` fetches the revisions of a project, then either prints them as
JSON or groups them by license identifier, sorts every group by project title
and renders the grouping through `defaultLicenseReportTemplate`.

The collaborators the command calls (context setup, configuration, the data
service, `json.Marshal`, `sort.Slice`, `display.TemplateString`) are fields of an
environment `Env`; the command itself is the function `licensesRun` over it.
-/

namespace Fossa

/-! ## Data model -/

/-- Project descriptor of a revision: `Project.Title` and `Project.URL`. -/
structure Project where
  Title : String
  URL : String
deriving DecidableEq, Repr

/-- One license match of a revision, keyed by `LicenseID`. -/
structure License where
  LicenseID : String
deriving DecidableEq, Repr

/-- One dependency returned by the data service (`fossa.Revision`). -/
structure Revision where
  Project : Project
  Licenses : List License
deriving DecidableEq, Repr

/-- Identifies the project and revision that is queried (`fossa.Locator`). -/
structure Locator where
  Fetcher : String
  Project : String
  Revision : String
deriving DecidableEq, Repr

/-- Go `error` values: a plain error, or one that wraps a cause with a message. -/
inductive GoError where
  | plain (msg : String)
  | wrapped (cause : GoError) (msg : String)
deriving DecidableEq, Repr

/-- The text of an error (`err.Error()`): a wrapped error prints its own message,
a colon and the text of its cause. -/
def GoError.Error : GoError → String
  | .plain msg => msg
  | .wrapped cause msg => msg ++ ": " ++ cause.Error

/-- The error directly wrapped by an error, if any (`errors.Cause` one level down). -/
def GoError.cause : GoError → Option GoError
  | .plain _ => none
  | .wrapped c _ => some c

/-- Modelled from the spec: `errors.Wrapf` of the package `fossa-cli/errors`, which is
not part of the sources at hand. The spec asks for an error that wraps the underlying
cause and carries the formatted message; the argument `msg` is the message after
formatting. -/
def Wrapf (err : GoError) (msg : String) : GoError :=
  .wrapped err msg

/-- The map `revisionsByLicense` of type `map[string][]fossa.Revision`, as an
association list with pairwise distinct keys. -/
abbrev Grouping := List (String × List Revision)

/-- Reading `m[k]`: the list stored under `k`, or the nil slice when `k` is absent. -/
def mapGet : Grouping → String → List Revision
  | [], _ => []
  | (k1, v) :: rest, k => if k1 = k then v else mapGet rest k

/-- Writing `m[k] = v`: replaces the entry of `k`, or adds one. -/
def mapSet : Grouping → String → List Revision → Grouping
  | [], k, v => [(k, v)]
  | (k1, v1) :: rest, k, v => if k1 = k then (k, v) :: rest else (k1, v1) :: mapSet rest k v

/-- The keys of the map. -/
def mapKeys (m : Grouping) : List String :=
  m.map Prod.fst

/-! ## The report template -/

/-- The constant `defaultLicenseReportTemplate`, character for character. -/
def defaultLicenseReportTemplate : String :=
  "# 3rd-Party Software License Notice\n" ++
  "Generated by fossa-cli (https://github.com/fossas/fossa-cli).\n" ++
  "This software includes the following software and licenses:\n" ++
  "\x7b\x7brange $license, $deps := .\x7d\x7d\n" ++
  "========================================================================\n" ++
  "\x7b\x7b$license\x7d\x7d\n" ++
  "========================================================================\n" ++
  "The following software have components provided under the terms of this license:\n" ++
  "\x7b\x7brange $i, $dep := $deps\x7d\x7d\n" ++
  "- \x7b\x7b$dep.Project.Title\x7d\x7d (from \x7b\x7b$dep.Project.URL\x7d\x7d)\n" ++
  "\x7b\x7b- end\x7d\x7d\n" ++
  "\x7b\x7bend\x7d\x7d\n"

/-! ## The command -/

/-- What the command calls and reads from outside. -/
structure Env where
  /-- Result of `setup.SetContext(ctx, true)`: `none` is success. -/
  setContext : Option GoError
  /-- Value of `config.Fetcher()`. -/
  fetcher : String
  /-- Value of `config.Project()`. -/
  project : String
  /-- Value of `config.Revision()`. -/
  revision : String
  /-- How `%s` prints a locator (`Locator.String`). -/
  locatorString : Locator → String
  /-- The data service, `fossa.GetRevisionDependencies(locator, licenses)`. -/
  getRevisionDependencies : Locator → Bool → Except GoError (List Revision)
  /-- Value of `ctx.Bool(JSON)`. -/
  json : Bool
  /-- The serializer `json.Marshal` on a list of revisions. -/
  marshal : List Revision → Except GoError String
  /-- The library sort `sort.Slice`, given the comparison on elements. -/
  sortSlice : (Revision → Revision → Bool) → List Revision → List Revision
  /-- The renderer `display.TemplateString(template, data)`: output and error. -/
  templateString : String → Grouping → String × Option GoError

/-- How a call of the command ends. -/
inductive Outcome where
  /-- The process was ended by `log.Fatalf` with this message. -/
  | fatal (msg : String)
  /-- The command returned this error value (`none` is `nil`). -/
  | returned (err : Option GoError)
deriving DecidableEq, Repr

/-- A write to standard output: `fmt.Println(s)`, or `fmt.Printf` with the text it
formats. -/
inductive Write where
  | Println (s : String)
  | Printf (s : String)
deriving DecidableEq, Repr

/-- The characters a write sends to standard output. -/
def Write.text : Write → String
  | Write.Println s => s ++ "\n"
  | Write.Printf s => s

/-- What a call of the command did. -/
structure Run where
  /-- The writes to standard output, in order. -/
  stdout : List Write
  /-- The data handed to `display.TemplateString`, when it was called. -/
  rendered : Option Grouping
  /-- How the call ended. -/
  outcome : Outcome
deriving DecidableEq, Repr

/-- The comparison handed to `sort.Slice`:
`depList[i].Project.Title < depList[j].Project.Title`. Go compares strings byte by byte,
which on UTF-8 text is the lexicographic order of the characters. -/
def titleLess (a b : Revision) : Bool :=
  decide (a.Project.Title.toList < b.Project.Title.toList)

/-- The inner loop over `rev.Licenses`, with the set `foundLicenses` of the identifiers
seen so far for this revision. -/
def groupLicenses (rev : Revision) : List License → List String → Grouping → Grouping
  | [], _, m => m
  | license :: rest, foundLicenses, m =>
    if license.LicenseID ∈ foundLicenses then
      groupLicenses rev rest foundLicenses m
    else
      groupLicenses rev rest (license.LicenseID :: foundLicenses)
        (mapSet m license.LicenseID (mapGet m license.LicenseID ++ [rev]))

/-- The outer loop over `revs`, starting from the map `m`. -/
def groupRevisions : List Revision → Grouping → Grouping
  | [], m => m
  | rev :: rest, m => groupRevisions rest (groupLicenses rev rev.Licenses [] m)

/-- The loop that sorts every dependency list by project title and stores it back. -/
def sortLists (sortSlice : (Revision → Revision → Bool) → List Revision → List Revision)
    (m : Grouping) : Grouping :=
  m.map (fun entry => (entry.1, sortSlice titleLess entry.2))

/-- The map handed to the template in text mode: grouped, then sorted list by list. -/
def finalGrouping (env : Env) (revs : List Revision) : Grouping :=
  sortLists env.sortSlice (groupRevisions revs [])

/-- The locator built from the configuration. -/
def locatorOf (env : Env) : Locator :=
  { Fetcher := env.fetcher, Project := env.project, Revision := env.revision }

/-- The message printed when the grouping is empty, after formatting. -/
def noLicensesMessage (env : Env) : String :=
  "\nNo licenses were found for project " ++ env.locatorString (locatorOf env)

/-- The command `licensesRun`. -/
def licensesRun (env : Env) : Run :=
  match env.setContext with
  | some err =>
    { stdout := [], rendered := none,
      outcome := .fatal ("Could not initialize: " ++ err.Error) }
  | none =>
    let locator := locatorOf env
    match env.getRevisionDependencies locator true with
    | .error err =>
      { stdout := [], rendered := none,
        outcome := .returned (some (Wrapf err
          ("Unable to find licenses for project " ++ env.locatorString locator ++ ":"))) }
    | .ok revs =>
      if env.json then
        match env.marshal revs with
        | .error err => { stdout := [], rendered := none, outcome := .returned (some err) }
        | .ok output =>
          { stdout := [Write.Println output], rendered := none, outcome := .returned none }
      else
        let revisionsByLicense := groupRevisions revs []
        if revisionsByLicense.length = 0 then
          { stdout := [Write.Printf (noLicensesMessage env)], rendered := none,
            outcome := .returned none }
        else
          let sorted := sortLists env.sortSlice revisionsByLicense
          let result := env.templateString defaultLicenseReportTemplate sorted
          { stdout := [Write.Println result.1], rendered := some sorted,
            outcome := .returned none }

/-! ## Template rendering

`display.TemplateString` parses a template with Go's `text/template` and executes it
on the data. The model covers the forms the report template uses: literal text,
the trim markers, printing a variable or a chain of fields of it, and `range` with
two variables over a map or a slice. -/

/-- Data as a template sees it. -/
inductive Value where
  | str (s : String)
  | num (n : Nat)
  | slice (items : List Value)
  | map (entries : List (String × Value))
  | record (fields : List (String × Value))

/-- A lexical item of a template: literal text, or the inside of an action. -/
inductive Item where
  | text (s : List Char)
  | action (body : List Char)
deriving DecidableEq, Repr

/-- White space as the template lexer sees it. -/
def isSpace (c : Char) : Bool :=
  c = ' ' || c = '\t' || c = '\r' || c = '\n'

/-- Removes the white space at the end of a reversed text. -/
def trimRev (acc : List Char) : List Char :=
  acc.dropWhile isSpace

/-- The lexer. `inAction` tells whether the input is inside an action, `skip`
whether white space is being trimmed after a right trim marker, and `acc` holds the
characters of the current item in reverse. The first argument bounds the number of
steps; every step consumes at least one character. An action that is not closed is
an error. -/
def lexItems : Nat → List Char → Bool → Bool → List Char → Option (List Item)
  | 0, _, _, _, _ => none
  | _ + 1, [], false, _, acc => some [Item.text acc.reverse]
  | _ + 1, [], true, _, _ => none
  | fuel + 1, c :: rest, false, skip, acc =>
    match c, rest with
    | '{', '{' :: '-' :: d :: rest2 =>
      if isSpace d then
        (lexItems fuel rest2 true false []).map
          (fun items => Item.text (trimRev acc).reverse :: items)
      else
        (lexItems fuel ('-' :: d :: rest2) true false []).map
          (fun items => Item.text acc.reverse :: items)
    | '{', '{' :: rest1 =>
      (lexItems fuel rest1 true false []).map (fun items => Item.text acc.reverse :: items)
    | _, _ =>
      if skip && isSpace c then lexItems fuel rest false true acc
      else lexItems fuel rest false false (c :: acc)
  | fuel + 1, c :: rest, true, _, acc =>
    match c, rest with
    | '}', '}' :: rest1 =>
      match acc with
      | '-' :: d :: acc1 =>
        if isSpace d then
          (lexItems fuel rest1 false true []).map
            (fun items => Item.action acc1.reverse :: items)
        else
          (lexItems fuel rest1 false false []).map
            (fun items => Item.action acc.reverse :: items)
      | _ =>
        (lexItems fuel rest1 false false []).map
          (fun items => Item.action acc.reverse :: items)
    | _, _ => lexItems fuel rest true false (c :: acc)

/-- Splits the inside of an action into words at white space. -/
def splitWords : List Char → List Char → List (List Char)
  | [], acc => if acc.isEmpty then [] else [acc.reverse]
  | c :: rest, acc =>
    if isSpace c then
      if acc.isEmpty then splitWords rest [] else acc.reverse :: splitWords rest []
    else splitWords rest (c :: acc)

/-- Splits a word at dots. -/
def splitDots : List Char → List Char → List (List Char)
  | [], acc => [acc.reverse]
  | c :: rest, acc =>
    if c = '.' then acc.reverse :: splitDots rest [] else splitDots rest (c :: acc)

/-- An operand: the dot, or a variable followed by a chain of fields. -/
inductive Operand where
  | dot
  | var (name : String) (fields : List String)
deriving DecidableEq, Repr

/-- A parsed action. -/
inductive Action where
  | range (key value : String) (over : Operand)
  | stop
  | print (what : Operand)
deriving DecidableEq, Repr

/-- Reads an operand from a word. -/
def parseOperand (w : List Char) : Option Operand :=
  match w with
  | ['.'] => some Operand.dot
  | '$' :: rest =>
    match splitDots rest [] with
    | name :: fields =>
      if name.isEmpty || fields.any List.isEmpty then none
      else some (Operand.var (String.mk name) (fields.map String.mk))
    | [] => none
  | _ => none

/-- Reads the name of a declared variable; `comma` tells whether a comma must follow. -/
def parseDecl (w : List Char) (comma : Bool) : Option String :=
  match w with
  | '$' :: rest =>
    let name := if comma then rest.reverse.drop 1 |>.reverse else rest
    if name.isEmpty || name.any (fun c => c = '.' || c = ',') then none
    else if comma && rest.getLast? != some ',' then none
    else some (String.mk name)
  | _ => none

/-- Reads an action from its words. -/
def parseAction (body : List Char) : Option Action :=
  match splitWords body [] with
  | [w] => if w = "end".toList then some Action.stop else (parseOperand w).map Action.print
  | [r, k, v, a, e] =>
    if r = "range".toList && a = ":=".toList then
      match parseDecl k true, parseDecl v false, parseOperand e with
      | some key, some value, some over => some (Action.range key value over)
      | _, _, _ => none
    else none
  | _ => none

/-- A node of the parsed template. -/
inductive Node where
  | text (s : String)
  | print (what : Operand)
  | range (key value : String) (over : Operand) (body : List Node)

/-- Builds the nodes of a template from its items, up to the closing `end` of the
enclosing `range` or to the end of the input. Returns the nodes, whether an `end`
closed them, and the items left. -/
def parseNodes : Nat → List Item → Option (List Node × Bool × List Item)
  | 0, _ => none
  | _ + 1, [] => some ([], false, [])
  | fuel + 1, Item.text s :: rest =>
    (parseNodes fuel rest).map (fun r => (Node.text (String.mk s) :: r.1, r.2))
  | fuel + 1, Item.action body :: rest =>
    match parseAction body with
    | none => none
    | some Action.stop => some ([], true, rest)
    | some (Action.print what) =>
      (parseNodes fuel rest).map (fun r => (Node.print what :: r.1, r.2))
    | some (Action.range key value over) =>
      match parseNodes fuel rest with
      | some (inner, true, rest1) =>
        (parseNodes fuel rest1).map (fun r => (Node.range key value over inner :: r.1, r.2))
      | _ => none

/-- Parses a template: all items must be consumed without a stray `end`. -/
def parseTemplate (tmpl : String) : Option (List Node) :=
  match lexItems (tmpl.length + 1) tmpl.toList false false [] with
  | none => none
  | some items =>
    match parseNodes (items.length + 1) items with
    | some (nodes, false, []) => some nodes
    | _ => none

/-- The variables in scope, innermost first. -/
abbrev Vars := List (String × Value)

/-- Looks a name up in a list of named values. -/
def lookupField : List (String × Value) → String → Option Value
  | [], _ => none
  | (k, v) :: rest, name => if k = name then some v else lookupField rest name

/-- Follows a chain of field names from a value; only records have fields. -/
def evalFields : Value → List String → Option Value
  | v, [] => some v
  | Value.record fields, f :: rest =>
    match lookupField fields f with
    | some v => evalFields v rest
    | none => none
  | _, _ :: _ => none

/-- The value of an operand. -/
def evalOperand (dot : Value) (vars : Vars) : Operand → Option Value
  | Operand.dot => some dot
  | Operand.var name fields =>
    match lookupField vars name with
    | some v => evalFields v fields
    | none => none

/-- The text printed for a value; composite values are not printed by the model. -/
def printValue : Value → Option String
  | Value.str s => some s
  | Value.num n => some (toString n)
  | _ => none

/-- Inserts an entry into a list of entries that is ascending by key. -/
def insertEntry {α : Type} (e : String × α) : List (String × α) → List (String × α)
  | [] => [e]
  | e1 :: rest =>
    if e1.1.toList < e.1.toList then e1 :: insertEntry e rest else e :: e1 :: rest

/-- The entries of a map in ascending order of their keys, the order in which a
template visits a map. -/
def sortEntries {α : Type} : List (String × α) → List (String × α)
  | [] => []
  | e :: rest => insertEntry e (sortEntries rest)

/-- Pairs every element of a slice with its index. -/
def indexed : Nat → List Value → List (Value × Value)
  | _, [] => []
  | i, v :: rest => (Value.num i, v) :: indexed (i + 1) rest

/-- The pairs a `range` visits: index and element of a slice, key and element of a
map by ascending key. -/
def rangeItems : Value → Option (List (Value × Value))
  | Value.slice items => some (indexed 0 items)
  | Value.map entries => some ((sortEntries entries).map (fun e => (Value.str e.1, e.2)))
  | _ => none

/-- Runs `f` on every pair and joins the texts; fails when a run fails. -/
def concatEach (f : Value → Value → Option String) : List (Value × Value) → Option String
  | [] => some ""
  | (k, v) :: rest =>
    match f k v, concatEach f rest with
    | some a, some b => some (a ++ b)
    | _, _ => none

/-- Executes a list of nodes with the given dot and variables. The first argument
bounds the depth of the execution. -/
def evalNodes : Nat → List Node → Value → Vars → Option String
  | 0, _, _, _ => none
  | _ + 1, [], _, _ => some ""
  | fuel + 1, node :: rest, dot, vars =>
    let head : Option String :=
      match node with
      | Node.text s => some s
      | Node.print what =>
        match evalOperand dot vars what with
        | some v => printValue v
        | none => none
      | Node.range key value over body =>
        match evalOperand dot vars over with
        | none => none
        | some v =>
          match rangeItems v with
          | none => none
          | some items =>
            concatEach (fun k e => evalNodes fuel body e ((value, e) :: (key, k) :: vars)) items
    match head, evalNodes fuel rest dot vars with
    | some a, some b => some (a ++ b)
    | _, _ => none

/-- A project as template data. -/
def Project.toValue (p : Project) : Value :=
  Value.record [("Title", Value.str p.Title), ("URL", Value.str p.URL)]

/-- A license match as template data. -/
def License.toValue (l : License) : Value :=
  Value.record [("LicenseID", Value.str l.LicenseID)]

/-- A revision as template data. -/
def Revision.toValue (r : Revision) : Value :=
  Value.record [("Project", r.Project.toValue),
    ("Licenses", Value.slice (r.Licenses.map License.toValue))]

/-- The grouping as template data: a map from license identifier to a slice. -/
def groupingValue (g : Grouping) : Value :=
  Value.map (g.map (fun e => (e.1, Value.slice (e.2.map Revision.toValue))))

/-- Modelled from the spec: `display.TemplateString` of the package `cmd/fossa/display`,
which is not part of the sources at hand. The spec describes it as a pure function from
the template source and the grouping to the rendered text; the template is parsed and
executed as above, and a failure of either step is returned as the error. -/
def TemplateString (tmpl : String) (data : Grouping) : String × Option GoError :=
  match parseTemplate tmpl with
  | none => ("", some (GoError.plain "template: parse error"))
  | some nodes =>
    match evalNodes (tmpl.length + 2) nodes (groupingValue data) [] with
    | none => ("", some (GoError.plain "template: execution error"))
    | some out => (out, none)


/-! ## The library sort

`sort.Slice(x, less)` of the Go standard library (Go 1.19 and later) runs the
pattern-defeating quicksort `pdqsort_func` on the index range of the slice, with the
recursion limit `bits.Len(length)`. The slice is accessed through `Less(i, j)` and
`Swap(i, j)` only. The functions below follow `sort/zsortfunc.go` and `sort/slice.go`
one by one; loops that count over an index range are folds over that range, and the
other loops carry a bound on their number of steps. -/

section GoSort

variable {α : Type}

/-- `data.Swap(i, j)`: exchanges the elements at `i` and `j`. -/
def swapAt (data : List α) (i j : Nat) : List α :=
  match data[i]?, data[j]? with
  | some x, some y => (data.set i y).set j x
  | _, _ => data

/-- `data.Less(i, j)`: the comparison of the elements at `i` and `j`. -/
def lessAt (less : α → α → Bool) (data : List α) (i j : Nat) : Bool :=
  match data[i]?, data[j]? with
  | some x, some y => less x y
  | _, _ => false

/-- The inner loop of insertion sort: `for j := i; j > a && Less(j, j-1); j--`
swaps `j` and `j-1`. -/
def insertionInner (less : α → α → Bool) (a : Nat) : Nat → List α → List α
  | 0, data => data
  | j + 1, data =>
    if a < j + 1 && lessAt less data (j + 1) j then
      insertionInner less a j (swapAt data (j + 1) j)
    else data

/-- `insertionSort_func` sorts `data[a:b]` using insertion sort. -/
def insertionSort_func (less : α → α → Bool) (data : List α) (a b : Nat) : List α :=
  (List.range' (a + 1) (b - (a + 1))).foldl (fun d i => insertionInner less a i d) data

/-- `siftDown_func` implements the heap property on `data[lo:hi]`; `first` is the
offset of the root of the heap. The first argument bounds the number of rounds. -/
def siftDown_func (less : α → α → Bool) (hi first : Nat) : Nat → Nat → List α → List α
  | 0, _, data => data
  | fuel + 1, root, data =>
    let child := 2 * root + 1
    if hi ≤ child then data
    else
      let child :=
        if child + 1 < hi && lessAt less data (first + child) (first + child + 1) then child + 1
        else child
      if !lessAt less data (first + root) (first + child) then data
      else siftDown_func less hi first fuel child (swapAt data (first + root) (first + child))

/-- `heapSort_func` sorts `data[a:b]`: it builds a heap with the greatest element on
top, then pops the elements, largest first, into the end of the range. -/
def heapSort_func (less : α → α → Bool) (data : List α) (a b : Nat) : List α :=
  let first := a
  let lo := 0
  let hi := b - a
  let data := (List.range ((hi - 1) / 2 + 1)).reverse.foldl
    (fun d i => siftDown_func less hi first hi i d) data
  (List.range hi).reverse.foldl
    (fun d i => siftDown_func less i first i lo (swapAt d first (first + i))) data

/-- The loop `for i <= j && Less(i, a) { i++ }` of `partition_func`. -/
def scanLess (less : α → α → Bool) (data : List α) (a j : Nat) : Nat → Nat → Nat
  | 0, i => i
  | fuel + 1, i => if i ≤ j && lessAt less data i a then scanLess less data a j fuel (i + 1) else i

/-- The loop `for i <= j && !Less(j, a) { j-- }` of `partition_func`. -/
def scanNotLess (less : α → α → Bool) (data : List α) (a i : Nat) : Nat → Nat
  | 0 => 0
  | j + 1 => if i ≤ j + 1 && !lessAt less data (j + 1) a then scanNotLess less data a i j else j + 1

/-- The main loop of `partition_func`; returns the data and the final `j`. -/
def partitionLoop (less : α → α → Bool) (a : Nat) : Nat → List α → Nat → Nat → List α × Nat
  | 0, data, _, j => (data, j)
  | fuel + 1, data, i, j =>
    let i := scanLess less data a j (j + 1 - i) i
    let j := scanNotLess less data a i j
    if j < i then (data, j)
    else partitionLoop less a fuel (swapAt data i j) (i + 1) (j - 1)

/-- `partition_func` does one quicksort partition: with `p := data[pivot]` the elements
are rearranged so that `data[a:mid] < p` and `data[mid+1:b] >= p`. Returns the data, the
new index `mid` of the pivot and whether the range was already partitioned. -/
def partition_func (less : α → α → Bool) (data : List α) (a b pivot : Nat) :
    List α × Nat × Bool :=
  let data := swapAt data a pivot
  let i := a + 1
  let j := b - 1
  let i := scanLess less data a j (j + 1 - i) i
  let j := scanNotLess less data a i j
  if j < i then (swapAt data j a, j, true)
  else
    let data := swapAt data i j
    let r := partitionLoop less a (b - a) data (i + 1) (j - 1)
    (swapAt r.1 r.2 a, r.2, false)

/-- The loop `for i <= j && !Less(a, i) { i++ }` of `partitionEqual_func`. -/
def scanNotGreater (less : α → α → Bool) (data : List α) (a j : Nat) : Nat → Nat → Nat
  | 0, i => i
  | fuel + 1, i =>
    if i ≤ j && !lessAt less data a i then scanNotGreater less data a j fuel (i + 1) else i

/-- The loop `for i <= j && Less(a, j) { j-- }` of `partitionEqual_func`. -/
def scanGreater (less : α → α → Bool) (data : List α) (a i : Nat) : Nat → Nat
  | 0 => 0
  | j + 1 => if i ≤ j + 1 && lessAt less data a (j + 1) then scanGreater less data a i j else j + 1

/-- The main loop of `partitionEqual_func`; returns the data and the final `i`. -/
def partitionEqualLoop (less : α → α → Bool) (a : Nat) : Nat → List α → Nat → Nat → List α × Nat
  | 0, data, i, _ => (data, i)
  | fuel + 1, data, i, j =>
    let i := scanNotGreater less data a j (j + 1 - i) i
    let j := scanGreater less data a i j
    if j < i then (data, i)
    else partitionEqualLoop less a fuel (swapAt data i j) (i + 1) (j - 1)

/-- `partitionEqual_func` partitions `data[a:b]` into elements equal to `data[pivot]`
followed by elements greater than `data[pivot]`. Returns the data and the new `a`. -/
def partitionEqual_func (less : α → α → Bool) (data : List α) (a b pivot : Nat) : List α × Nat :=
  let data := swapAt data a pivot
  partitionEqualLoop less a (b - a + 1) data (a + 1) (b - 1)

/-- The shifting loop `for j := i - 1; j >= 1; j--` of `partialInsertionSort_func`:
stops at the first `j` with `!Less(j, j-1)`, else swaps `j` and `j-1`. -/
def shiftLeft (less : α → α → Bool) : Nat → List α → List α
  | 0, data => data
  | j + 1, data =>
    if !lessAt less data (j + 1) j then data
    else shiftLeft less j (swapAt data (j + 1) j)

/-- The shifting loop `for j := i + 1; j < b; j++` of `partialInsertionSort_func`. -/
def shiftRight (less : α → α → Bool) (b : Nat) : Nat → Nat → List α → List α
  | 0, _, data => data
  | fuel + 1, j, data =>
    if b ≤ j then data
    else if !lessAt less data j (j - 1) then data
    else shiftRight less b fuel (j + 1) (swapAt data j (j - 1))

/-- The loop `for i < b && !Less(i, i-1) { i++ }` of `partialInsertionSort_func`. -/
def scanOrdered (less : α → α → Bool) (data : List α) (b : Nat) : Nat → Nat → Nat
  | 0, i => i
  | fuel + 1, i =>
    if i < b && !lessAt less data i (i - 1) then scanOrdered less data b fuel (i + 1) else i

/-- The outer loop `for j := 0; j < maxSteps; j++` of `partialInsertionSort_func`, with
`steps` rounds left. -/
def partialInsertionLoop (less : α → α → Bool) (a b : Nat) : Nat → List α → Nat → List α × Bool
  | 0, data, _ => (data, false)
  | steps + 1, data, i =>
    let i := scanOrdered less data b (b - i) i
    if i = b then (data, true)
    else if b - a < 50 then (data, false)
    else
      let data := swapAt data i (i - 1)
      let data := if 2 ≤ i - a then shiftLeft less (i - 1) data else data
      let data := if 2 ≤ b - i then shiftRight less b (b - i) (i + 1) data else data
      partialInsertionLoop less a b steps data i

/-- `partialInsertionSort_func` partially sorts a slice, returns true if the slice is
sorted at the end (`maxSteps = 5`, `shortestShifting = 50`). -/
def partialInsertionSort_func (less : α → α → Bool) (data : List α) (a b : Nat) : List α × Bool :=
  partialInsertionLoop less a b 5 data (a + 1)

/-- `bits.Len(x)`: the number of bits needed to represent `x`. -/
def bitsLen (x : Nat) : Nat :=
  if x = 0 then 0 else Nat.log2 x + 1

/-- `xorshift.Next` on 64-bit words. -/
def xorshiftNext (r : Nat) : Nat :=
  let r := r ^^^ ((r <<< 13) % 2 ^ 64)
  let r := r ^^^ (r >>> 7)
  r ^^^ ((r <<< 17) % 2 ^ 64)

/-- `nextPowerOfTwo(length)`. -/
def nextPowerOfTwo (length : Nat) : Nat :=
  (1 <<< bitsLen length) % 2 ^ 64

/-- `breakPatterns_func` scatters three elements around the middle of `data[a:b]`. -/
def breakPatterns_func (data : List α) (a b : Nat) : List α :=
  let length := b - a
  if 8 ≤ length then
    let modulus := nextPowerOfTwo length
    let idx := a + (length / 4) * 2 - 1
    let step := fun (s : List α × Nat) (i : Nat) =>
      let random := xorshiftNext s.2
      let other := random &&& (modulus - 1)
      let other := if length ≤ other then other - length else other
      (swapAt s.1 (idx - 1 + i) (a + other), random)
    ((List.range 3).foldl step (data, length)).1
  else data

/-- The hint `choosePivot_func` gives about the range. -/
inductive sortedHint where
  | unknownHint
  | increasingHint
  | decreasingHint
deriving DecidableEq, Repr

/-- `order2_func` returns `x, y` with `data[x] <= data[y]`, where `x, y = a, b` or
`b, a`, and counts a swap in the second case. -/
def order2_func (less : α → α → Bool) (data : List α) (a b swaps : Nat) : Nat × Nat × Nat :=
  if lessAt less data b a then (b, a, swaps + 1) else (a, b, swaps)

/-- `median_func` returns `x` where `data[x]` is the median of `data[a]`, `data[b]`,
`data[c]`, and the number of swaps. -/
def median_func (less : α → α → Bool) (data : List α) (a b c swaps : Nat) : Nat × Nat :=
  let r1 := order2_func less data a b swaps
  let r2 := order2_func less data r1.2.1 c r1.2.2
  let r3 := order2_func less data r1.1 r2.1 r2.2.2
  (r3.2.1, r3.2.2)

/-- `medianAdjacent_func` finds the median of `data[a-1]`, `data[a]`, `data[a+1]`. -/
def medianAdjacent_func (less : α → α → Bool) (data : List α) (a swaps : Nat) : Nat × Nat :=
  median_func less data (a - 1) a (a + 1) swaps

/-- `choosePivot_func` chooses a pivot in `data[a:b]` (`shortestNinther = 50`,
`maxSwaps = 4 * 3`). -/
def choosePivot_func (less : α → α → Bool) (data : List α) (a b : Nat) : Nat × sortedHint :=
  let l := b - a
  let i := a + l / 4 * 1
  let j := a + l / 4 * 2
  let k := a + l / 4 * 3
  let r : Nat × Nat :=
    if 8 ≤ l then
      if 50 ≤ l then
        let ri := medianAdjacent_func less data i 0
        let rj := medianAdjacent_func less data j ri.2
        let rk := medianAdjacent_func less data k rj.2
        median_func less data ri.1 rj.1 rk.1 rk.2
      else median_func less data i j k 0
    else (j, 0)
  if r.2 = 0 then (r.1, sortedHint.increasingHint)
  else if r.2 = 12 then (r.1, sortedHint.decreasingHint)
  else (r.1, sortedHint.unknownHint)

/-- `reverseRange_func` reverses `data[a:b]`. -/
def reverseRange_func (data : List α) (a b : Nat) : List α :=
  (List.range ((b - a) / 2)).foldl (fun d k => swapAt d (a + k) (b - 1 - k)) data

/-- `pdqsort_func` sorts `data[a:b]`. One round of its loop per unit of the first
argument; `limit` is the number of allowed bad pivots before falling back to heapsort,
`wasBalanced` and `wasPartitioned` describe the last partitioning. -/
def pdqsort_func (less : α → α → Bool) :
    Nat → List α → Nat → Nat → Nat → Bool → Bool → List α
  | 0, data, _, _, _, _, _ => data
  | fuel + 1, data, a, b, limit, wasBalanced, wasPartitioned =>
    let length := b - a
    if length ≤ 12 then insertionSort_func less data a b
    else if limit = 0 then heapSort_func less data a b
    else
      let data := if !wasBalanced then breakPatterns_func data a b else data
      let limit := if !wasBalanced then limit - 1 else limit
      let ph := choosePivot_func less data a b
      let data := if ph.2 = sortedHint.decreasingHint then reverseRange_func data a b else data
      let pivot := if ph.2 = sortedHint.decreasingHint then (b - 1) - (ph.1 - a) else ph.1
      let hint := if ph.2 = sortedHint.decreasingHint then sortedHint.increasingHint else ph.2
      let likelySorted := wasBalanced && wasPartitioned && hint = sortedHint.increasingHint
      let pis := if likelySorted then partialInsertionSort_func less data a b else (data, false)
      if pis.2 then pis.1
      else
        let data := pis.1
        if 0 < a && !lessAt less data (a - 1) pivot then
          let r := partitionEqual_func less data a b pivot
          pdqsort_func less fuel r.1 r.2 b limit wasBalanced wasPartitioned
        else
          let r := partition_func less data a b pivot
          let data := r.1
          let mid := r.2.1
          let wasPartitioned := r.2.2
          let leftLen := mid - a
          let rightLen := b - mid
          let balanceThreshold := length / 8
          if leftLen < rightLen then
            let wasBalanced := decide (balanceThreshold ≤ leftLen)
            let data := pdqsort_func less fuel data a mid limit true true
            pdqsort_func less fuel data (mid + 1) b limit wasBalanced wasPartitioned
          else
            let wasBalanced := decide (balanceThreshold ≤ rightLen)
            let data := pdqsort_func less fuel data (mid + 1) b limit true true
            pdqsort_func less fuel data a mid limit wasBalanced wasPartitioned

/-- `sort.Slice(x, less)`: sorts the slice given the comparison of two elements. -/
def sortSlice (less : α → α → Bool) (x : List α) : List α :=
  let length := x.length
  let limit := bitsLen length
  pdqsort_func less (length + 1) x 0 length limit true true

end GoSort



/-! ## Notions used in the proofs about the library sort -/

section SortNotions

variable {α : Type}

/-- The index that `Swap(i, j)` moves to position `k`. -/
def swapIdx (i j k : Nat) : Nat :=
  if k = i then j else if k = j then i else k

/-- A strict weak ordering, what `sort.Slice` asks of its comparison. -/
structure StrictWeak (less : α → α → Bool) : Prop where
  irrefl : ∀ a, less a a = false
  trans : ∀ a b c, less a b = true → less b c = true → less a c = true
  negtrans : ∀ a b c, less a b = false → less b c = false → less a c = false

/-- The data `data1` keeps the range `[a, b)` of `data`: both have the same length,
agree outside the range, and every element in the range of `data1` stood in the range
of `data`. -/
structure RangeKept (data data1 : List α) (a b : Nat) : Prop where
  length_eq : data1.length = data.length
  outside : ∀ k, k < a ∨ b ≤ k → data1[k]? = data[k]?
  inside : ∀ k, a ≤ k → k < b → ∃ k1, a ≤ k1 ∧ k1 < b ∧ data1[k]? = data[k1]?

/-- The range `[a, b)` of the data is in order. -/
def SortedRange (less : α → α → Bool) (data : List α) (a b : Nat) : Prop :=
  ∀ i j, a ≤ i → i < j → j < b → lessAt less data j i = false

/-- The node `p` of the heap that starts at `first` and has `hi` nodes is not smaller
than its children. -/
def HeapAt (less : α → α → Bool) (data : List α) (first hi p : Nat) : Prop :=
  ∀ c, (c = 2 * p + 1 ∨ c = 2 * p + 2) → c < hi →
    lessAt less data (first + p) (first + c) = false

/-- The part of a round of `pdqsort_func` before the partitioning: the data after
`breakPatterns_func`, the reversal and `partialInsertionSort_func`, whether the range is
sorted by then, and the pivot. -/
def pdqPrepare (less : α → α → Bool) (data : List α) (a b : Nat)
    (wasBalanced wasPartitioned : Bool) : (List α × Bool) × Nat :=
  let data := if !wasBalanced then breakPatterns_func data a b else data
  let ph := choosePivot_func less data a b
  let data := if ph.2 = sortedHint.decreasingHint then reverseRange_func data a b else data
  let pivot := if ph.2 = sortedHint.decreasingHint then (b - 1) - (ph.1 - a) else ph.1
  let hint := if ph.2 = sortedHint.decreasingHint then sortedHint.increasingHint else ph.2
  let likelySorted := wasBalanced && wasPartitioned && hint = sortedHint.increasingHint
  (if likelySorted then partialInsertionSort_func less data a b else (data, false), pivot)

end SortNotions

/-! ## Notions used in the statements -/

/-- The license identifiers of a revision, in the order of its license matches. -/
def licenseIDs (r : Revision) : List String :=
  r.Licenses.map License.LicenseID

/-- Whether some license match of the revision carries the identifier `L`. -/
def hasLicense (L : String) (r : Revision) : Bool :=
  decide (L ∈ licenseIDs r)

/-- The documented contract of `sort.Slice`: the result is a rearrangement of the
slice, and it is in order for the comparison whenever the comparison is a strict weak
ordering. Nothing is promised about the order of elements that compare equal. -/
structure SortContract (sort : (Revision → Revision → Bool) → List Revision → List Revision) :
    Prop where
  perm : ∀ less l, (sort less l).Perm l
  sorted : ∀ less : Revision → Revision → Bool, StrictWeak less →
    ∀ l, (sort less l).Pairwise (fun a b => less b a = false)

/-- The stable sort by title: every revision is put in front of the first revision
of the sorted rest whose title is not smaller. -/
def stableSortByTitle (l : List Revision) : List Revision :=
  l.insertionSort (fun a b => titleLess b a = false)

/-- The sum of the lengths of the lists of a grouping: the number of bullets. -/
def totalEntries (m : Grouping) : Nat :=
  (m.map (fun e => e.2.length)).sum

/-! ## The layout of the report -/

/-- The nodes of the inner `range` of `defaultLicenseReportTemplate`. -/
def bulletNodes : List Node :=
  [Node.text "\n- ",
   Node.print (Operand.var "dep" ["Project", "Title"]),
   Node.text " (from ",
   Node.print (Operand.var "dep" ["Project", "URL"]),
   Node.text ")"]

/-- The nodes of the outer `range` of `defaultLicenseReportTemplate`. -/
def sectionNodes : List Node :=
  [Node.text "\n========================================================================\n",
   Node.print (Operand.var "license" []),
   Node.text ("\n========================================================================\n" ++
     "The following software have components provided under the terms of this license:\n"),
   Node.range "i" "dep" (Operand.var "deps" []) bulletNodes,
   Node.text "\n"]

/-- The nodes of `defaultLicenseReportTemplate`. -/
def defaultNodes : List Node :=
  [Node.text ("# 3rd-Party Software License Notice\n" ++
      "Generated by fossa-cli (https://github.com/fossas/fossa-cli).\n" ++
      "This software includes the following software and licenses:\n"),
   Node.range "license" "deps" Operand.dot sectionNodes,
   Node.text "\n"]

/-- Joins texts. -/
def joinTexts : List String → String
  | [] => ""
  | s :: rest => s ++ joinTexts rest

/-- Writes every line followed by a newline. -/
def unlines : List String → String
  | [] => ""
  | l :: rest => l ++ "\n" ++ unlines rest

/-- The three lines at the top of the report. -/
def headerLines : List String :=
  ["# 3rd-Party Software License Notice",
   "Generated by fossa-cli (https://github.com/fossas/fossa-cli).",
   "This software includes the following software and licenses:"]

/-- The banner: 72 times the character `=`. -/
def bannerLine : String :=
  "========================================================================"

/-- The sentence under the second banner of a section. -/
def introLine : String :=
  "The following software have components provided under the terms of this license:"

/-- The bullet of a revision. -/
def bulletLine (r : Revision) : String :=
  "- " ++ r.Project.Title ++ " (from " ++ r.Project.URL ++ ")"

/-- The lines of the section of a license: an empty line, the banner, the license
identifier, the banner, the sentence, an empty line and one bullet per revision. -/
def sectionLines (e : String × List Revision) : List String :=
  ["", bannerLine, e.1, bannerLine, introLine, ""] ++ e.2.map bulletLine

/-- The lines of the report of a grouping whose entries are given in the order of the
sections: the header, the sections and an empty line. -/
def reportLines (g : Grouping) : List String :=
  headerLines ++ (g.map sectionLines).flatten ++ [""]

/-- The layout in the words of the specification: a header, then per license a banner
line, the license identifier, a second banner line and one bullet line per revision,
with an empty line between two sections, and possibly empty lines at the end. -/
def specLines (header : List String) (banner : String) (trailer : List String)
    (g : Grouping) : List String :=
  header ++
    List.intercalate [""] (g.map (fun e => [banner, e.1, banner] ++ e.2.map bulletLine)) ++
    trailer

/-- Splits a text into its lines at the newline characters; `acc` holds the current
line in reverse. -/
def splitLines : List Char → List Char → List String
  | [], acc => [String.mk acc.reverse]
  | c :: rest, acc =>
    if c = '\n' then String.mk acc.reverse :: splitLines rest [] else splitLines rest (c :: acc)

/-! ## Example environments -/

/-- A way to print locators, used by the examples. -/
def exampleLocatorString (l : Locator) : String :=
  l.Fetcher ++ "+" ++ l.Project ++ "$" ++ l.Revision

/-- The first revision of the scenario of the specification. -/
def libfoo : Revision :=
  { Project := { Title := "libfoo", URL := "http://x/foo" }, Licenses := [{ LicenseID := "MIT" }] }

/-- The second revision of the scenario of the specification. -/
def libbar : Revision :=
  { Project := { Title := "libbar", URL := "http://x/bar" },
    Licenses := [{ LicenseID := "MIT" }, { LicenseID := "Apache-2.0" }] }

/-- The revisions of the scenario, in the order the service returns them. -/
def scenarioRevs : List Revision :=
  [libfoo, libbar]

/-- The JSON text standing for the revisions of the scenario. -/
def scenarioJSON : String :=
  "[\x7b\"Project\":\x7b\"Title\":\"libfoo\",\"URL\":\"http://x/foo\"\x7d," ++
  "\"Licenses\":[\x7b\"LicenseID\":\"MIT\"\x7d]\x7d," ++
  "\x7b\"Project\":\x7b\"Title\":\"libbar\",\"URL\":\"http://x/bar\"\x7d," ++
  "\"Licenses\":[\x7b\"LicenseID\":\"MIT\"\x7d,\x7b\"LicenseID\":\"Apache-2.0\"\x7d]\x7d]"

/-- A serializer for the examples: defined on the empty list and on the scenario. -/
def exampleMarshal (l : List Revision) : Except GoError String :=
  if l = [] then Except.ok "[]"
  else if l = scenarioRevs then Except.ok scenarioJSON
  else Except.error (GoError.plain "json: unsupported value")

/-- The inverse of `exampleMarshal`. -/
def exampleUnmarshal (s : String) : Option (List Revision) :=
  if s = "[]" then some []
  else if s = scenarioJSON then some scenarioRevs
  else none

/-- The scenario of the specification in text mode. -/
def scenarioEnv : Env :=
  { setContext := none
    fetcher := "git"
    project := "acme/widgets"
    revision := "abc123"
    locatorString := exampleLocatorString
    getRevisionDependencies := fun _ _ => Except.ok scenarioRevs
    json := false
    marshal := exampleMarshal
    sortSlice := sortSlice
    templateString := TemplateString }

/-- The scenario of the specification with the JSON flag set. -/
def scenarioJSONEnv : Env :=
  { scenarioEnv with json := true }

/-- The JSON flag set and a service that returns no revision. -/
def emptyJSONEnv : Env :=
  { scenarioEnv with json := true, getRevisionDependencies := fun _ _ => Except.ok [] }

/-- A service that returns one revision without license matches, in text mode. -/
def unlicensedEnv : Env :=
  { scenarioEnv with
    getRevisionDependencies := fun _ _ =>
      Except.ok [{ Project := { Title := "libbaz", URL := "http://x/baz" }, Licenses := [] }] }

/-- A service call that fails. -/
def fetchFailEnv : Env :=
  { scenarioEnv with
    getRevisionDependencies := fun _ _ => Except.error (GoError.plain "connection refused") }

/-- Text mode with a renderer that fails. -/
def renderFailEnv : Env :=
  { scenarioEnv with
    templateString := fun _ _ =>
      ("", some (GoError.plain "template: nil pointer evaluating *fossa.Project.Title")) }

/-- A revision under the MIT license, used in the examples. -/
def mitRevision (title url : String) : Revision :=
  { Project := { Title := title, URL := url }, Licenses := [{ LicenseID := "MIT" }] }

/-- Thirteen revisions under one license, in title order except that the seventh one
has the title of the first. -/
def unstableRevs : List Revision :=
  [mitRevision "liba" "http://x/a", mitRevision "libb" "http://x/b",
   mitRevision "libc" "http://x/c", mitRevision "libd" "http://x/d",
   mitRevision "libe" "http://x/e", mitRevision "libf" "http://x/f",
   mitRevision "liba" "http://y/a",
   mitRevision "libg" "http://x/g", mitRevision "libh" "http://x/h",
   mitRevision "libi" "http://x/i", mitRevision "libj" "http://x/j",
   mitRevision "libk" "http://x/k", mitRevision "libl" "http://x/l"]

/-- Text mode with a service that returns `unstableRevs`. -/
def unstableEnv : Env :=
  { scenarioEnv with getRevisionDependencies := fun _ _ => Except.ok unstableRevs }

/-! ## The library sort meets its contract -/

section GoSortProofs

variable {α : Type}

/-! ### Swaps and comparisons by index -/

theorem length_swapAt (data : List α) (i j : Nat) : (swapAt data i j).length = data.length := by
  unfold swapAt
  split <;> simp

theorem getElem?_swapAt (data : List α) (i j k : Nat) (hi : i < data.length)
    (hj : j < data.length) : (swapAt data i j)[k]? = data[swapIdx i j k]? := by
  have h1 : data[i]? = some data[i] := List.getElem?_eq_getElem hi
  have h2 : data[j]? = some data[j] := List.getElem?_eq_getElem hj
  simp only [swapAt, h1, h2, swapIdx, List.getElem?_set, List.length_set]
  by_cases hkj : k = j
  · subst hkj
    by_cases hki : k = i
    · subst hki
      simp [hi, h1]
    · have : ¬ i = k := fun e => hki e.symm
      simp [hki, hj, h1]
  · have hjk : ¬ j = k := fun e => hkj e.symm
    by_cases hki : k = i
    · subst hki
      simp [hjk, hi, h2]
    · have : ¬ i = k := fun e => hki e.symm
      simp [hkj, hki, hjk, this]

theorem swapAt_of_not_lt (data : List α) (i j : Nat) (h : ¬ (i < data.length ∧ j < data.length)) :
    swapAt data i j = data := by
  unfold swapAt
  by_cases hi : i < data.length
  · have hj : ¬ j < data.length := fun hj => h ⟨hi, hj⟩
    have : data[j]? = none := List.getElem?_eq_none (Nat.le_of_not_lt hj)
    simp [this]
  · have : data[i]? = none := List.getElem?_eq_none (Nat.le_of_not_lt hi)
    simp [this]

theorem swapAt_perm (data : List α) (i j : Nat) : (swapAt data i j).Perm data := by
  classical
  by_cases h : i < data.length ∧ j < data.length
  · obtain ⟨hi, hj⟩ := h
    have h1 : data[i]? = some data[i] := List.getElem?_eq_getElem hi
    have h2 : data[j]? = some data[j] := List.getElem?_eq_getElem hj
    simp only [swapAt, h1, h2]
    rw [List.perm_iff_count]
    intro x
    rw [List.count_set _ _ _ _ (by simpa using hj), List.count_set _ _ _ _ hi]
    have c1 : (data[i] == x) = true → 1 ≤ data.count x := by
      intro hx
      have : data[i] = x := by simpa using hx
      rw [← this]
      exact List.count_pos_iff.mpr (List.getElem_mem hi)
    have c2 : (data[j] == x) = true → 1 ≤ data.count x := by
      intro hx
      have : data[j] = x := by simpa using hx
      rw [← this]
      exact List.count_pos_iff.mpr (List.getElem_mem hj)
    by_cases hij : i = j
    · subst hij
      simp only [List.getElem_set_self]
      by_cases hx : (data[i] == x) = true
      · have := c1 hx
        simp only [hx, ↓reduceIte]
        omega
      · simp only [hx, ↓reduceIte, Bool.false_eq_true]
        omega
    · have hget : ∀ (h : j < (data.set i data[j]).length), (data.set i data[j])[j] = data[j] :=
        fun h => List.getElem_set_ne hij h
      simp only [hget]
      by_cases hx : (data[i] == x) = true <;> by_cases hy : (data[j] == x) = true
      · have := c1 hx
        simp only [hx, hy, ↓reduceIte, Bool.false_eq_true]
        omega
      · have := c1 hx
        simp only [hx, hy, ↓reduceIte, Bool.false_eq_true]
        omega
      · have := c2 hy
        simp only [hx, hy, ↓reduceIte, Bool.false_eq_true]
        omega
      · simp only [hx, hy, ↓reduceIte, Bool.false_eq_true]
        omega
  · rw [swapAt_of_not_lt data i j h]


/-! ### Every step of the sort rearranges the slice -/

theorem foldl_perm {β : Type} (step : List α → β → List α)
    (h : ∀ d i, (step d i).Perm d) (l : List β) (data : List α) :
    (l.foldl step data).Perm data := by
  induction l generalizing data with
  | nil => exact List.Perm.refl _
  | cons x rest ih => exact (ih (step data x)).trans (h data x)

theorem insertionInner_perm (less : α → α → Bool) (a j : Nat) (data : List α) :
    (insertionInner less a j data).Perm data := by
  induction j generalizing data with
  | zero => exact List.Perm.refl _
  | succ j ih =>
    simp only [insertionInner]
    split
    · exact (ih _).trans (swapAt_perm _ _ _)
    · exact List.Perm.refl _

theorem insertionSort_func_perm (less : α → α → Bool) (data : List α) (a b : Nat) :
    (insertionSort_func less data a b).Perm data :=
  foldl_perm _ (fun d i => insertionInner_perm less a i d) _ _

theorem siftDown_func_perm (less : α → α → Bool) (hi first fuel root : Nat) (data : List α) :
    (siftDown_func less hi first fuel root data).Perm data := by
  induction fuel generalizing root data with
  | zero => exact List.Perm.refl _
  | succ fuel ih =>
    simp only [siftDown_func]
    split_ifs <;> first | exact List.Perm.refl _ | exact (ih _ _).trans (swapAt_perm _ _ _)

theorem heapSort_func_perm (less : α → α → Bool) (data : List α) (a b : Nat) :
    (heapSort_func less data a b).Perm data := by
  simp only [heapSort_func]
  refine (foldl_perm _ (fun d i => ?_) _ _).trans (foldl_perm _ (fun d i => ?_) _ _)
  · exact (siftDown_func_perm less _ _ _ _ _).trans (swapAt_perm _ _ _)
  · exact siftDown_func_perm less _ _ _ _ _

theorem partitionLoop_perm (less : α → α → Bool) (a fuel : Nat) (data : List α) (i j : Nat) :
    (partitionLoop less a fuel data i j).1.Perm data := by
  induction fuel generalizing data i j with
  | zero => exact List.Perm.refl _
  | succ fuel ih =>
    simp only [partitionLoop]
    split
    · exact List.Perm.refl _
    · exact (ih _ _ _).trans (swapAt_perm _ _ _)

theorem partition_func_perm (less : α → α → Bool) (data : List α) (a b pivot : Nat) :
    (partition_func less data a b pivot).1.Perm data := by
  simp only [partition_func]
  split
  · exact (swapAt_perm _ _ _).trans (swapAt_perm _ _ _)
  · exact (swapAt_perm _ _ _).trans ((partitionLoop_perm less _ _ _ _ _).trans
      ((swapAt_perm _ _ _).trans (swapAt_perm _ _ _)))

theorem partitionEqualLoop_perm (less : α → α → Bool) (a fuel : Nat) (data : List α)
    (i j : Nat) : (partitionEqualLoop less a fuel data i j).1.Perm data := by
  induction fuel generalizing data i j with
  | zero => exact List.Perm.refl _
  | succ fuel ih =>
    simp only [partitionEqualLoop]
    split
    · exact List.Perm.refl _
    · exact (ih _ _ _).trans (swapAt_perm _ _ _)

theorem partitionEqual_func_perm (less : α → α → Bool) (data : List α) (a b pivot : Nat) :
    (partitionEqual_func less data a b pivot).1.Perm data := by
  simp only [partitionEqual_func]
  exact (partitionEqualLoop_perm less _ _ _ _ _).trans (swapAt_perm _ _ _)

theorem shiftLeft_perm (less : α → α → Bool) (j : Nat) (data : List α) :
    (shiftLeft less j data).Perm data := by
  induction j generalizing data with
  | zero => exact List.Perm.refl _
  | succ j ih =>
    simp only [shiftLeft]
    split
    · exact List.Perm.refl _
    · exact (ih _).trans (swapAt_perm _ _ _)

theorem shiftRight_perm (less : α → α → Bool) (b fuel j : Nat) (data : List α) :
    (shiftRight less b fuel j data).Perm data := by
  induction fuel generalizing j data with
  | zero => exact List.Perm.refl _
  | succ fuel ih =>
    simp only [shiftRight]
    split
    · exact List.Perm.refl _
    · split
      · exact List.Perm.refl _
      · exact (ih _ _).trans (swapAt_perm _ _ _)

theorem perm_ite (c : Prop) [Decidable c] (x y data : List α) (hx : x.Perm data)
    (hy : y.Perm data) : (if c then x else y).Perm data := by
  split
  · exact hx
  · exact hy

theorem partialInsertionLoop_perm (less : α → α → Bool) (a b steps : Nat) (data : List α)
    (i : Nat) : (partialInsertionLoop less a b steps data i).1.Perm data := by
  induction steps generalizing data i with
  | zero => exact List.Perm.refl _
  | succ steps ih =>
    simp only [partialInsertionLoop]
    split
    · exact List.Perm.refl _
    · split
      · exact List.Perm.refl _
      · refine (ih _ _).trans ?_
        have h1 := swapAt_perm data (scanOrdered less data b (b - i) i)
          (scanOrdered less data b (b - i) i - 1)
        have h2 := perm_ite (2 ≤ scanOrdered less data b (b - i) i - a) _ _ data
          ((shiftLeft_perm less (scanOrdered less data b (b - i) i - 1) _).trans h1) h1
        exact perm_ite _ _ _ data ((shiftRight_perm less _ _ _ _).trans h2) h2

theorem partialInsertionSort_func_perm (less : α → α → Bool) (data : List α) (a b : Nat) :
    (partialInsertionSort_func less data a b).1.Perm data :=
  partialInsertionLoop_perm less a b 5 data (a + 1)

theorem breakPatterns_func_perm (data : List α) (a b : Nat) :
    (breakPatterns_func data a b).Perm data := by
  simp only [breakPatterns_func]
  split
  · have : ∀ (l : List Nat) (s : List α × Nat),
        ((l.foldl (fun (s : List α × Nat) (i : Nat) =>
          (swapAt s.1 (a + (b - a) / 4 * 2 - 1 - 1 + i)
            (a + (if b - a ≤ xorshiftNext s.2 &&& (nextPowerOfTwo (b - a) - 1)
              then (xorshiftNext s.2 &&& (nextPowerOfTwo (b - a) - 1)) - (b - a)
              else xorshiftNext s.2 &&& (nextPowerOfTwo (b - a) - 1))),
           xorshiftNext s.2)) s).1).Perm s.1 := by
      intro l
      induction l with
      | nil => intro s; exact List.Perm.refl _
      | cons x rest ih => intro s; exact (ih _).trans (swapAt_perm _ _ _)
    exact this _ _
  · exact List.Perm.refl _

theorem reverseRange_func_perm (data : List α) (a b : Nat) :
    (reverseRange_func data a b).Perm data :=
  foldl_perm _ (fun d _ => swapAt_perm d _ _) _ _

/-- One round of `pdqsort_func`, with the first part of the round folded into
`pdqPrepare`. -/
theorem pdqsort_func_succ (less : α → α → Bool) (fuel : Nat) (data : List α)
    (a b limit : Nat) (wasBalanced wasPartitioned : Bool) :
    pdqsort_func less (fuel + 1) data a b limit wasBalanced wasPartitioned =
      if b - a ≤ 12 then insertionSort_func less data a b
      else if limit = 0 then heapSort_func less data a b
      else if (pdqPrepare less data a b wasBalanced wasPartitioned).1.2 = true then
        (pdqPrepare less data a b wasBalanced wasPartitioned).1.1
      else if (decide (0 < a) && !lessAt less
          (pdqPrepare less data a b wasBalanced wasPartitioned).1.1 (a - 1)
          (pdqPrepare less data a b wasBalanced wasPartitioned).2) = true then
        pdqsort_func less fuel
          (partitionEqual_func less (pdqPrepare less data a b wasBalanced wasPartitioned).1.1 a b
            (pdqPrepare less data a b wasBalanced wasPartitioned).2).1
          (partitionEqual_func less (pdqPrepare less data a b wasBalanced wasPartitioned).1.1 a b
            (pdqPrepare less data a b wasBalanced wasPartitioned).2).2
          b (if (!wasBalanced) = true then limit - 1 else limit) wasBalanced wasPartitioned
      else if (partition_func less (pdqPrepare less data a b wasBalanced wasPartitioned).1.1 a b
            (pdqPrepare less data a b wasBalanced wasPartitioned).2).2.1 - a <
          b - (partition_func less (pdqPrepare less data a b wasBalanced wasPartitioned).1.1 a b
            (pdqPrepare less data a b wasBalanced wasPartitioned).2).2.1 then
        pdqsort_func less fuel
          (pdqsort_func less fuel
            (partition_func less (pdqPrepare less data a b wasBalanced wasPartitioned).1.1 a b
              (pdqPrepare less data a b wasBalanced wasPartitioned).2).1
            a
            (partition_func less (pdqPrepare less data a b wasBalanced wasPartitioned).1.1 a b
              (pdqPrepare less data a b wasBalanced wasPartitioned).2).2.1
            (if (!wasBalanced) = true then limit - 1 else limit) true true)
          ((partition_func less (pdqPrepare less data a b wasBalanced wasPartitioned).1.1 a b
              (pdqPrepare less data a b wasBalanced wasPartitioned).2).2.1 + 1)
          b (if (!wasBalanced) = true then limit - 1 else limit)
          (decide ((b - a) / 8 ≤
            (partition_func less (pdqPrepare less data a b wasBalanced wasPartitioned).1.1 a b
              (pdqPrepare less data a b wasBalanced wasPartitioned).2).2.1 - a))
          (partition_func less (pdqPrepare less data a b wasBalanced wasPartitioned).1.1 a b
              (pdqPrepare less data a b wasBalanced wasPartitioned).2).2.2
      else
        pdqsort_func less fuel
          (pdqsort_func less fuel
            (partition_func less (pdqPrepare less data a b wasBalanced wasPartitioned).1.1 a b
              (pdqPrepare less data a b wasBalanced wasPartitioned).2).1
            ((partition_func less (pdqPrepare less data a b wasBalanced wasPartitioned).1.1 a b
              (pdqPrepare less data a b wasBalanced wasPartitioned).2).2.1 + 1)
            b (if (!wasBalanced) = true then limit - 1 else limit) true true)
          a
          (partition_func less (pdqPrepare less data a b wasBalanced wasPartitioned).1.1 a b
              (pdqPrepare less data a b wasBalanced wasPartitioned).2).2.1
          (if (!wasBalanced) = true then limit - 1 else limit)
          (decide ((b - a) / 8 ≤
            b - (partition_func less (pdqPrepare less data a b wasBalanced wasPartitioned).1.1 a b
              (pdqPrepare less data a b wasBalanced wasPartitioned).2).2.1))
          (partition_func less (pdqPrepare less data a b wasBalanced wasPartitioned).1.1 a b
              (pdqPrepare less data a b wasBalanced wasPartitioned).2).2.2 := by
  rw [pdqsort_func]
  rfl

theorem pdqPrepare_perm (less : α → α → Bool) (data : List α) (a b : Nat)
    (wasBalanced wasPartitioned : Bool) :
    (pdqPrepare less data a b wasBalanced wasPartitioned).1.1.Perm data := by
  simp only [pdqPrepare]
  have h1 : (if (!wasBalanced) = true then breakPatterns_func data a b else data).Perm data :=
    perm_ite _ _ _ _ (breakPatterns_func_perm data a b) (List.Perm.refl _)
  generalize (if (!wasBalanced) = true then breakPatterns_func data a b else data) = d1 at h1 ⊢
  have h2 : (if (choosePivot_func less d1 a b).2 = sortedHint.decreasingHint
      then reverseRange_func d1 a b else d1).Perm data :=
    perm_ite _ _ _ _ ((reverseRange_func_perm d1 a b).trans h1) h1
  generalize (if (choosePivot_func less d1 a b).2 = sortedHint.decreasingHint
      then reverseRange_func d1 a b else d1) = d2 at h2 ⊢
  generalize (if (choosePivot_func less d1 a b).2 = sortedHint.decreasingHint
      then sortedHint.increasingHint else (choosePivot_func less d1 a b).2) = hint
  by_cases hc : (wasBalanced && wasPartitioned && decide (hint = sortedHint.increasingHint)) = true
  · simp only [hc, if_true]
    exact (partialInsertionSort_func_perm less d2 a b).trans h2
  · simp only [hc, if_false]
    exact h2

theorem pdqsort_func_perm (less : α → α → Bool) (fuel : Nat) (data : List α)
    (a b limit : Nat) (wasBalanced wasPartitioned : Bool) :
    (pdqsort_func less fuel data a b limit wasBalanced wasPartitioned).Perm data := by
  induction fuel generalizing data a b limit wasBalanced wasPartitioned with
  | zero => exact List.Perm.refl _
  | succ fuel ih =>
    rw [pdqsort_func_succ]
    have hp := pdqPrepare_perm less data a b wasBalanced wasPartitioned
    generalize (if (!wasBalanced) = true then limit - 1 else limit) = limit1
    split_ifs
    · exact insertionSort_func_perm less data a b
    · exact heapSort_func_perm less data a b
    · exact hp
    · exact (ih _ _ _ _ _ _).trans ((partitionEqual_func_perm less _ _ _ _).trans hp)
    · exact (ih _ _ _ _ _ _).trans ((ih _ _ _ _ _ _).trans
        ((partition_func_perm less _ _ _ _).trans hp))
    · exact (ih _ _ _ _ _ _).trans ((ih _ _ _ _ _ _).trans
        ((partition_func_perm less _ _ _ _).trans hp))

/-- The library sort returns a rearrangement of the slice, for every comparison. -/
theorem sortSlice_perm (less : α → α → Bool) (x : List α) : (sortSlice less x).Perm x :=
  pdqsort_func_perm less _ x 0 x.length _ true true

/-! ### Ranges of a slice -/

theorem lessAt_congr (less : α → α → Bool) (data data1 : List α) (i j i1 j1 : Nat)
    (hi : data1[i]? = data[i1]?) (hj : data1[j]? = data[j1]?) :
    lessAt less data1 i j = lessAt less data i1 j1 := by
  simp only [lessAt, hi, hj]

theorem lessAt_swapAt (less : α → α → Bool) (data : List α) (i j k l : Nat)
    (hi : i < data.length) (hj : j < data.length) :
    lessAt less (swapAt data i j) k l = lessAt less data (swapIdx i j k) (swapIdx i j l) :=
  lessAt_congr less data _ k l _ _ (getElem?_swapAt data i j k hi hj)
    (getElem?_swapAt data i j l hi hj)

theorem lessAt_irrefl {less : α → α → Bool} (sw : StrictWeak less) (data : List α) (i : Nat) :
    lessAt less data i i = false := by
  unfold lessAt
  cases data[i]? with
  | none => rfl
  | some x => exact sw.irrefl x

theorem lessAt_trans {less : α → α → Bool} (sw : StrictWeak less) (data : List α) (i j k : Nat)
    (h1 : lessAt less data i j = true) (h2 : lessAt less data j k = true) :
    lessAt less data i k = true := by
  unfold lessAt at *
  cases hi : data[i]? with
  | none => simp [hi] at h1
  | some x =>
    cases hj : data[j]? with
    | none => simp [hi, hj] at h1
    | some y =>
      cases hk : data[k]? with
      | none => simp [hj, hk] at h2
      | some z =>
        simp only [hi, hj, hk] at h1 h2 ⊢
        exact sw.trans x y z h1 h2

theorem lessAt_negtrans {less : α → α → Bool} (sw : StrictWeak less) (data : List α)
    (i j k : Nat) (hj : j < data.length)
    (h1 : lessAt less data i j = false) (h2 : lessAt less data j k = false) :
    lessAt less data i k = false := by
  unfold lessAt at *
  have hjs : data[j]? = some data[j] := List.getElem?_eq_getElem hj
  cases hi : data[i]? with
  | none => rfl
  | some x =>
    cases hk : data[k]? with
    | none => rfl
    | some z =>
      simp only [hi, hjs, hk] at h1 h2 ⊢
      exact sw.negtrans x _ z h1 h2

theorem lessAt_asymm {less : α → α → Bool} (sw : StrictWeak less) (data : List α) (i j : Nat)
    (h : lessAt less data i j = true) : lessAt less data j i = false := by
  cases h2 : lessAt less data j i with
  | false => rfl
  | true =>
    have := lessAt_trans sw data i j i h h2
    rw [lessAt_irrefl sw] at this
    exact absurd this (by simp)

theorem lessAt_lt_length_left (less : α → α → Bool) (data : List α) (i j : Nat)
    (h : lessAt less data i j = true) : i < data.length := by
  unfold lessAt at h
  by_contra hc
  have : data[i]? = none := List.getElem?_eq_none (Nat.le_of_not_lt hc)
  simp [this] at h

theorem lessAt_lt_length_right (less : α → α → Bool) (data : List α) (i j : Nat)
    (h : lessAt less data i j = true) : j < data.length := by
  unfold lessAt at h
  by_contra hc
  have : data[j]? = none := List.getElem?_eq_none (Nat.le_of_not_lt hc)
  cases hi : data[i]? <;> simp [this, hi] at h

/-- From `y >= p` and `x < p` follows `y >= x`. -/
theorem lessAt_false_of_ge_of_lt {less : α → α → Bool} (sw : StrictWeak less) (data : List α)
    (x y p : Nat) (h1 : lessAt less data y p = false) (h2 : lessAt less data x p = true) :
    lessAt less data y x = false := by
  cases h : lessAt less data y x with
  | false => rfl
  | true =>
    rw [lessAt_trans sw data y x p h h2] at h1
    exact absurd h1 (by simp)

/-- From `p < y` and `x <= p` follows `y >= x`. -/
theorem lessAt_false_of_gt_of_le {less : α → α → Bool} (sw : StrictWeak less) (data : List α)
    (x y p : Nat) (h1 : lessAt less data p y = true) (h2 : lessAt less data p x = false) :
    lessAt less data y x = false := by
  cases h : lessAt less data y x with
  | false => rfl
  | true =>
    rw [lessAt_trans sw data p y x h1 h] at h2
    exact absurd h2 (by simp)

theorem RangeKept.refl (data : List α) (a b : Nat) : RangeKept data data a b :=
  ⟨rfl, fun _ _ => rfl, fun k h1 h2 => ⟨k, h1, h2, rfl⟩⟩

theorem RangeKept.trans {data data1 data2 : List α} {a b : Nat}
    (h1 : RangeKept data data1 a b) (h2 : RangeKept data1 data2 a b) :
    RangeKept data data2 a b := by
  refine ⟨h2.length_eq.trans h1.length_eq, fun k hk => (h2.outside k hk).trans (h1.outside k hk),
    ?_⟩
  intro k hk1 hk2
  obtain ⟨k1, ha, hb, he⟩ := h2.inside k hk1 hk2
  obtain ⟨k2, ha2, hb2, he2⟩ := h1.inside k1 ha hb
  exact ⟨k2, ha2, hb2, he.trans he2⟩

theorem RangeKept.mono {data data1 : List α} {a b a1 b1 : Nat}
    (h : RangeKept data data1 a1 b1) (ha : a ≤ a1) (hb : b1 ≤ b) :
    RangeKept data data1 a b := by
  refine ⟨h.length_eq, fun k hk => h.outside k (by omega), ?_⟩
  intro k hk1 hk2
  by_cases hin : a1 ≤ k ∧ k < b1
  · obtain ⟨k1, h1, h2, h3⟩ := h.inside k hin.1 hin.2
    exact ⟨k1, by omega, by omega, h3⟩
  · exact ⟨k, hk1, hk2, h.outside k (by omega)⟩

theorem swapIdx_of_ne (i j k : Nat) (h1 : k ≠ i) (h2 : k ≠ j) : swapIdx i j k = k := by
  simp [swapIdx, h1, h2]

theorem swapIdx_left (i j : Nat) : swapIdx i j i = j := by
  simp [swapIdx]

theorem swapIdx_right (i j : Nat) : swapIdx i j j = i := by
  unfold swapIdx
  split
  · rename_i h
    exact h
  · simp

theorem RangeKept.swap (data : List α) (a b i j : Nat) (hb : b ≤ data.length)
    (hi1 : a ≤ i) (hi2 : i < b) (hj1 : a ≤ j) (hj2 : j < b) :
    RangeKept data (swapAt data i j) a b := by
  have hi : i < data.length := by omega
  have hj : j < data.length := by omega
  refine ⟨length_swapAt data i j, ?_, ?_⟩
  · intro k hk
    rw [getElem?_swapAt data i j k hi hj, swapIdx_of_ne i j k (by omega) (by omega)]
  · intro k hk1 hk2
    refine ⟨swapIdx i j k, ?_, ?_, getElem?_swapAt data i j k hi hj⟩
    · unfold swapIdx
      split_ifs <;> omega
    · unfold swapIdx
      split_ifs <;> omega

/-- A property of all elements of the range, stated by comparison with a position
outside the range, is kept. -/
theorem RangeKept.lessAt_left {less : α → α → Bool} {data data1 : List α} {a b : Nat}
    (h : RangeKept data data1 a b) (p : Nat) (hp : p < a ∨ b ≤ p) (v : Bool)
    (hall : ∀ k, a ≤ k → k < b → lessAt less data k p = v) :
    ∀ k, a ≤ k → k < b → lessAt less data1 k p = v := by
  intro k hk1 hk2
  obtain ⟨k1, h1, h2, h3⟩ := h.inside k hk1 hk2
  rw [lessAt_congr less data data1 k p k1 p h3 (h.outside p hp)]
  exact hall k1 h1 h2

theorem RangeKept.lessAt_right {less : α → α → Bool} {data data1 : List α} {a b : Nat}
    (h : RangeKept data data1 a b) (p : Nat) (hp : p < a ∨ b ≤ p) (v : Bool)
    (hall : ∀ k, a ≤ k → k < b → lessAt less data p k = v) :
    ∀ k, a ≤ k → k < b → lessAt less data1 p k = v := by
  intro k hk1 hk2
  obtain ⟨k1, h1, h2, h3⟩ := h.inside k hk1 hk2
  rw [lessAt_congr less data data1 p k p k1 (h.outside p hp) h3]
  exact hall k1 h1 h2

/-- A range that was in order stays in order when the data is only changed outside. -/
theorem SortedRange.of_outside {less : α → α → Bool} {data data1 : List α} {a b c d : Nat}
    (hs : SortedRange less data a b) (h : RangeKept data data1 c d)
    (hdis : d ≤ a ∨ b ≤ c) : SortedRange less data1 a b := by
  intro i j hi hij hj
  rw [lessAt_congr less data data1 j i j i (h.outside j (by omega)) (h.outside i (by omega))]
  exact hs i j hi hij hj

theorem foldl_range'_inv {β : Type} (step : β → Nat → β) (I : Nat → β → Prop) (n : Nat) :
    ∀ (s : Nat) (x : β), I s x →
      (∀ i d, s ≤ i → i < s + n → I i d → I (i + 1) (step d i)) →
      I (s + n) ((List.range' s n).foldl step x) := by
  induction n with
  | zero => intro s x h0 _; simpa using h0
  | succ n ih =>
    intro s x h0 hstep
    simp only [List.range', List.foldl_cons]
    have := ih (s + 1) (step x s) (hstep s x (Nat.le_refl _) (by omega) h0)
      (fun i d h1 h2 hI => hstep i d (by omega) (by omega) hI)
    have e : s + 1 + n = s + (n + 1) := by omega
    rw [e] at this
    exact this

theorem foldl_range_reverse_inv {β : Type} (step : β → Nat → β) (J : Nat → β → Prop) (n : Nat) :
    ∀ (x : β), J n x →
      (∀ i d, i < n → J (i + 1) d → J i (step d i)) →
      J 0 ((List.range n).reverse.foldl step x) := by
  induction n with
  | zero => intro x h0 _; simpa using h0
  | succ n ih =>
    intro x h0 hstep
    rw [List.range_succ, List.reverse_append]
    simp only [List.reverse_cons, List.reverse_nil, List.nil_append, List.singleton_append,
      List.foldl_cons]
    exact ih (step x n) (hstep n x (by omega) h0) (fun i d h1 hJ => hstep i d (by omega) hJ)

/-! ### Insertion sort -/

/-- The inner loop of insertion sort: when all pairs of `[a, i]` that do not involve
`j` are in order and the element at `j` is not greater than those after it, the loop
leaves `[a, i]` in order. -/
theorem insertionInner_spec {less : α → α → Bool} (sw : StrictWeak less) (a i : Nat) :
    ∀ (j : Nat) (data : List α), a ≤ j → j ≤ i → i < data.length →
      (∀ k m, a ≤ k → k < m → m ≤ i → k ≠ j → m ≠ j → lessAt less data m k = false) →
      (∀ m, j < m → m ≤ i → lessAt less data m j = false) →
      SortedRange less (insertionInner less a j data) a (i + 1) ∧
      RangeKept data (insertionInner less a j data) a (i + 1) := by
  intro j
  induction j with
  | zero =>
    intro data ha _ _ h1 h2
    have ha0 : a = 0 := by omega
    subst ha0
    simp only [insertionInner]
    refine ⟨?_, RangeKept.refl _ _ _⟩
    intro k m hk hkm hm
    by_cases hk0 : k = 0
    · subst hk0
      exact h2 m hkm (by omega)
    · exact h1 k m hk hkm (by omega) hk0 (by omega)
  | succ j ih =>
    intro data ha hji hi h1 h2
    simp only [insertionInner]
    by_cases hc : (decide (a < j + 1) && lessAt less data (j + 1) j) = true
    · simp only [hc, if_true]
      simp only [Bool.and_eq_true, decide_eq_true_eq] at hc
      obtain ⟨haj, hlt⟩ := hc
      have hj1 : j + 1 < data.length := by omega
      have hj0 : j < data.length := by omega
      have hlen := length_swapAt data (j + 1) j
      have hsw : ∀ k l, lessAt less (swapAt data (j + 1) j) k l =
          lessAt less data (swapIdx (j + 1) j k) (swapIdx (j + 1) j l) :=
        fun k l => lessAt_swapAt less data (j + 1) j k l hj1 hj0
      have := ih (swapAt data (j + 1) j) (by omega) (by omega) (by omega) ?_ ?_
      · exact ⟨this.1, (RangeKept.swap data a (i + 1) (j + 1) j (by omega) (by omega)
          (by omega) (by omega) (by omega)).trans this.2⟩
      · intro k m hk hkm hm hkj hmj
        rw [hsw]
        by_cases hm1 : m = j + 1
        · subst hm1
          rw [swapIdx_left, swapIdx_of_ne _ _ k (by omega) (by omega)]
          exact h1 k j hk (by omega) (by omega) (by omega) (by omega)
        · by_cases hk1 : k = j + 1
          · subst hk1
            rw [swapIdx_left, swapIdx_of_ne _ _ m (by omega) (by omega)]
            exact h1 j m (by omega) (by omega) hm (by omega) (by omega)
          · rw [swapIdx_of_ne _ _ k hk1 hkj, swapIdx_of_ne _ _ m hm1 hmj]
            exact h1 k m hk hkm hm hk1 hm1
      · intro m hjm hm
        rw [hsw, swapIdx_right]
        by_cases hm1 : m = j + 1
        · subst hm1
          rw [swapIdx_left]
          exact lessAt_asymm sw data (j + 1) j hlt
        · rw [swapIdx_of_ne _ _ m hm1 (by omega)]
          exact h2 m (by omega) hm
    · simp only [hc, if_false]
      refine ⟨?_, RangeKept.refl _ _ _⟩
      simp only [Bool.and_eq_true, decide_eq_true_eq, not_and, Bool.not_eq_true] at hc
      have hbelow : ∀ k, a ≤ k → k < j + 1 → lessAt less data (j + 1) k = false := by
        intro k hk hkj
        have haj : a < j + 1 := by omega
        have hjj := hc haj
        by_cases hkj2 : k = j
        · subst hkj2
          exact hjj
        · exact lessAt_negtrans sw data (j + 1) j k (by omega) hjj
            (h1 k j hk (by omega) (by omega) (by omega) (by omega))
      intro k m hk hkm hm
      by_cases hm1 : m = j + 1
      · subst hm1
        exact hbelow k hk hkm
      · by_cases hk1 : k = j + 1
        · subst hk1
          exact h2 m hkm (by omega)
        · exact h1 k m hk hkm (by omega) hk1 hm1

theorem SortedRange.empty (less : α → α → Bool) (data : List α) (a b : Nat) (h : b ≤ a + 1) :
    SortedRange less data a b := by
  intro i j hi hij hj
  omega

/-- Insertion sort puts the range `[a, b)` in order and keeps the range. -/
theorem insertionSort_func_spec {less : α → α → Bool} (sw : StrictWeak less) (data : List α)
    (a b : Nat) (hb : b ≤ data.length) :
    SortedRange less (insertionSort_func less data a b) a b ∧
    RangeKept data (insertionSort_func less data a b) a b := by
  by_cases hab : a + 1 ≤ b
  · have key := foldl_range'_inv (fun d i => insertionInner less a i d)
      (fun i d => SortedRange less d a i ∧ RangeKept data d a b) (b - (a + 1)) (a + 1) data
      ⟨SortedRange.empty less data a (a + 1) (Nat.le_refl _), RangeKept.refl _ _ _⟩ ?_
    · have e : a + 1 + (b - (a + 1)) = b := by omega
      rw [e] at key
      exact key
    · intro i d hi1 hi2 hI
      obtain ⟨hs, hk⟩ := hI
      have hlen : d.length = data.length := hk.length_eq
      have := insertionInner_spec sw a i i d (by omega) (Nat.le_refl _) (by omega)
        (fun k m h1 h2 h3 h4 h5 => hs k m h1 h2 (by omega))
        (fun m h1 h2 => by omega)
      exact ⟨this.1, hk.trans (this.2.mono (Nat.le_refl _) (by omega))⟩
  · have e : b - (a + 1) = 0 := by omega
    simp only [insertionSort_func, e, List.range', List.foldl_nil]
    exact ⟨SortedRange.empty less data a b (by omega), RangeKept.refl _ _ _⟩

/-! ### Partitioning around a pivot -/

theorem scanLess_spec (less : α → α → Bool) (data : List α) (a j : Nat) :
    ∀ (fuel i : Nat), i ≤ j + 1 → j + 1 - i ≤ fuel →
      i ≤ scanLess less data a j fuel i ∧ scanLess less data a j fuel i ≤ j + 1 ∧
      (∀ k, i ≤ k → k < scanLess less data a j fuel i → lessAt less data k a = true) ∧
      (scanLess less data a j fuel i ≤ j →
        lessAt less data (scanLess less data a j fuel i) a = false) := by
  intro fuel
  induction fuel with
  | zero =>
    intro i h1 h2
    simp only [scanLess]
    exact ⟨Nat.le_refl _, h1, fun k h3 h4 => by omega, fun h => by omega⟩
  | succ fuel ih =>
    intro i h1 h2
    simp only [scanLess]
    by_cases hc : (decide (i ≤ j) && lessAt less data i a) = true
    · simp only [hc, if_true]
      simp only [Bool.and_eq_true, decide_eq_true_eq] at hc
      obtain ⟨r1, r2, r3, r4⟩ := ih (i + 1) (by omega) (by omega)
      refine ⟨by omega, r2, ?_, r4⟩
      intro k hk1 hk2
      by_cases hki : k = i
      · subst hki
        exact hc.2
      · exact r3 k (by omega) hk2
    · simp only [hc, Bool.false_eq_true, if_false]
      simp only [Bool.and_eq_true, decide_eq_true_eq, not_and, Bool.not_eq_true] at hc
      exact ⟨Nat.le_refl _, h1, fun k h3 h4 => by omega, hc⟩

theorem scanNotLess_spec (less : α → α → Bool) (data : List α) (a i : Nat) (hi : 1 ≤ i) :
    ∀ (j : Nat), i ≤ j + 1 →
      scanNotLess less data a i j ≤ j ∧ i ≤ scanNotLess less data a i j + 1 ∧
      (∀ k, scanNotLess less data a i j < k → k ≤ j → lessAt less data k a = false) ∧
      (i ≤ scanNotLess less data a i j →
        lessAt less data (scanNotLess less data a i j) a = true) := by
  intro j
  induction j with
  | zero =>
    intro h1
    simp only [scanNotLess]
    exact ⟨Nat.le_refl _, h1, fun k h3 h4 => by omega, fun h => by omega⟩
  | succ j ih =>
    intro h1
    simp only [scanNotLess]
    by_cases hc : (decide (i ≤ j + 1) && !lessAt less data (j + 1) a) = true
    · simp only [hc, if_true]
      simp only [Bool.and_eq_true, decide_eq_true_eq, Bool.not_eq_true'] at hc
      obtain ⟨r1, r2, r3, r4⟩ := ih hc.1
      refine ⟨by omega, r2, ?_, r4⟩
      intro k hk1 hk2
      by_cases hkj : k = j + 1
      · subst hkj
        exact hc.2
      · exact r3 k hk1 (by omega)
    · simp only [hc, Bool.false_eq_true, if_false]
      simp only [Bool.and_eq_true, decide_eq_true_eq, Bool.not_eq_true', not_and,
        Bool.not_eq_false] at hc
      exact ⟨Nat.le_refl _, h1, fun k h3 h4 => by omega, hc⟩

/-- The last step of a partition: the pivot at `a` is exchanged with the last element
of the left part. -/
theorem partition_finish {less : α → α → Bool} (data : List α) (a b m : Nat)
    (ham : a ≤ m) (hmb : m < b) (hb : b ≤ data.length)
    (hL : ∀ k, a < k → k ≤ m → lessAt less data k a = true)
    (hR : ∀ k, m < k → k < b → lessAt less data k a = false) :
    RangeKept data (swapAt data m a) a b ∧
    (∀ k, a ≤ k → k < m → lessAt less (swapAt data m a) k m = true) ∧
    (∀ k, m < k → k < b → lessAt less (swapAt data m a) k m = false) := by
  have hsw : ∀ k l, lessAt less (swapAt data m a) k l =
      lessAt less data (swapIdx m a k) (swapIdx m a l) :=
    fun k l => lessAt_swapAt less data m a k l (by omega) (by omega)
  refine ⟨RangeKept.swap data a b m a hb ham hmb (Nat.le_refl _) (by omega), ?_, ?_⟩
  · intro k hk1 hk2
    rw [hsw, swapIdx_left]
    by_cases hka : k = a
    · subst hka
      rw [swapIdx_right]
      exact hL m (by omega) (Nat.le_refl _)
    · rw [swapIdx_of_ne _ _ k (by omega) hka]
      exact hL k (by omega) (by omega)
  · intro k hk1 hk2
    rw [hsw, swapIdx_left, swapIdx_of_ne _ _ k (by omega) (by omega)]
    exact hR k hk1 hk2

theorem partitionLoop_spec {less : α → α → Bool} (a b : Nat) :
    ∀ (fuel : Nat) (data : List α) (i j : Nat), a + 1 ≤ i → i ≤ j + 1 → j < b →
      b ≤ data.length → j + 1 - i < fuel →
      (∀ k, a < k → k < i → lessAt less data k a = true) →
      (∀ k, j < k → k < b → lessAt less data k a = false) →
      a ≤ (partitionLoop less a fuel data i j).2 ∧ (partitionLoop less a fuel data i j).2 < b ∧
      RangeKept data (partitionLoop less a fuel data i j).1 (a + 1) b ∧
      (∀ k, a < k → k ≤ (partitionLoop less a fuel data i j).2 →
        lessAt less (partitionLoop less a fuel data i j).1 k a = true) ∧
      (∀ k, (partitionLoop less a fuel data i j).2 < k → k < b →
        lessAt less (partitionLoop less a fuel data i j).1 k a = false) := by
  intro fuel
  induction fuel with
  | zero => intro data i j _ _ _ _ h; omega
  | succ fuel ih =>
    intro data i j hai hij hjb hb hfuel hL hR
    obtain ⟨s1, s2, s3, s4⟩ := scanLess_spec less data a j (j + 1 - i) i hij (Nat.le_refl _)
    obtain ⟨t1, t2, t3, t4⟩ := scanNotLess_spec less data a
      (scanLess less data a j (j + 1 - i) i) (by omega) j s2
    simp only [partitionLoop]
    generalize scanLess less data a j (j + 1 - i) i = i1 at s1 s2 s3 s4 t1 t2 t3 t4 ⊢
    generalize scanNotLess less data a i1 j = j1 at t1 t2 t3 t4 ⊢
    have hL1 : ∀ k, a < k → k < i1 → lessAt less data k a = true := by
      intro k hk1 hk2
      by_cases hki : k < i
      · exact hL k hk1 hki
      · exact s3 k (by omega) hk2
    have hR1 : ∀ k, j1 < k → k < b → lessAt less data k a = false := by
      intro k hk1 hk2
      by_cases hkj : j < k
      · exact hR k hkj hk2
      · exact t3 k hk1 (by omega)
    by_cases hc : j1 < i1
    · simp only [hc, if_true]
      refine ⟨by omega, by omega, RangeKept.refl _ _ _, ?_, hR1⟩
      intro k hk1 hk2
      exact hL1 k hk1 (by omega)
    · simp only [hc, if_false]
      have hi1 : lessAt less data i1 a = false := s4 (by omega)
      have hj1 : lessAt less data j1 a = true := t4 (by omega)
      have hne : i1 ≠ j1 := by
        intro e
        rw [e, hj1] at hi1
        exact absurd hi1 (by simp)
      have hsw : ∀ k l, lessAt less (swapAt data i1 j1) k l =
          lessAt less data (swapIdx i1 j1 k) (swapIdx i1 j1 l) :=
        fun k l => lessAt_swapAt less data i1 j1 k l (by omega) (by omega)
      have hlen := length_swapAt data i1 j1
      have hLn : ∀ k, a < k → k < i1 + 1 → lessAt less (swapAt data i1 j1) k a = true := by
        intro k hk1 hk2
        rw [hsw, swapIdx_of_ne _ _ a (by omega) (by omega)]
        by_cases hki : k = i1
        · subst hki
          rw [swapIdx_left]
          exact hj1
        · rw [swapIdx_of_ne _ _ k hki (by omega)]
          exact hL1 k hk1 (by omega)
      have hRn : ∀ k, j1 - 1 < k → k < b → lessAt less (swapAt data i1 j1) k a = false := by
        intro k hk1 hk2
        rw [hsw, swapIdx_of_ne _ _ a (by omega) (by omega)]
        by_cases hkj : k = j1
        · subst hkj
          rw [swapIdx_right]
          exact hi1
        · rw [swapIdx_of_ne _ _ k (by omega) hkj]
          exact hR1 k (by omega) hk2
      obtain ⟨r1, r2, r3, r4, r5⟩ := ih (swapAt data i1 j1) (i1 + 1) (j1 - 1) (by omega)
        (by omega) (by omega) (by omega) (by omega) hLn hRn
      exact ⟨r1, r2, (RangeKept.swap data (a + 1) b i1 j1 hb (by omega) (by omega)
        (by omega) (by omega)).trans r3, r4, r5⟩

/-- The partition: the pivot ends at `mid`, smaller elements stand before it, the
others after it, and the range is kept. -/
theorem partition_func_spec {less : α → α → Bool} (data : List α) (a b pivot : Nat)
    (hab : a < b) (hb : b ≤ data.length) (hp1 : a ≤ pivot) (hp2 : pivot < b) :
    a ≤ (partition_func less data a b pivot).2.1 ∧
    (partition_func less data a b pivot).2.1 < b ∧
    RangeKept data (partition_func less data a b pivot).1 a b ∧
    (∀ k, a ≤ k → k < (partition_func less data a b pivot).2.1 →
      lessAt less (partition_func less data a b pivot).1 k
        (partition_func less data a b pivot).2.1 = true) ∧
    (∀ k, (partition_func less data a b pivot).2.1 < k → k < b →
      lessAt less (partition_func less data a b pivot).1 k
        (partition_func less data a b pivot).2.1 = false) := by
  have hk0 := RangeKept.swap data a b a pivot hb (Nat.le_refl _) hab hp1 hp2
  have hlen0 := length_swapAt data a pivot
  simp only [partition_func]
  generalize swapAt data a pivot = d0 at hk0 hlen0 ⊢
  have e1 : b - 1 + 1 - (a + 1) = b - 1 - a := by omega
  obtain ⟨s1, s2, s3, s4⟩ := scanLess_spec less d0 a (b - 1) (b - 1 + 1 - (a + 1)) (a + 1)
    (by omega) (Nat.le_refl _)
  obtain ⟨t1, t2, t3, t4⟩ := scanNotLess_spec less d0 a
    (scanLess less d0 a (b - 1) (b - 1 + 1 - (a + 1)) (a + 1)) (by omega) (b - 1) s2
  generalize scanLess less d0 a (b - 1) (b - 1 + 1 - (a + 1)) (a + 1) = i1
    at s1 s2 s3 s4 t1 t2 t3 t4 ⊢
  generalize scanNotLess less d0 a i1 (b - 1) = j1 at t1 t2 t3 t4 ⊢
  have hL1 : ∀ k, a < k → k < i1 → lessAt less d0 k a = true :=
    fun k hk1 hk2 => s3 k (by omega) hk2
  have hR1 : ∀ k, j1 < k → k < b → lessAt less d0 k a = false :=
    fun k hk1 hk2 => t3 k hk1 (by omega)
  by_cases hc : j1 < i1
  · simp only [hc, if_true]
    obtain ⟨f1, f2, f3⟩ := @partition_finish α less d0 a b j1 (by omega) (by omega)
      (by omega) (fun k hk1 hk2 => hL1 k hk1 (by omega)) hR1
    exact ⟨by omega, by omega, hk0.trans f1, f2, f3⟩
  · simp only [hc, if_false]
    have hi1 : lessAt less d0 i1 a = false := s4 (by omega)
    have hj1 : lessAt less d0 j1 a = true := t4 (by omega)
    have hne : i1 ≠ j1 := by
      intro e
      rw [e, hj1] at hi1
      exact absurd hi1 (by simp)
    have hsw : ∀ k l, lessAt less (swapAt d0 i1 j1) k l =
        lessAt less d0 (swapIdx i1 j1 k) (swapIdx i1 j1 l) :=
      fun k l => lessAt_swapAt less d0 i1 j1 k l (by omega) (by omega)
    have hlen := length_swapAt d0 i1 j1
    have hLn : ∀ k, a < k → k < i1 + 1 → lessAt less (swapAt d0 i1 j1) k a = true := by
      intro k hk1 hk2
      rw [hsw, swapIdx_of_ne _ _ a (by omega) (by omega)]
      by_cases hki : k = i1
      · subst hki
        rw [swapIdx_left]
        exact hj1
      · rw [swapIdx_of_ne _ _ k hki (by omega)]
        exact hL1 k hk1 (by omega)
    have hRn : ∀ k, j1 - 1 < k → k < b → lessAt less (swapAt d0 i1 j1) k a = false := by
      intro k hk1 hk2
      rw [hsw, swapIdx_of_ne _ _ a (by omega) (by omega)]
      by_cases hkj : k = j1
      · subst hkj
        rw [swapIdx_right]
        exact hi1
      · rw [swapIdx_of_ne _ _ k (by omega) hkj]
        exact hR1 k (by omega) hk2
    obtain ⟨r1, r2, r3, r4, r5⟩ := @partitionLoop_spec α less a b (b - a)
      (swapAt d0 i1 j1) (i1 + 1) (j1 - 1) (by omega) (by omega) (by omega) (by omega) (by omega)
      hLn hRn
    generalize partitionLoop less a (b - a) (swapAt d0 i1 j1) (i1 + 1) (j1 - 1) = r
      at r1 r2 r3 r4 r5 ⊢
    obtain ⟨f1, f2, f3⟩ := @partition_finish α less r.1 a b r.2 r1 r2
      (by rw [r3.length_eq]; omega) r4 r5
    have hk1 := RangeKept.swap d0 a b i1 j1 (by omega) (by omega) (by omega) (by omega)
      (by omega)
    exact ⟨r1, r2, hk0.trans (hk1.trans ((r3.mono (Nat.le_succ a) (Nat.le_refl _)).trans f1)),
      f2, f3⟩

/-! ### Partitioning into elements equal to the pivot and greater ones -/

theorem scanNotGreater_spec (less : α → α → Bool) (data : List α) (a j : Nat) :
    ∀ (fuel i : Nat), i ≤ j + 1 → j + 1 - i ≤ fuel →
      i ≤ scanNotGreater less data a j fuel i ∧ scanNotGreater less data a j fuel i ≤ j + 1 ∧
      (∀ k, i ≤ k → k < scanNotGreater less data a j fuel i → lessAt less data a k = false) ∧
      (scanNotGreater less data a j fuel i ≤ j →
        lessAt less data a (scanNotGreater less data a j fuel i) = true) := by
  intro fuel
  induction fuel with
  | zero =>
    intro i h1 h2
    simp only [scanNotGreater]
    exact ⟨Nat.le_refl _, h1, fun k h3 h4 => by omega, fun h => by omega⟩
  | succ fuel ih =>
    intro i h1 h2
    simp only [scanNotGreater]
    by_cases hc : (decide (i ≤ j) && !lessAt less data a i) = true
    · simp only [hc, if_true]
      simp only [Bool.and_eq_true, decide_eq_true_eq, Bool.not_eq_true'] at hc
      obtain ⟨r1, r2, r3, r4⟩ := ih (i + 1) (by omega) (by omega)
      refine ⟨by omega, r2, ?_, r4⟩
      intro k hk1 hk2
      by_cases hki : k = i
      · subst hki
        exact hc.2
      · exact r3 k (by omega) hk2
    · simp only [hc, Bool.false_eq_true, if_false]
      simp only [Bool.and_eq_true, decide_eq_true_eq, Bool.not_eq_true', not_and,
        Bool.not_eq_false] at hc
      exact ⟨Nat.le_refl _, h1, fun k h3 h4 => by omega, hc⟩

theorem scanGreater_spec (less : α → α → Bool) (data : List α) (a i : Nat) (hi : 1 ≤ i) :
    ∀ (j : Nat), i ≤ j + 1 →
      scanGreater less data a i j ≤ j ∧ i ≤ scanGreater less data a i j + 1 ∧
      (∀ k, scanGreater less data a i j < k → k ≤ j → lessAt less data a k = true) ∧
      (i ≤ scanGreater less data a i j →
        lessAt less data a (scanGreater less data a i j) = false) := by
  intro j
  induction j with
  | zero =>
    intro h1
    simp only [scanGreater]
    exact ⟨Nat.le_refl _, h1, fun k h3 h4 => by omega, fun h => by omega⟩
  | succ j ih =>
    intro h1
    simp only [scanGreater]
    by_cases hc : (decide (i ≤ j + 1) && lessAt less data a (j + 1)) = true
    · simp only [hc, if_true]
      simp only [Bool.and_eq_true, decide_eq_true_eq] at hc
      obtain ⟨r1, r2, r3, r4⟩ := ih hc.1
      refine ⟨by omega, r2, ?_, r4⟩
      intro k hk1 hk2
      by_cases hkj : k = j + 1
      · subst hkj
        exact hc.2
      · exact r3 k hk1 (by omega)
    · simp only [hc, Bool.false_eq_true, if_false]
      simp only [Bool.and_eq_true, decide_eq_true_eq, not_and, Bool.not_eq_true] at hc
      exact ⟨Nat.le_refl _, h1, fun k h3 h4 => by omega, hc⟩

theorem partitionEqualLoop_spec {less : α → α → Bool} (a b : Nat) :
    ∀ (fuel : Nat) (data : List α) (i j : Nat), a + 1 ≤ i → i ≤ j + 1 → j < b →
      b ≤ data.length → j + 1 - i < fuel →
      (∀ k, a < k → k < i → lessAt less data a k = false) →
      (∀ k, j < k → k < b → lessAt less data a k = true) →
      a < (partitionEqualLoop less a fuel data i j).2 ∧
      (partitionEqualLoop less a fuel data i j).2 ≤ b ∧
      RangeKept data (partitionEqualLoop less a fuel data i j).1 (a + 1) b ∧
      (∀ k, a < k → k < (partitionEqualLoop less a fuel data i j).2 →
        lessAt less (partitionEqualLoop less a fuel data i j).1 a k = false) ∧
      (∀ k, (partitionEqualLoop less a fuel data i j).2 ≤ k → k < b →
        lessAt less (partitionEqualLoop less a fuel data i j).1 a k = true) := by
  intro fuel
  induction fuel with
  | zero => intro data i j _ _ _ _ h; omega
  | succ fuel ih =>
    intro data i j hai hij hjb hb hfuel hL hR
    obtain ⟨s1, s2, s3, s4⟩ := scanNotGreater_spec less data a j (j + 1 - i) i hij
      (Nat.le_refl _)
    obtain ⟨t1, t2, t3, t4⟩ := scanGreater_spec less data a
      (scanNotGreater less data a j (j + 1 - i) i) (by omega) j s2
    simp only [partitionEqualLoop]
    generalize scanNotGreater less data a j (j + 1 - i) i = i1 at s1 s2 s3 s4 t1 t2 t3 t4 ⊢
    generalize scanGreater less data a i1 j = j1 at t1 t2 t3 t4 ⊢
    have hL1 : ∀ k, a < k → k < i1 → lessAt less data a k = false := by
      intro k hk1 hk2
      by_cases hki : k < i
      · exact hL k hk1 hki
      · exact s3 k (by omega) hk2
    have hR1 : ∀ k, j1 < k → k < b → lessAt less data a k = true := by
      intro k hk1 hk2
      by_cases hkj : j < k
      · exact hR k hkj hk2
      · exact t3 k hk1 (by omega)
    by_cases hc : j1 < i1
    · simp only [hc, if_true]
      exact ⟨by omega, by omega, RangeKept.refl _ _ _, hL1, fun k hk1 hk2 => hR1 k (by omega) hk2⟩
    · simp only [hc, if_false]
      have hi1 : lessAt less data a i1 = true := s4 (by omega)
      have hj1 : lessAt less data a j1 = false := t4 (by omega)
      have hne : i1 ≠ j1 := by
        intro e
        rw [e, hj1] at hi1
        exact absurd hi1 (by simp)
      have hsw : ∀ k l, lessAt less (swapAt data i1 j1) k l =
          lessAt less data (swapIdx i1 j1 k) (swapIdx i1 j1 l) :=
        fun k l => lessAt_swapAt less data i1 j1 k l (by omega) (by omega)
      have hlen := length_swapAt data i1 j1
      have hLn : ∀ k, a < k → k < i1 + 1 → lessAt less (swapAt data i1 j1) a k = false := by
        intro k hk1 hk2
        rw [hsw, swapIdx_of_ne _ _ a (by omega) (by omega)]
        by_cases hki : k = i1
        · subst hki
          rw [swapIdx_left]
          exact hj1
        · rw [swapIdx_of_ne _ _ k hki (by omega)]
          exact hL1 k hk1 (by omega)
      have hRn : ∀ k, j1 - 1 < k → k < b → lessAt less (swapAt data i1 j1) a k = true := by
        intro k hk1 hk2
        rw [hsw, swapIdx_of_ne _ _ a (by omega) (by omega)]
        by_cases hkj : k = j1
        · subst hkj
          rw [swapIdx_right]
          exact hi1
        · rw [swapIdx_of_ne _ _ k (by omega) hkj]
          exact hR1 k (by omega) hk2
      obtain ⟨r1, r2, r3, r4, r5⟩ := ih (swapAt data i1 j1) (i1 + 1) (j1 - 1) (by omega)
        (by omega) (by omega) (by omega) (by omega) hLn hRn
      exact ⟨r1, r2, (RangeKept.swap data (a + 1) b i1 j1 hb (by omega) (by omega)
        (by omega) (by omega)).trans r3, r4, r5⟩

/-- The partition of a range without elements smaller than the pivot: the elements
before the returned index are equal to the pivot, which stands at `a`, the others are
greater, and the range is kept. -/
theorem partitionEqual_func_spec {less : α → α → Bool} (sw : StrictWeak less) (data : List α)
    (a b pivot : Nat) (hab : a < b) (hb : b ≤ data.length) (hp1 : a ≤ pivot) (hp2 : pivot < b)
    (hpre : ∀ k, a ≤ k → k < b → lessAt less data k pivot = false) :
    a < (partitionEqual_func less data a b pivot).2 ∧
    (partitionEqual_func less data a b pivot).2 ≤ b ∧
    RangeKept data (partitionEqual_func less data a b pivot).1 a b ∧
    (∀ k, a ≤ k → k < (partitionEqual_func less data a b pivot).2 →
      lessAt less (partitionEqual_func less data a b pivot).1 a k = false ∧
      lessAt less (partitionEqual_func less data a b pivot).1 k a = false) ∧
    (∀ k, (partitionEqual_func less data a b pivot).2 ≤ k → k < b →
      lessAt less (partitionEqual_func less data a b pivot).1 a k = true) := by
  have hk0 := RangeKept.swap data a b a pivot hb (Nat.le_refl _) hab hp1 hp2
  have hlen0 := length_swapAt data a pivot
  have hpre0 : ∀ k, a ≤ k → k < b → lessAt less (swapAt data a pivot) k a = false := by
    intro k hk1 hk2
    rw [lessAt_swapAt less data a pivot k a (by omega) (by omega), swapIdx_left]
    apply hpre
    · unfold swapIdx
      split_ifs <;> omega
    · unfold swapIdx
      split_ifs <;> omega
  simp only [partitionEqual_func]
  generalize swapAt data a pivot = d0 at hk0 hlen0 hpre0 ⊢
  obtain ⟨r1, r2, r3, r4, r5⟩ := @partitionEqualLoop_spec α less a b (b - a + 1) d0
    (a + 1) (b - 1) (Nat.le_refl _) (by omega) (by omega) (by omega) (by omega)
    (fun k h1 h2 => by omega) (fun k h1 h2 => by omega)
  generalize partitionEqualLoop less a (b - a + 1) d0 (a + 1) (b - 1) = r at r1 r2 r3 r4 r5 ⊢
  refine ⟨r1, r2, hk0.trans (r3.mono (Nat.le_succ a) (Nat.le_refl _)), ?_, r5⟩
  intro k hk1 hk2
  by_cases hka : k = a
  · subst hka
    exact ⟨lessAt_irrefl sw _ _, lessAt_irrefl sw _ _⟩
  · refine ⟨r4 k (by omega) hk2, ?_⟩
    exact r3.lessAt_left a (Or.inl (Nat.lt_succ_self a)) false
      (fun k h1 h2 => hpre0 k (by omega) h2) k (by omega) (by omega)

/-! ### The pivot and the pattern breaking stay inside the range -/

theorem foldl_RangeKept {β : Type} (step : List α → β → List α) (a b : Nat) (l : List β)
    (h : ∀ d x, x ∈ l → b ≤ d.length → RangeKept d (step d x) a b) :
    ∀ (data : List α), b ≤ data.length → RangeKept data (l.foldl step data) a b := by
  induction l with
  | nil => intro data _; exact RangeKept.refl _ _ _
  | cons x rest ih =>
    intro data hb
    have h1 := h data x (by simp) hb
    have h2 := ih (fun d y hy hd => h d y (by simp [hy]) hd) (step data x)
      (by rw [h1.length_eq]; exact hb)
    exact h1.trans h2

theorem reverseRange_func_kept (data : List α) (a b : Nat) (hb : b ≤ data.length) :
    RangeKept data (reverseRange_func data a b) a b := by
  apply foldl_RangeKept _ a b _ _ data hb
  intro d k hk hd
  have hk2 : k < (b - a) / 2 := List.mem_range.mp hk
  exact RangeKept.swap d a b (a + k) (b - 1 - k) hd (by omega) (by omega) (by omega) (by omega)

theorem nextPowerOfTwo_le (length : Nat) (h : length ≠ 0) : nextPowerOfTwo length ≤ 2 * length := by
  unfold nextPowerOfTwo bitsLen
  simp only [h, if_false]
  have h1 : 2 ^ length.log2 ≤ length := Nat.log2_self_le h
  have h2 : 1 <<< (length.log2 + 1) = 2 ^ (length.log2 + 1) := Nat.one_shiftLeft _
  rw [h2]
  have h3 : 2 ^ (length.log2 + 1) = 2 * 2 ^ length.log2 := by
    rw [Nat.pow_succ, Nat.mul_comm]
  have h4 := Nat.mod_le (2 ^ (length.log2 + 1)) (2 ^ 64)
  omega

theorem foldl_pair_kept {β γ : Type} (f : List α × γ → β → List α × γ) (a b : Nat)
    (l : List β)
    (h : ∀ s x, x ∈ l → b ≤ s.1.length → RangeKept s.1 (f s x).1 a b) :
    ∀ (s : List α × γ), b ≤ s.1.length → RangeKept s.1 (l.foldl f s).1 a b := by
  induction l with
  | nil => intro s _; exact RangeKept.refl _ _ _
  | cons x rest ih =>
    intro s hs
    have h1 := h s x (by simp) hs
    have h2 := ih (fun d y hy hd => h d y (by simp [hy]) hd) (f s x)
      (by rw [h1.length_eq]; exact hs)
    exact h1.trans h2

theorem breakPatterns_func_kept (data : List α) (a b : Nat) (hb : b ≤ data.length) :
    RangeKept data (breakPatterns_func data a b) a b := by
  simp only [breakPatterns_func]
  split
  · rename_i h8
    have hm := nextPowerOfTwo_le (b - a) (by omega)
    apply foldl_pair_kept _ a b _ _ (data, b - a) hb
    intro s x hx hs
    have hx3 : x < 3 := List.mem_range.mp hx
    have hand : xorshiftNext s.2 &&& (nextPowerOfTwo (b - a) - 1) ≤
        nextPowerOfTwo (b - a) - 1 := Nat.and_le_right
    apply RangeKept.swap s.1 a b _ _ hs
    · omega
    · omega
    · omega
    · split <;> omega
  · exact RangeKept.refl _ _ _

theorem order2_func_mem (less : α → α → Bool) (data : List α) (a b swaps : Nat) :
    ((order2_func less data a b swaps).1 = a ∧ (order2_func less data a b swaps).2.1 = b) ∨
    ((order2_func less data a b swaps).1 = b ∧ (order2_func less data a b swaps).2.1 = a) := by
  unfold order2_func
  split
  · exact Or.inr ⟨rfl, rfl⟩
  · exact Or.inl ⟨rfl, rfl⟩

theorem median_func_mem (less : α → α → Bool) (data : List α) (a b c swaps : Nat) :
    (median_func less data a b c swaps).1 = a ∨ (median_func less data a b c swaps).1 = b ∨
    (median_func less data a b c swaps).1 = c := by
  simp only [median_func, order2_func]
  split_ifs <;> simp

theorem choosePivot_func_mem (less : α → α → Bool) (data : List α) (a b : Nat)
    (h : 12 < b - a) :
    a ≤ (choosePivot_func less data a b).1 ∧ (choosePivot_func less data a b).1 < b := by
  have h8 : 8 ≤ b - a := by omega
  have hfst : ∀ (r : Nat × Nat),
      (if r.2 = 0 then (r.1, sortedHint.increasingHint)
        else if r.2 = 12 then (r.1, sortedHint.decreasingHint)
        else (r.1, sortedHint.unknownHint)).1 = r.1 := by
    intro r
    split_ifs <;> rfl
  simp only [choosePivot_func, h8, if_true, hfst]
  by_cases h50 : 50 ≤ b - a
  · simp only [h50, if_true, medianAdjacent_func]
    have m1 := median_func_mem less data (a + (b - a) / 4 * 1 - 1) (a + (b - a) / 4 * 1)
      (a + (b - a) / 4 * 1 + 1) 0
    generalize median_func less data (a + (b - a) / 4 * 1 - 1) (a + (b - a) / 4 * 1)
      (a + (b - a) / 4 * 1 + 1) 0 = r1 at m1 ⊢
    have m2 := median_func_mem less data (a + (b - a) / 4 * 2 - 1) (a + (b - a) / 4 * 2)
      (a + (b - a) / 4 * 2 + 1) r1.2
    generalize median_func less data (a + (b - a) / 4 * 2 - 1) (a + (b - a) / 4 * 2)
      (a + (b - a) / 4 * 2 + 1) r1.2 = r2 at m2 ⊢
    have m3 := median_func_mem less data (a + (b - a) / 4 * 3 - 1) (a + (b - a) / 4 * 3)
      (a + (b - a) / 4 * 3 + 1) r2.2
    generalize median_func less data (a + (b - a) / 4 * 3 - 1) (a + (b - a) / 4 * 3)
      (a + (b - a) / 4 * 3 + 1) r2.2 = r3 at m3 ⊢
    have m4 := median_func_mem less data r1.1 r2.1 r3.1 r3.2
    generalize median_func less data r1.1 r2.1 r3.1 r3.2 = r4 at m4 ⊢
    omega
  · simp only [h50, if_false]
    have m4 := median_func_mem less data (a + (b - a) / 4 * 1) (a + (b - a) / 4 * 2)
      (a + (b - a) / 4 * 3) 0
    generalize median_func less data (a + (b - a) / 4 * 1) (a + (b - a) / 4 * 2)
      (a + (b - a) / 4 * 3) 0 = r4 at m4 ⊢
    omega

/-! ### The partial insertion sort -/

/-- A range in order stays in order when an element that is not smaller than its
neighbour on the left is added at the end. -/
theorem SortedRange.extend {less : α → α → Bool} (sw : StrictWeak less) (data : List α)
    (a k : Nat) (hk : k < data.length) (hs : SortedRange less data a k)
    (hadj : a < k → lessAt less data k (k - 1) = false) : SortedRange less data a (k + 1) := by
  intro i j hi hij hj
  by_cases hjk : j = k
  · subst hjk
    by_cases hi1 : i = j - 1
    · subst hi1
      exact hadj (by omega)
    · exact lessAt_negtrans sw data j (j - 1) i (by omega) (hadj (by omega))
        (hs i (j - 1) hi (by omega) (by omega))
  · exact hs i j hi hij (by omega)

theorem scanOrdered_spec {less : α → α → Bool} (sw : StrictWeak less) (data : List α)
    (a b : Nat) (hb : b ≤ data.length) :
    ∀ (fuel i : Nat), a < i → i ≤ b → b - i ≤ fuel → SortedRange less data a i →
      i ≤ scanOrdered less data b fuel i ∧ scanOrdered less data b fuel i ≤ b ∧
      SortedRange less data a (scanOrdered less data b fuel i) ∧
      (scanOrdered less data b fuel i < b →
        lessAt less data (scanOrdered less data b fuel i)
          (scanOrdered less data b fuel i - 1) = true) := by
  intro fuel
  induction fuel with
  | zero =>
    intro i h1 h2 h3 hs
    simp only [scanOrdered]
    exact ⟨Nat.le_refl _, h2, hs, fun h => by omega⟩
  | succ fuel ih =>
    intro i h1 h2 h3 hs
    simp only [scanOrdered]
    by_cases hc : (decide (i < b) && !lessAt less data i (i - 1)) = true
    · simp only [hc, if_true]
      simp only [Bool.and_eq_true, decide_eq_true_eq, Bool.not_eq_true'] at hc
      obtain ⟨r1, r2, r3, r4⟩ := ih (i + 1) (by omega) (by omega) (by omega)
        (SortedRange.extend sw data a i (by omega) hs (fun _ => hc.2))
      exact ⟨by omega, r2, r3, r4⟩
    · simp only [hc, Bool.false_eq_true, if_false]
      simp only [Bool.and_eq_true, decide_eq_true_eq, Bool.not_eq_true', not_and,
        Bool.not_eq_false] at hc
      exact ⟨Nat.le_refl _, h2, hs, hc⟩

/-- Under the bound on the left neighbour of the range, the shifting loop that runs
down to index 1 is the inner loop of insertion sort on the range. -/
theorem shiftLeft_eq_insertionInner {less : α → α → Bool} (a : Nat) :
    ∀ (j : Nat) (data : List α), a ≤ j → j < data.length →
      (a = 0 ∨ ∀ k, a ≤ k → k ≤ j → lessAt less data k (a - 1) = false) →
      shiftLeft less j data = insertionInner less a j data := by
  intro j
  induction j with
  | zero => intro data _ _ _; rfl
  | succ j ih =>
    intro data haj hj hinv
    simp only [shiftLeft, insertionInner]
    by_cases ha : a < j + 1
    · by_cases hl : lessAt less data (j + 1) j = true
      · simp only [ha, hl, decide_True, Bool.and_self, if_true, Bool.not_true,
          Bool.false_eq_true, if_false]
        apply ih _ (by omega) (by rw [length_swapAt]; omega)
        by_cases h0 : a = 0
        · exact Or.inl h0
        · right
          have hinv := hinv.resolve_left h0
          intro k hk1 hk2
          rw [lessAt_swapAt less data (j + 1) j k (a - 1) hj (by omega),
            swapIdx_of_ne _ _ (a - 1) (by omega) (by omega)]
          apply hinv
          · unfold swapIdx
            split_ifs <;> omega
          · unfold swapIdx
            split_ifs <;> omega
      · have hl2 : lessAt less data (j + 1) j = false := by simpa using hl
        simp [hl2]
    · have haj2 : a = j + 1 := by omega
      rcases hinv with h0 | hinv
      · omega
      · have := hinv a (Nat.le_refl _) haj
        have e : a - 1 = j := by omega
        rw [e, haj2] at this
        simp [this, ha]

theorem shiftRight_kept (less : α → α → Bool) (b : Nat) :
    ∀ (fuel j : Nat) (data : List α), 1 ≤ j → b ≤ data.length →
      RangeKept data (shiftRight less b fuel j data) (j - 1) b := by
  intro fuel
  induction fuel with
  | zero => intro j data _ _; exact RangeKept.refl _ _ _
  | succ fuel ih =>
    intro j data hj hb
    simp only [shiftRight]
    split_ifs with h1 h2
    · exact RangeKept.refl _ _ _
    · exact RangeKept.refl _ _ _
    · have hs := RangeKept.swap data (j - 1) b j (j - 1) hb (by omega) (by omega)
        (Nat.le_refl _) (by omega)
      have := ih (j + 1) (swapAt data j (j - 1)) (by omega) (by rw [length_swapAt]; exact hb)
      exact hs.trans (this.mono (by omega) (Nat.le_refl _))

theorem partialInsertionLoop_spec {less : α → α → Bool} (sw : StrictWeak less)
    (orig : List α) (a b : Nat) (hb : b ≤ orig.length)
    (hinv : a = 0 ∨ ∀ k, a ≤ k → k < b → lessAt less orig k (a - 1) = false) :
    ∀ (steps : Nat) (data : List α) (i : Nat), a < i → i ≤ b → RangeKept orig data a b →
      SortedRange less data a i →
      RangeKept orig (partialInsertionLoop less a b steps data i).1 a b ∧
      ((partialInsertionLoop less a b steps data i).2 = true →
        SortedRange less (partialInsertionLoop less a b steps data i).1 a b) := by
  intro steps
  induction steps with
  | zero =>
    intro data i _ _ hk _
    simp only [partialInsertionLoop]
    exact ⟨hk, fun h => by simp at h⟩
  | succ steps ih =>
    intro data i hai hib hk hs
    have hlen : data.length = orig.length := hk.length_eq
    obtain ⟨s1, s2, s3, s4⟩ := scanOrdered_spec sw data a b (by omega) (b - i) i hai hib
      (Nat.le_refl _) hs
    simp only [partialInsertionLoop]
    generalize scanOrdered less data b (b - i) i = r at s1 s2 s3 s4 ⊢
    by_cases hrb : r = b
    · simp only [hrb, if_true]
      subst hrb
      exact ⟨hk, fun _ => s3⟩
    · simp only [hrb, if_false]
      by_cases h50 : b - a < 50
      · simp only [h50, if_true]
        exact ⟨hk, fun h => by simp at h⟩
      · simp only [h50, if_false]
        have hinv1 : a = 0 ∨ ∀ k, a ≤ k → k < b → lessAt less data k (a - 1) = false := by
          by_cases h0 : a = 0
          · exact Or.inl h0
          · exact Or.inr (hk.lessAt_left (a - 1) (Or.inl (by omega)) false
              (hinv.resolve_left h0))
        have hk1 := RangeKept.swap data a b r (r - 1) (by omega) (by omega) (by omega)
          (by omega) (by omega)
        have hs1 : SortedRange less (swapAt data r (r - 1)) a (r - 1) := by
          intro x y hx hxy hy
          rw [lessAt_swapAt less data r (r - 1) y x (by omega) (by omega),
            swapIdx_of_ne _ _ y (by omega) (by omega),
            swapIdx_of_ne _ _ x (by omega) (by omega)]
          exact s3 x y hx hxy (by omega)
        generalize swapAt data r (r - 1) = d1 at hk1 hs1 ⊢
        have hlen1 : d1.length = data.length := hk1.length_eq
        have hinv2 : a = 0 ∨ ∀ k, a ≤ k → k < b → lessAt less d1 k (a - 1) = false := by
          by_cases h0 : a = 0
          · exact Or.inl h0
          · exact Or.inr (hk1.lessAt_left (a - 1) (Or.inl (by omega)) false
              (hinv1.resolve_left h0))
        have h2 : RangeKept d1 (if 2 ≤ r - a then shiftLeft less (r - 1) d1 else d1) a b ∧
            SortedRange less (if 2 ≤ r - a then shiftLeft less (r - 1) d1 else d1) a r := by
          by_cases hra : 2 ≤ r - a
          · simp only [hra, if_true]
            rw [shiftLeft_eq_insertionInner a (r - 1) d1 (by omega) (by omega) (by
              rcases hinv2 with h0 | hinv2
              · exact Or.inl h0
              · exact Or.inr (fun k h1 h2 => hinv2 k h1 (by omega)))]
            have := insertionInner_spec sw a (r - 1) (r - 1) d1 (by omega) (Nat.le_refl _)
              (by omega) (fun k m h1 h2 h3 h4 h5 => hs1 k m h1 h2 (by omega))
              (fun m h1 h2 => by omega)
            have e : r - 1 + 1 = r := by omega
            rw [e] at this
            exact ⟨this.2.mono (Nat.le_refl _) (by omega), this.1⟩
          · simp only [hra, if_false]
            exact ⟨RangeKept.refl _ _ _, SortedRange.empty less d1 a r (by omega)⟩
        generalize (if 2 ≤ r - a then shiftLeft less (r - 1) d1 else d1) = d2 at h2 ⊢
        have hlen2 : d2.length = d1.length := h2.1.length_eq
        have h3 : RangeKept d2
            (if 2 ≤ b - r then shiftRight less b (b - r) (r + 1) d2 else d2) r b := by
          by_cases hbr : 2 ≤ b - r
          · simp only [hbr, if_true]
            have := shiftRight_kept less b (b - r) (r + 1) d2 (by omega) (by omega)
            exact this
          · simp only [hbr, if_false]
            exact RangeKept.refl _ _ _
        generalize (if 2 ≤ b - r then shiftRight less b (b - r) (r + 1) d2 else d2) = d3 at h3 ⊢
        exact ih d3 r (by omega) (by omega)
          (hk.trans (hk1.trans (h2.1.trans (h3.mono (by omega) (Nat.le_refl _)))))
          (h2.2.of_outside h3 (Or.inr (Nat.le_refl _)))

/-- The partial insertion sort keeps the range, and the range is in order when it
reports so. -/
theorem partialInsertionSort_func_spec {less : α → α → Bool} (sw : StrictWeak less)
    (data : List α) (a b : Nat) (hab : a < b) (hb : b ≤ data.length)
    (hinv : a = 0 ∨ ∀ k, a ≤ k → k < b → lessAt less data k (a - 1) = false) :
    RangeKept data (partialInsertionSort_func less data a b).1 a b ∧
    ((partialInsertionSort_func less data a b).2 = true →
      SortedRange less (partialInsertionSort_func less data a b).1 a b) :=
  partialInsertionLoop_spec sw data a b hb hinv 5 data (a + 1) (by omega) (by omega)
    (RangeKept.refl _ _ _) (SortedRange.empty less data a (a + 1) (Nat.le_refl _))

/-! ### Heap sort -/

theorem swapIdx_add (first r c x : Nat) :
    swapIdx (first + r) (first + c) (first + x) = first + swapIdx r c x := by
  unfold swapIdx
  split_ifs <;> omega

theorem siftDown_func_spec {less : α → α → Bool} (sw : StrictWeak less) (hi first lo : Nat) :
    ∀ (fuel root : Nat) (data : List α), lo ≤ root → hi - root ≤ fuel →
      first + hi ≤ data.length →
      (∀ p, lo ≤ p → p ≠ root → HeapAt less data first hi p) →
      (lo < root → lo ≤ (root - 1) / 2 ∧ ∀ c, (c = 2 * root + 1 ∨ c = 2 * root + 2) → c < hi →
        lessAt less data (first + (root - 1) / 2) (first + c) = false) →
      (∀ p, lo ≤ p → HeapAt less (siftDown_func less hi first fuel root data) first hi p) ∧
      RangeKept data (siftDown_func less hi first fuel root data) (first + lo) (first + hi) := by
  intro fuel
  induction fuel with
  | zero =>
    intro root data hlo hfuel hlen h1 h2
    simp only [siftDown_func]
    refine ⟨?_, RangeKept.refl _ _ _⟩
    intro p hp
    by_cases hpr : p = root
    · subst hpr
      intro c hc hchi
      omega
    · exact h1 p hp hpr
  | succ fuel ih =>
    intro root data hlo hfuel hlen h1 h2
    simp only [siftDown_func]
    by_cases hleaf : hi ≤ 2 * root + 1
    · simp only [hleaf, if_true]
      refine ⟨?_, RangeKept.refl _ _ _⟩
      intro p hp
      by_cases hpr : p = root
      · subst hpr
        intro c hc hchi
        omega
      · exact h1 p hp hpr
    · simp only [hleaf, if_false]
      -- the larger child and its sibling
      have hsel : ∃ child, child = (if (decide (2 * root + 1 + 1 < hi) &&
            lessAt less data (first + (2 * root + 1)) (first + (2 * root + 1) + 1)) = true
          then 2 * root + 1 + 1 else 2 * root + 1) ∧
          (child = 2 * root + 1 ∨ child = 2 * root + 2) ∧ child < hi ∧
          (∀ c, (c = 2 * root + 1 ∨ c = 2 * root + 2) → c < hi →
            lessAt less data (first + child) (first + c) = false) := by
        by_cases hc : (decide (2 * root + 1 + 1 < hi) &&
            lessAt less data (first + (2 * root + 1)) (first + (2 * root + 1) + 1)) = true
        · refine ⟨2 * root + 1 + 1, by simp only [hc, if_true], Or.inr rfl, ?_, ?_⟩
          · simp only [Bool.and_eq_true, decide_eq_true_eq] at hc
            exact hc.1
          · simp only [Bool.and_eq_true, decide_eq_true_eq] at hc
            intro c hcc hchi
            rcases hcc with e | e
            · subst e
              exact lessAt_asymm sw data _ _ hc.2
            · subst e
              exact lessAt_irrefl sw data _
        · refine ⟨2 * root + 1, by simp only [hc, Bool.false_eq_true, if_false], Or.inl rfl,
            by omega, ?_⟩
          simp only [Bool.and_eq_true, decide_eq_true_eq, not_and, Bool.not_eq_true] at hc
          intro c hcc hchi
          rcases hcc with e | e
          · subst e
            exact lessAt_irrefl sw data _
          · subst e
            exact hc hchi
      obtain ⟨child, hdef, hchild, hchi, hbig⟩ := hsel
      rw [← hdef]
      by_cases hle : lessAt less data (first + root) (first + child) = true
      · simp only [hle, Bool.not_true, Bool.false_eq_true, if_false]
        have hroot : first + root < data.length := by omega
        have hch : first + child < data.length := by omega
        have hsw : ∀ x y, lessAt less (swapAt data (first + root) (first + child))
            (first + x) (first + y) =
            lessAt less data (first + swapIdx root child x) (first + swapIdx root child y) := by
          intro x y
          rw [lessAt_swapAt less data _ _ _ _ hroot hch, swapIdx_add, swapIdx_add]
        have hI1 : ∀ p, lo ≤ p → p ≠ child →
            HeapAt less (swapAt data (first + root) (first + child)) first hi p := by
          intro p hp hpc c hc hchi2
          rw [hsw]
          by_cases hpr : p = root
          · subst hpr
            rw [swapIdx_left]
            by_cases hcc : c = child
            · subst hcc
              rw [swapIdx_right]
              exact lessAt_asymm sw data _ _ hle
            · rw [swapIdx_of_ne _ _ c (by omega) hcc]
              exact hbig c hc hchi2
          · rw [swapIdx_of_ne _ _ p hpr hpc]
            by_cases hcr : c = root
            · subst hcr
              rw [swapIdx_left]
              by_cases hlo2 : lo < c
              · have := (h2 hlo2).2 child hchild hchi
                have e : (c - 1) / 2 = p := by omega
                rw [e] at this
                exact this
              · omega
            · rw [swapIdx_of_ne _ _ c hcr (by omega)]
              exact h1 p hp hpr c hc hchi2
        have hI2 : lo < child → lo ≤ (child - 1) / 2 ∧
            ∀ c, (c = 2 * child + 1 ∨ c = 2 * child + 2) → c < hi →
              lessAt less (swapAt data (first + root) (first + child))
                (first + (child - 1) / 2) (first + c) = false := by
          intro _
          have e : (child - 1) / 2 = root := by omega
          rw [e]
          refine ⟨hlo, ?_⟩
          intro c hc hchi2
          rw [hsw, swapIdx_left, swapIdx_of_ne _ _ c (by omega) (by omega)]
          exact h1 child (by omega) (by omega) c hc hchi2
        obtain ⟨r1, r2⟩ := ih child (swapAt data (first + root) (first + child)) (by omega)
          (by omega) (by rw [length_swapAt]; exact hlen) hI1 hI2
        exact ⟨r1, (RangeKept.swap data (first + lo) (first + hi) (first + root)
          (first + child) hlen (by omega) (by omega) (by omega) (by omega)).trans r2⟩
      · have hle2 : lessAt less data (first + root) (first + child) = false := by
          simpa using hle
        simp only [hle2, Bool.not_false, if_true]
        refine ⟨?_, RangeKept.refl _ _ _⟩
        intro p hp
        by_cases hpr : p = root
        · subst hpr
          intro c hc hchi2
          exact lessAt_negtrans sw data _ (first + child) _ (by omega) hle2 (hbig c hc hchi2)
        · exact h1 p hp hpr

/-- The root of a heap is not smaller than any node. -/
theorem heap_root_max {less : α → α → Bool} (sw : StrictWeak less) (data : List α)
    (first m : Nat) (hlen : first + m ≤ data.length)
    (h : ∀ p, HeapAt less data first m p) :
    ∀ k, k < m → lessAt less data first (first + k) = false := by
  intro k
  induction k using Nat.strong_induction_on with
  | _ k ih =>
    intro hk
    by_cases hk0 : k = 0
    · subst hk0
      exact lessAt_irrefl sw data _
    · have h1 := ih ((k - 1) / 2) (by omega) (by omega)
      have h2 := h ((k - 1) / 2) k (by omega) hk
      exact lessAt_negtrans sw data first (first + (k - 1) / 2) (first + k) (by omega) h1 h2

theorem heapBuild_spec {less : α → α → Bool} (sw : StrictWeak less) (data : List α)
    (first hi : Nat) (hlen : first + hi ≤ data.length) :
    (∀ p, HeapAt less ((List.range ((hi - 1) / 2 + 1)).reverse.foldl
      (fun d i => siftDown_func less hi first hi i d) data) first hi p) ∧
    RangeKept data ((List.range ((hi - 1) / 2 + 1)).reverse.foldl
      (fun d i => siftDown_func less hi first hi i d) data) first (first + hi) := by
  have key := foldl_range_reverse_inv (fun d i => siftDown_func less hi first hi i d)
    (fun i d => (∀ p, i ≤ p → HeapAt less d first hi p) ∧ RangeKept data d first (first + hi))
    ((hi - 1) / 2 + 1) data ⟨?_, RangeKept.refl _ _ _⟩ ?_
  · exact ⟨fun p => key.1 p (Nat.zero_le _), key.2⟩
  · intro p hp c hc hchi
    omega
  · intro i d hi1 hJ
    beta_reduce
    obtain ⟨hh, hk⟩ := hJ
    obtain ⟨r1, r2⟩ := siftDown_func_spec sw hi first i hi i d (Nat.le_refl _) (by omega)
      (by rw [hk.length_eq]; exact hlen) (fun p hp hpi => hh p (by omega))
      (fun h => by omega)
    exact ⟨r1, hk.trans (r2.mono (by omega) (Nat.le_refl _))⟩

theorem heapPop_spec {less : α → α → Bool} (sw : StrictWeak less) (data : List α)
    (first hi : Nat) (hlen : first + hi ≤ data.length)
    (hheap : ∀ p, HeapAt less data first hi p) :
    SortedRange less ((List.range hi).reverse.foldl
      (fun d i => siftDown_func less i first i 0 (swapAt d first (first + i))) data)
      first (first + hi) ∧
    RangeKept data ((List.range hi).reverse.foldl
      (fun d i => siftDown_func less i first i 0 (swapAt d first (first + i))) data)
      first (first + hi) := by
  have key := foldl_range_reverse_inv
    (fun d i => siftDown_func less i first i 0 (swapAt d first (first + i)))
    (fun m d => (∀ p, HeapAt less d first m p) ∧
      SortedRange less d (first + m) (first + hi) ∧
      (∀ k j, k < m → m ≤ j → j < hi → lessAt less d (first + j) (first + k) = false) ∧
      RangeKept data d first (first + hi))
    hi data ⟨hheap, ?_, ?_, RangeKept.refl _ _ _⟩ ?_
  · refine ⟨?_, key.2.2.2⟩
    have := key.2.1
    simpa using this
  · intro i j _ _ _
    omega
  · intro k j _ _ _
    omega
  · intro i d hi1 hK
    beta_reduce
    obtain ⟨hh, hs, hcross, hk⟩ := hK
    have hlen1 : d.length = data.length := hk.length_eq
    have hmax := heap_root_max sw d first (i + 1) (by omega) hh
    have hfi : first + i < d.length := by omega
    have hf : first < d.length := by omega
    have hsw : ∀ x y, lessAt less (swapAt d first (first + i)) x y =
        lessAt less d (swapIdx first (first + i) x) (swapIdx first (first + i) y) :=
      fun x y => lessAt_swapAt less d first (first + i) x y hf hfi
    have hk1 : RangeKept d (swapAt d first (first + i)) first (first + hi) :=
      RangeKept.swap d first (first + hi) first (first + i) (by omega) (Nat.le_refl _)
        (by omega) (by omega) (by omega)
    -- every position up to `i` holds, after the swap, an element that stood at a
    -- position up to `i`
    have hidx : ∀ x, x ≤ i → ∃ y, y ≤ i ∧ swapIdx first (first + i) (first + x) = first + y := by
      intro x hx
      unfold swapIdx
      by_cases h0 : first + x = first
      · exact ⟨i, Nat.le_refl _, by simp [h0]⟩
      · by_cases h1 : first + x = first + i
        · exact ⟨0, Nat.zero_le _, by simp [h0, h1]⟩
        · exact ⟨x, hx, by simp [h0, h1]⟩
    generalize hd1 : swapAt d first (first + i) = d1 at hsw hk1 ⊢
    have hlen2 : d1.length = d.length := hk1.length_eq
    have hI1 : ∀ p, 0 ≤ p → p ≠ 0 → HeapAt less d1 first i p := by
      intro p _ hp0 c hc hci
      have e0 : first + p ≠ first := by omega
      rw [hsw, swapIdx_of_ne _ _ (first + p) e0 (by omega),
        swapIdx_of_ne _ _ (first + c) (by omega) (by omega)]
      exact hh p c hc (by omega)
    obtain ⟨r1, r2⟩ := siftDown_func_spec sw i first 0 i 0 d1 (Nat.le_refl _) (by omega)
      (by omega) hI1 (fun h => by omega)
    generalize siftDown_func less i first i 0 d1 = d2 at r1 r2 ⊢
    have r2' : RangeKept d1 d2 first (first + i) := by simpa using r2
    -- the element moved to position `i` is not smaller than those before it
    have hcross1 : ∀ k j, k < i → i ≤ j → j < hi →
        lessAt less d1 (first + j) (first + k) = false := by
      intro k j hk hij hj
      rw [hsw]
      obtain ⟨y, hy, ey⟩ := hidx k (by omega)
      rw [ey]
      by_cases hji : j = i
      · subst hji
        rw [swapIdx_right]
        exact hmax y (by omega)
      · have e0 : first + j ≠ first := by omega
        rw [swapIdx_of_ne _ _ (first + j) e0 (by omega)]
        exact hcross y j (by omega) (by omega) hj
    refine ⟨fun p => r1 p (Nat.zero_le _), ?_, ?_, hk.trans (hk1.trans
      (r2'.mono (Nat.le_refl _) (by omega)))⟩
    · -- the range from `i` on is in order
      have hs1 : SortedRange less d1 (first + i) (first + hi) := by
        intro x y hx hxy hy
        obtain ⟨x1, rfl⟩ : ∃ x1, x = first + x1 := ⟨x - first, by omega⟩
        obtain ⟨y1, rfl⟩ : ∃ y1, y = first + y1 := ⟨y - first, by omega⟩
        rw [hsw]
        have e0 : first + y1 ≠ first := by omega
        rw [swapIdx_of_ne _ _ (first + y1) e0 (by omega)]
        by_cases hxi : x1 = i
        · subst hxi
          rw [swapIdx_right]
          exact hcross 0 y1 (by omega) (by omega) (by omega)
        · have e1 : first + x1 ≠ first := by omega
          rw [swapIdx_of_ne _ _ (first + x1) e1 (by omega)]
          exact hs (first + x1) (first + y1) (by omega) hxy hy
      exact hs1.of_outside r2' (Or.inl (Nat.le_refl _))
    · intro k j hk hij hj
      have := @RangeKept.lessAt_right α less d1 d2 first (first + i) r2' (first + j) (Or.inr (by omega)) false
        (fun x hx1 hx2 => by
          obtain ⟨x1, rfl⟩ : ∃ x1, x = first + x1 := ⟨x - first, by omega⟩
          exact hcross1 x1 j (by omega) hij hj)
      exact this (first + k) (by omega) (by omega)

/-- Heap sort puts the range `[a, b)` in order and keeps the range. -/
theorem heapSort_func_spec {less : α → α → Bool} (sw : StrictWeak less) (data : List α)
    (a b : Nat) (hab : a ≤ b) (hb : b ≤ data.length) :
    SortedRange less (heapSort_func less data a b) a b ∧
    RangeKept data (heapSort_func less data a b) a b := by
  simp only [heapSort_func]
  have e : a + (b - a) = b := by omega
  obtain ⟨h1, h2⟩ := heapBuild_spec sw data a (b - a) (by omega)
  generalize (List.range ((b - a - 1) / 2 + 1)).reverse.foldl
    (fun d i => siftDown_func less (b - a) a (b - a) i d) data = d1 at h1 h2 ⊢
  obtain ⟨h3, h4⟩ := heapPop_spec sw d1 a (b - a) (by rw [h2.length_eq]; omega) h1
  rw [e] at h2 h3 h4
  exact ⟨h3, h2.trans h4⟩

/-! ### The quicksort loop -/

theorem RangeKept.lessAt_outside {less : α → α → Bool} {data data1 : List α} {a b : Nat}
    (h : RangeKept data data1 a b) (k p : Nat) (hk : k < a ∨ b ≤ k) (hp : p < a ∨ b ≤ p) :
    lessAt less data1 k p = lessAt less data k p :=
  lessAt_congr less data data1 k p k p (h.outside k hk) (h.outside p hp)

/-- A range is in order when the parts before and after `mid` are, the elements
before `mid` are smaller than the one at `mid` and the elements after it are not. -/
theorem sorted_of_partition {less : α → α → Bool} (sw : StrictWeak less) (d : List α)
    (a mid b : Nat)
    (hl : SortedRange less d a mid) (hr : SortedRange less d (mid + 1) b)
    (hL : ∀ k, a ≤ k → k < mid → lessAt less d k mid = true)
    (hR : ∀ k, mid < k → k < b → lessAt less d k mid = false) :
    SortedRange less d a b := by
  intro x y hx hxy hy
  by_cases hym : y < mid
  · exact hl x y hx hxy hym
  · by_cases hxm : mid < x
    · exact hr x y (by omega) hxy hy
    · by_cases hye : y = mid
      · subst hye
        exact lessAt_asymm sw d x y (hL x hx (by omega))
      · by_cases hxe : x = mid
        · subst hxe
          exact hR y (by omega) hy
        · exact lessAt_false_of_ge_of_lt sw d x y mid (hR y (by omega) hy)
            (hL x hx (by omega))

/-- A range is in order when its first part consists of elements equal to the one at
`a`, its second part is in order and consists of greater elements. -/
theorem sorted_of_partitionEqual {less : α → α → Bool} (sw : StrictWeak less) (d : List α)
    (a i b : Nat) (hlen : a < d.length)
    (hr : SortedRange less d i b)
    (hE : ∀ k, a ≤ k → k < i → lessAt less d a k = false ∧ lessAt less d k a = false)
    (hG : ∀ k, i ≤ k → k < b → lessAt less d a k = true) :
    SortedRange less d a b := by
  intro x y hx hxy hy
  by_cases hxi : i ≤ x
  · exact hr x y hxi hxy hy
  · by_cases hyi : y < i
    · exact lessAt_negtrans sw d y a x hlen (hE y (by omega) hyi).2 (hE x hx (by omega)).1
    · exact lessAt_false_of_gt_of_le sw d x y a (hG y (by omega) hy) (hE x hx (by omega)).1

theorem pdqPrepare_spec {less : α → α → Bool} (sw : StrictWeak less) (data : List α)
    (a b : Nat) (wasBalanced wasPartitioned : Bool) (hab : 12 < b - a) (hb : b ≤ data.length)
    (hinv : a = 0 ∨ ∀ k, a ≤ k → k < b → lessAt less data k (a - 1) = false) :
    RangeKept data (pdqPrepare less data a b wasBalanced wasPartitioned).1.1 a b ∧
    ((pdqPrepare less data a b wasBalanced wasPartitioned).1.2 = true →
      SortedRange less (pdqPrepare less data a b wasBalanced wasPartitioned).1.1 a b) ∧
    a ≤ (pdqPrepare less data a b wasBalanced wasPartitioned).2 ∧
    (pdqPrepare less data a b wasBalanced wasPartitioned).2 < b := by
  simp only [pdqPrepare]
  have h1 : RangeKept data (if (!wasBalanced) = true then breakPatterns_func data a b
      else data) a b := by
    split
    · exact breakPatterns_func_kept data a b hb
    · exact RangeKept.refl _ _ _
  generalize (if (!wasBalanced) = true then breakPatterns_func data a b else data) = d1
    at h1 ⊢
  have hlen1 : d1.length = data.length := h1.length_eq
  have hp := choosePivot_func_mem less d1 a b hab
  generalize choosePivot_func less d1 a b = ph at hp ⊢
  have h2 : RangeKept d1 (if ph.2 = sortedHint.decreasingHint then reverseRange_func d1 a b
      else d1) a b := by
    split
    · exact reverseRange_func_kept d1 a b (by omega)
    · exact RangeKept.refl _ _ _
  generalize (if ph.2 = sortedHint.decreasingHint then reverseRange_func d1 a b else d1) = d2
    at h2 ⊢
  have hlen2 : d2.length = d1.length := h2.length_eq
  have hpiv : a ≤ (if ph.2 = sortedHint.decreasingHint then b - 1 - (ph.1 - a) else ph.1) ∧
      (if ph.2 = sortedHint.decreasingHint then b - 1 - (ph.1 - a) else ph.1) < b := by
    split <;> omega
  generalize (if ph.2 = sortedHint.decreasingHint then b - 1 - (ph.1 - a) else ph.1) = pivot
    at hpiv ⊢
  generalize (if ph.2 = sortedHint.decreasingHint then sortedHint.increasingHint else ph.2) = hint
  have h12 := h1.trans h2
  by_cases hc : (wasBalanced && wasPartitioned &&
      decide (hint = sortedHint.increasingHint)) = true
  · simp only [hc, if_true]
    have hinv2 : a = 0 ∨ ∀ k, a ≤ k → k < b → lessAt less d2 k (a - 1) = false := by
      by_cases h0 : a = 0
      · exact Or.inl h0
      · exact Or.inr (h12.lessAt_left (a - 1) (Or.inl (by omega)) false
          (hinv.resolve_left h0))
    obtain ⟨r1, r2⟩ := partialInsertionSort_func_spec sw d2 a b (by omega) (by omega) hinv2
    exact ⟨h12.trans r1, r2, hpiv.1, hpiv.2⟩
  · simp only [hc, Bool.false_eq_true, if_false]
    exact ⟨h12, fun h => by simp at h, hpiv.1, hpiv.2⟩

/-- The quicksort loop puts the range `[a, b)` in order and keeps the range, when the
range has no element smaller than its left neighbour and the bound on the rounds
exceeds the length of the range. -/
theorem pdqsort_func_spec {less : α → α → Bool} (sw : StrictWeak less) :
    ∀ (fuel : Nat) (data : List α) (a b limit : Nat) (wasBalanced wasPartitioned : Bool),
      a ≤ b → b ≤ data.length → b - a < fuel →
      (a = 0 ∨ ∀ k, a ≤ k → k < b → lessAt less data k (a - 1) = false) →
      SortedRange less (pdqsort_func less fuel data a b limit wasBalanced wasPartitioned) a b ∧
      RangeKept data (pdqsort_func less fuel data a b limit wasBalanced wasPartitioned) a b := by
  intro fuel
  induction fuel with
  | zero => intro data a b limit wb wp _ _ h; omega
  | succ fuel ih =>
    intro data a b limit wb wp hab hb hfuel hinv
    rw [pdqsort_func_succ]
    by_cases h12 : b - a ≤ 12
    · rw [if_pos h12]
      exact insertionSort_func_spec sw data a b hb
    · rw [if_neg h12]
      by_cases hl0 : limit = 0
      · rw [if_pos hl0]
        exact heapSort_func_spec sw data a b hab hb
      · rw [if_neg hl0]
        obtain ⟨p1, p2, p3, p4⟩ := pdqPrepare_spec sw data a b wb wp (by omega) hb hinv
        generalize pdqPrepare less data a b wb wp = P at p1 p2 p3 p4 ⊢
        generalize (if (!wb) = true then limit - 1 else limit) = limit1
        have hlenP : P.1.1.length = data.length := p1.length_eq
        have hinvP : a = 0 ∨ ∀ k, a ≤ k → k < b → lessAt less P.1.1 k (a - 1) = false := by
          by_cases h0 : a = 0
          · exact Or.inl h0
          · exact Or.inr (p1.lessAt_left (a - 1) (Or.inl (by omega)) false
              (hinv.resolve_left h0))
        by_cases hsorted : P.1.2 = true
        · rw [if_pos hsorted]
          exact ⟨p2 hsorted, p1⟩
        · rw [if_neg hsorted]
          by_cases heq : (decide (0 < a) && !lessAt less P.1.1 (a - 1) P.2) = true
          · rw [if_pos heq]
            simp only [Bool.and_eq_true, decide_eq_true_eq, Bool.not_eq_true'] at heq
            have ha0 : a ≠ 0 := by omega
            have hinvP2 := hinvP.resolve_left ha0
            have hpre : ∀ k, a ≤ k → k < b → lessAt less P.1.1 k P.2 = false :=
              fun k hk1 hk2 => lessAt_negtrans sw P.1.1 k (a - 1) P.2 (by omega)
                (hinvP2 k hk1 hk2) heq.2
            obtain ⟨e1, e2, e3, e4, e5⟩ := partitionEqual_func_spec sw P.1.1 a b P.2 (by omega)
              (by omega) p3 p4 hpre
            generalize partitionEqual_func less P.1.1 a b P.2 = E at e1 e2 e3 e4 e5 ⊢
            have hlenE : E.1.length = P.1.1.length := e3.length_eq
            have hinvE : E.2 = 0 ∨ ∀ k, E.2 ≤ k → k < b →
                lessAt less E.1 k (E.2 - 1) = false := by
              right
              intro k hk1 hk2
              exact lessAt_false_of_gt_of_le sw E.1 (E.2 - 1) k a (e5 k hk1 hk2)
                (e4 (E.2 - 1) (by omega) (by omega)).1
            obtain ⟨s1, s2⟩ := ih E.1 E.2 b limit1 wb wp e2 (by omega) (by omega) hinvE
            generalize pdqsort_func less fuel E.1 E.2 b limit1 wb wp = S at s1 s2 ⊢
            refine ⟨?_, p1.trans (e3.trans (s2.mono (by omega) (Nat.le_refl _)))⟩
            apply sorted_of_partitionEqual sw S a E.2 b (by rw [s2.length_eq]; omega) s1
            · intro k hk1 hk2
              rw [s2.lessAt_outside a k (Or.inl (by omega)) (Or.inl hk2),
                s2.lessAt_outside k a (Or.inl hk2) (Or.inl (by omega))]
              exact e4 k hk1 hk2
            · exact s2.lessAt_right a (Or.inl (by omega)) true e5
          · rw [if_neg heq]
            obtain ⟨q1, q2, q3, q4, q5⟩ := @partition_func_spec α less P.1.1 a b P.2
              (by omega) (by omega) p3 p4
            generalize partition_func less P.1.1 a b P.2 = Q at q1 q2 q3 q4 q5 ⊢
            have hlenQ : Q.1.length = P.1.1.length := q3.length_eq
            have hinvQ : a = 0 ∨ ∀ k, a ≤ k → k < b → lessAt less Q.1 k (a - 1) = false := by
              by_cases h0 : a = 0
              · exact Or.inl h0
              · exact Or.inr (q3.lessAt_left (a - 1) (Or.inl (by omega)) false
                  (hinvP.resolve_left h0))
            by_cases hside : Q.2.1 - a < b - Q.2.1
            · rw [if_pos hside]
              -- the left part first
              obtain ⟨s1, s2⟩ := ih Q.1 a Q.2.1 limit1 true true q1 (by omega) (by omega)
                (by
                  rcases hinvQ with h0 | hq
                  · exact Or.inl h0
                  · exact Or.inr (fun k hk1 hk2 => hq k hk1 (by omega)))
              generalize pdqsort_func less fuel Q.1 a Q.2.1 limit1 true true = S at s1 s2 ⊢
              have hL2 := s2.lessAt_left Q.2.1 (Or.inr (Nat.le_refl _)) true q4
              have hR2 : ∀ k, Q.2.1 + 1 ≤ k → k < b → lessAt less S k Q.2.1 = false := by
                intro k hk1 hk2
                rw [s2.lessAt_outside k Q.2.1 (Or.inr (by omega)) (Or.inr (Nat.le_refl _))]
                exact q5 k (by omega) hk2
              obtain ⟨t1, t2⟩ := ih S (Q.2.1 + 1) b limit1
                (decide ((b - a) / 8 ≤ Q.2.1 - a)) Q.2.2 (by omega)
                (by rw [s2.length_eq]; omega) (by omega) (Or.inr (by simpa using hR2))
              generalize pdqsort_func less fuel S (Q.2.1 + 1) b limit1
                (decide ((b - a) / 8 ≤ Q.2.1 - a)) Q.2.2 = T at t1 t2 ⊢
              refine ⟨?_, p1.trans (q3.trans ((s2.mono (Nat.le_refl _) (by omega)).trans
                (t2.mono (by omega) (Nat.le_refl _))))⟩
              apply sorted_of_partition sw T a Q.2.1 b
                (s1.of_outside t2 (Or.inr (by omega))) t1
              · intro k hk1 hk2
                rw [t2.lessAt_outside k Q.2.1 (Or.inl (by omega)) (Or.inl (by omega))]
                exact hL2 k hk1 hk2
              · intro k hk1 hk2
                exact t2.lessAt_left Q.2.1 (Or.inl (by omega)) false hR2 k (by omega) hk2
            · rw [if_neg hside]
              -- the right part first
              have hR1 : ∀ k, Q.2.1 + 1 ≤ k → k < b → lessAt less Q.1 k Q.2.1 = false :=
                fun k hk1 hk2 => q5 k (by omega) hk2
              obtain ⟨s1, s2⟩ := ih Q.1 (Q.2.1 + 1) b limit1 true true (by omega) (by omega)
                (by omega) (Or.inr (by simpa using hR1))
              generalize pdqsort_func less fuel Q.1 (Q.2.1 + 1) b limit1 true true = S
                at s1 s2 ⊢
              have hR2 := s2.lessAt_left Q.2.1 (Or.inl (by omega)) false hR1
              have hL2 : ∀ k, a ≤ k → k < Q.2.1 → lessAt less S k Q.2.1 = true := by
                intro k hk1 hk2
                rw [s2.lessAt_outside k Q.2.1 (Or.inl (by omega)) (Or.inl (by omega))]
                exact q4 k hk1 hk2
              have hinvS : a = 0 ∨ ∀ k, a ≤ k → k < Q.2.1 →
                  lessAt less S k (a - 1) = false := by
                by_cases h0 : a = 0
                · exact Or.inl h0
                · right
                  intro k hk1 hk2
                  rw [s2.lessAt_outside k (a - 1) (Or.inl (by omega)) (Or.inl (by omega))]
                  exact (hinvQ.resolve_left h0) k hk1 (by omega)
              obtain ⟨t1, t2⟩ := ih S a Q.2.1 limit1
                (decide ((b - a) / 8 ≤ b - Q.2.1)) Q.2.2 q1
                (by rw [s2.length_eq]; omega) (by omega) hinvS
              generalize pdqsort_func less fuel S a Q.2.1 limit1
                (decide ((b - a) / 8 ≤ b - Q.2.1)) Q.2.2 = T at t1 t2 ⊢
              refine ⟨?_, p1.trans (q3.trans ((s2.mono (by omega) (Nat.le_refl _)).trans
                (t2.mono (Nat.le_refl _) (by omega))))⟩
              apply sorted_of_partition sw T a Q.2.1 b t1
                (s1.of_outside t2 (Or.inl (by omega)))
              · exact t2.lessAt_left Q.2.1 (Or.inr (Nat.le_refl _)) true hL2
              · intro k hk1 hk2
                rw [t2.lessAt_outside k Q.2.1 (Or.inr (by omega)) (Or.inr (Nat.le_refl _))]
                exact hR2 k (by omega) hk2

/-- The library sort puts the slice in order for every strict weak ordering. -/
theorem sortSlice_sorted {less : α → α → Bool} (sw : StrictWeak less) (x : List α) :
    (sortSlice less x).Pairwise (fun a b => less b a = false) := by
  obtain ⟨h1, h2⟩ := pdqsort_func_spec sw (x.length + 1) x 0 x.length (bitsLen x.length)
    true true (Nat.zero_le _) (Nat.le_refl _) (by omega) (Or.inl rfl)
  have hlen : (sortSlice less x).length = x.length := h2.length_eq
  rw [List.pairwise_iff_getElem]
  intro i j hi hj hij
  have := h1 i j (Nat.zero_le _) hij (by rw [← hlen]; exact hj)
  have e1 : (sortSlice less x)[i]? = some (sortSlice less x)[i] := List.getElem?_eq_getElem hi
  have e2 : (sortSlice less x)[j]? = some (sortSlice less x)[j] := List.getElem?_eq_getElem hj
  simp only [lessAt] at this
  change (match (sortSlice less x)[j]?, (sortSlice less x)[i]? with
    | some x, some y => less x y
    | _, _ => false) = false at this
  rw [e1, e2] at this
  exact this

end GoSortProofs

/-! ## Facts about the map and the grouping loops -/

theorem mapGet_mapSet (m : Grouping) (k : String) (v : List Revision) (k1 : String) :
    mapGet (mapSet m k v) k1 = if k = k1 then v else mapGet m k1 := by
  induction m with
  | nil => simp [mapSet, mapGet]
  | cons e rest ih =>
    obtain ⟨k0, v0⟩ := e
    by_cases h : k0 = k
    · subst h
      by_cases h1 : k0 = k1 <;> simp [mapSet, mapGet, h1]
    · by_cases h1 : k0 = k1
      · subst h1
        have h2 : ¬ k = k0 := fun e => h e.symm
        simp [mapSet, mapGet, h, h2]
      · simp [mapSet, mapGet, h, h1, ih]

theorem mapKeys_mapSet (m : Grouping) (k : String) (v : List Revision) :
    mapKeys (mapSet m k v) = if k ∈ mapKeys m then mapKeys m else mapKeys m ++ [k] := by
  induction m with
  | nil => simp [mapSet, mapKeys]
  | cons e rest ih =>
    obtain ⟨k0, v0⟩ := e
    by_cases h : k0 = k
    · subst h
      simp [mapSet, mapKeys]
    · have h2 : ¬ k = k0 := fun e => h e.symm
      simp only [mapKeys] at ih
      by_cases h3 : k ∈ rest.map Prod.fst
      · simp [mapSet, mapKeys, h, h2, h3, ih]
      · simp [mapSet, mapKeys, h, h2, h3, ih]

theorem mapGet_of_not_mem (m : Grouping) (k : String) (h : k ∉ mapKeys m) : mapGet m k = [] := by
  induction m with
  | nil => simp [mapGet]
  | cons e rest ih =>
    obtain ⟨k0, v0⟩ := e
    simp only [mapKeys, List.map_cons, List.mem_cons, not_or] at h
    have h1 : ¬ k0 = k := fun e => h.1 e.symm
    simp only [mapGet, h1, if_false]
    exact ih h.2

theorem mapGet_groupLicenses (rev : Revision) (ls : List License) (found : List String)
    (m : Grouping) (L : String) :
    mapGet (groupLicenses rev ls found m) L =
      mapGet m L ++ (if L ∈ ls.map License.LicenseID ∧ L ∉ found then [rev] else []) := by
  induction ls generalizing found m with
  | nil => simp [groupLicenses]
  | cons l rest ih =>
    by_cases hf : l.LicenseID ∈ found
    · simp only [groupLicenses, hf, if_true, ih]
      by_cases hL : L = l.LicenseID
      · subst hL
        simp [hf]
      · simp [hL]
    · simp only [groupLicenses, hf, if_false, ih, mapGet_mapSet]
      by_cases hL : l.LicenseID = L
      · subst hL
        simp [hf]
      · have hL2 : ¬ L = l.LicenseID := fun e => hL e.symm
        simp [hL, hL2]

theorem mapGet_groupRevisions (revs : List Revision) (m : Grouping) (L : String) :
    mapGet (groupRevisions revs m) L = mapGet m L ++ revs.filter (hasLicense L) := by
  induction revs generalizing m with
  | nil => simp [groupRevisions]
  | cons r rest ih =>
    simp only [groupRevisions, ih, mapGet_groupLicenses]
    by_cases h : L ∈ licenseIDs r
    · have h1 : L ∈ r.Licenses.map License.LicenseID := h
      simp [List.filter_cons, hasLicense, h, h1]
    · have h1 : L ∉ r.Licenses.map License.LicenseID := h
      simp [List.filter_cons, hasLicense, h, h1]

theorem mem_mapKeys_mapSet (m : Grouping) (k : String) (v : List Revision) (L : String) :
    L ∈ mapKeys (mapSet m k v) ↔ L ∈ mapKeys m ∨ L = k := by
  rw [mapKeys_mapSet]
  by_cases h : k ∈ mapKeys m
  · simp only [h, if_true]
    constructor
    · exact Or.inl
    · rintro (h1 | h1)
      · exact h1
      · exact h1 ▸ h
  · simp [h]

theorem nodup_mapKeys_mapSet (m : Grouping) (k : String) (v : List Revision)
    (h : (mapKeys m).Nodup) : (mapKeys (mapSet m k v)).Nodup := by
  rw [mapKeys_mapSet]
  by_cases h1 : k ∈ mapKeys m
  · simpa [h1] using h
  · simp only [h1, if_false]
    exact List.Nodup.append h (List.nodup_singleton k) (by simpa using h1)

theorem mem_mapKeys_groupLicenses (rev : Revision) (ls : List License) (found : List String)
    (m : Grouping) (L : String) :
    L ∈ mapKeys (groupLicenses rev ls found m) ↔
      L ∈ mapKeys m ∨ (L ∈ ls.map License.LicenseID ∧ L ∉ found) := by
  induction ls generalizing found m with
  | nil => simp [groupLicenses]
  | cons l rest ih =>
    by_cases hf : l.LicenseID ∈ found
    · simp only [groupLicenses, hf, if_true, ih]
      by_cases hL : L = l.LicenseID
      · subst hL
        simp [hf]
      · simp [hL]
    · simp only [groupLicenses, hf, if_false, ih, mem_mapKeys_mapSet]
      by_cases hL : L = l.LicenseID
      · subst hL
        simp [hf]
      · simp [hL]

theorem nodup_mapKeys_groupLicenses (rev : Revision) (ls : List License) (found : List String)
    (m : Grouping) (h : (mapKeys m).Nodup) :
    (mapKeys (groupLicenses rev ls found m)).Nodup := by
  induction ls generalizing found m with
  | nil => simpa [groupLicenses] using h
  | cons l rest ih =>
    by_cases hf : l.LicenseID ∈ found
    · simp only [groupLicenses, hf, if_true]
      exact ih found m h
    · simp only [groupLicenses, hf, if_false]
      exact ih _ _ (nodup_mapKeys_mapSet m _ _ h)

theorem mem_mapKeys_groupRevisions (revs : List Revision) (m : Grouping) (L : String) :
    L ∈ mapKeys (groupRevisions revs m) ↔
      L ∈ mapKeys m ∨ ∃ r ∈ revs, L ∈ licenseIDs r := by
  induction revs generalizing m with
  | nil => simp [groupRevisions]
  | cons r rest ih =>
    simp only [groupRevisions, ih, mem_mapKeys_groupLicenses, List.mem_cons, exists_eq_or_imp,
      List.not_mem_nil, not_false_eq_true, and_true]
    simp only [licenseIDs, or_assoc]

theorem nodup_mapKeys_groupRevisions (revs : List Revision) (m : Grouping)
    (h : (mapKeys m).Nodup) : (mapKeys (groupRevisions revs m)).Nodup := by
  induction revs generalizing m with
  | nil => simpa [groupRevisions] using h
  | cons r rest ih =>
    simp only [groupRevisions]
    exact ih _ (nodup_mapKeys_groupLicenses r _ _ m h)

theorem mapKeys_sortLists (sort : (Revision → Revision → Bool) → List Revision → List Revision)
    (m : Grouping) : mapKeys (sortLists sort m) = mapKeys m := by
  simp [mapKeys, sortLists, Function.comp_def]

theorem mapGet_sortLists (sort : (Revision → Revision → Bool) → List Revision → List Revision)
    (m : Grouping) (L : String) :
    mapGet (sortLists sort m) L = if L ∈ mapKeys m then sort titleLess (mapGet m L) else [] := by
  induction m with
  | nil => simp [sortLists, mapGet, mapKeys]
  | cons e rest ih =>
    obtain ⟨k0, v0⟩ := e
    simp only [sortLists, List.map_cons, mapGet, mapKeys, List.mem_cons] at ih ⊢
    by_cases h : k0 = L
    · simp [h]
    · have h2 : ¬ L = k0 := fun e => h e.symm
      simp only [h, h2, if_false, false_or]
      exact ih


theorem titleLess_iff (a b : Revision) :
    titleLess a b = true ↔ a.Project.Title < b.Project.Title := by
  simp [titleLess, String.lt_iff_toList_lt]

theorem titleLess_false_iff (a b : Revision) :
    titleLess b a = false ↔ a.Project.Title ≤ b.Project.Title := by
  rw [← not_lt, ← titleLess_iff]
  simp

theorem titleLess_irrefl (a : Revision) : titleLess a a = false := by
  rw [titleLess_false_iff]

theorem titleLess_trans (a b c : Revision) (h1 : titleLess a b = true)
    (h2 : titleLess b c = true) : titleLess a c = true := by
  rw [titleLess_iff] at *
  exact lt_trans h1 h2

theorem titleLess_negtrans (a b c : Revision) (h1 : titleLess a b = false)
    (h2 : titleLess b c = false) : titleLess a c = false := by
  rw [titleLess_false_iff] at *
  exact le_trans h2 h1

theorem titleLess_strictWeak : StrictWeak titleLess :=
  ⟨titleLess_irrefl, titleLess_trans, titleLess_negtrans⟩

theorem length_groupRevisions_eq_zero (revs : List Revision) :
    (groupRevisions revs []).length = 0 ↔ ∀ r ∈ revs, r.Licenses = [] := by
  have hk : ∀ L, L ∈ mapKeys (groupRevisions revs []) ↔ ∃ r ∈ revs, L ∈ licenseIDs r := by
    intro L
    rw [mem_mapKeys_groupRevisions]
    simp [mapKeys]
  constructor
  · intro h r hr
    have hnil : groupRevisions revs [] = [] := List.length_eq_zero.mp h
    cases hl : r.Licenses with
    | nil => rfl
    | cons l rest =>
      have hmem : l.LicenseID ∈ mapKeys (groupRevisions revs []) :=
        (hk l.LicenseID).mpr ⟨r, hr, by simp [licenseIDs, hl]⟩
      rw [hnil] at hmem
      simp [mapKeys] at hmem
  · intro h
    cases hg : groupRevisions revs [] with
    | nil => rfl
    | cons e rest =>
      have hmem : e.1 ∈ mapKeys (groupRevisions revs []) := by simp [hg, mapKeys]
      obtain ⟨r, hr, hL⟩ := (hk e.1).mp hmem
      rw [licenseIDs, h r hr] at hL
      simp at hL

/-- In text mode the command either prints the message for an empty grouping or
renders the sorted grouping, whatever the renderer reports. -/
theorem licensesRun_text (env : Env) (revs : List Revision)
    (hctx : env.setContext = none)
    (hfetch : env.getRevisionDependencies (locatorOf env) true = Except.ok revs)
    (hjson : env.json = false) :
    licensesRun env =
      if (groupRevisions revs []).length = 0 then
        { stdout := [Write.Printf (noLicensesMessage env)], rendered := none,
          outcome := Outcome.returned none }
      else
        { stdout := [Write.Println
            (env.templateString defaultLicenseReportTemplate (finalGrouping env revs)).1],
          rendered := some (finalGrouping env revs), outcome := Outcome.returned none } := by
  simp only [licensesRun, hctx, hfetch, hjson, finalGrouping]
  rfl

theorem mapGet_finalGrouping_perm (env : Env) (revs : List Revision)
    (hperm : ∀ less l, (env.sortSlice less l).Perm l) (L : String) :
    (mapGet (finalGrouping env revs) L).Perm (revs.filter (hasLicense L)) := by
  rw [finalGrouping, mapGet_sortLists]
  by_cases h : L ∈ mapKeys (groupRevisions revs [])
  · simp only [h, if_true]
    have hg : mapGet (groupRevisions revs []) L = revs.filter (hasLicense L) := by
      rw [mapGet_groupRevisions]
      simp [mapGet]
    rw [hg]
    exact hperm titleLess _
  · simp only [h, if_false]
    have := mapGet_of_not_mem _ _ h
    rw [mapGet_groupRevisions] at this
    simp only [mapGet, List.nil_append] at this
    rw [this]

theorem mapGet_finalGrouping_sorted (env : Env) (revs : List Revision)
    (hsort : SortContract env.sortSlice) (L : String) :
    (mapGet (finalGrouping env revs) L).Pairwise
      (fun a b => a.Project.Title ≤ b.Project.Title) := by
  rw [finalGrouping, mapGet_sortLists]
  by_cases h : L ∈ mapKeys (groupRevisions revs [])
  · simp only [h, if_true]
    have := hsort.sorted titleLess titleLess_strictWeak
      (mapGet (groupRevisions revs []) L)
    exact this.imp (fun {a b} hab => (titleLess_false_iff a b).mp hab)
  · simp [h]


/-- The library sort of Go meets the contract of `sort.Slice`. -/
theorem sortSlice_contract : SortContract sortSlice :=
  ⟨fun less l => sortSlice_perm less l, fun _ sw l => sortSlice_sorted sw l⟩

/-- Two rearrangements of each other that are both in title order and carry pairwise
distinct titles are equal. -/
theorem eq_of_perm_of_title_sorted (l1 l2 : List Revision) (hp : l1.Perm l2)
    (h1 : l1.Pairwise (fun a b => a.Project.Title ≤ b.Project.Title))
    (h2 : l2.Pairwise (fun a b => a.Project.Title ≤ b.Project.Title))
    (hnd : (l1.map (fun r => r.Project.Title)).Nodup) : l1 = l2 := by
  have hnd2 : (l2.map (fun r => r.Project.Title)).Nodup :=
    (hp.map (fun r => r.Project.Title)).nodup_iff.mp hnd
  have s1 : l1.Pairwise (fun a b => a.Project.Title < b.Project.Title) := by
    have hn : l1.Pairwise (fun a b => a.Project.Title ≠ b.Project.Title) :=
      List.pairwise_map.mp hnd
    exact (h1.and hn).imp (fun {a b} h => lt_of_le_of_ne h.1 h.2)
  have s2 : l2.Pairwise (fun a b => a.Project.Title < b.Project.Title) := by
    have hn : l2.Pairwise (fun a b => a.Project.Title ≠ b.Project.Title) :=
      List.pairwise_map.mp hnd2
    exact (h2.and hn).imp (fun {a b} h => lt_of_le_of_ne h.1 h.2)
  haveI : IsAntisymm Revision (fun a b => a.Project.Title < b.Project.Title) :=
    ⟨fun a b hab hba => absurd hab (not_lt_of_gt hba)⟩
  exact List.eq_of_perm_of_sorted hp s1 s2

/-- C1: in text mode, for every license identifier the final list is a rearrangement
of the input revisions that carry the identifier, each taken once: a revision with one
or several matches for the identifier appears once per position in the input, a
revision without a match does not appear. The final lists are those handed to the
renderer. -/
theorem licensesRun_no_duplicates (env : Env) (revs : List Revision)
    (hctx : env.setContext = none)
    (hfetch : env.getRevisionDependencies (locatorOf env) true = Except.ok revs)
    (hjson : env.json = false)
    (hperm : ∀ less l, (env.sortSlice less l).Perm l) :
    (∀ L, (mapGet (finalGrouping env revs) L).Perm (revs.filter (hasLicense L))) ∧
    (∀ L r, (mapGet (finalGrouping env revs) L).count r =
      (revs.filter (fun x => decide (L ∈ licenseIDs x))).count r) ∧
    (∀ g, (licensesRun env).rendered = some g → g = finalGrouping env revs) ∧
    ((∃ r ∈ revs, r.Licenses ≠ []) →
      (licensesRun env).rendered = some (finalGrouping env revs)) := by
  have hrun := licensesRun_text env revs hctx hfetch hjson
  refine ⟨mapGet_finalGrouping_perm env revs hperm, ?_, ?_, ?_⟩
  · intro L r
    exact (mapGet_finalGrouping_perm env revs hperm L).count_eq r
  · intro g hg
    rw [hrun] at hg
    by_cases h0 : (groupRevisions revs []).length = 0
    · simp [h0] at hg
    · simp only [h0, if_false] at hg
      exact (Option.some.inj hg).symm
  · rintro ⟨r, hr, hne⟩
    have h0 : ¬ (groupRevisions revs []).length = 0 := by
      intro h
      exact hne ((length_groupRevisions_eq_zero revs).mp h r hr)
    rw [hrun]
    simp [h0]

theorem scenario_filter_MIT : scenarioRevs.filter (hasLicense "MIT") = [libfoo, libbar] := by
  decide

theorem scenario_filter_Apache : scenarioRevs.filter (hasLicense "Apache-2.0") = [libbar] := by
  decide

/-- C2: in text mode, every final list is in ascending order of the project titles,
for adjacent entries and for any two entries; in the scenario of the specification the
list of MIT is libbar, libfoo and the list of Apache-2.0 is libbar. -/
theorem licensesRun_lists_sorted (env : Env) (revs : List Revision)
    (hctx : env.setContext = none)
    (hfetch : env.getRevisionDependencies (locatorOf env) true = Except.ok revs)
    (hjson : env.json = false)
    (hsort : SortContract env.sortSlice) :
    (∀ g, (licensesRun env).rendered = some g → ∀ L,
      List.Chain' (fun a b => a.Project.Title ≤ b.Project.Title) (mapGet g L) ∧
      (mapGet g L).Pairwise (fun a b => a.Project.Title ≤ b.Project.Title)) ∧
    ((∃ r ∈ revs, r.Licenses ≠ []) →
      (licensesRun env).rendered = some (finalGrouping env revs)) ∧
    (revs = scenarioRevs →
      mapGet (finalGrouping env revs) "MIT" = [libbar, libfoo] ∧
      mapGet (finalGrouping env revs) "Apache-2.0" = [libbar]) := by
  have hrun := licensesRun_text env revs hctx hfetch hjson
  refine ⟨?_, ?_, ?_⟩
  · intro g hg L
    have hgeq : g = finalGrouping env revs := by
      rw [hrun] at hg
      by_cases h0 : (groupRevisions revs []).length = 0
      · simp [h0] at hg
      · simp only [h0, if_false] at hg
        exact (Option.some.inj hg).symm
    subst hgeq
    have hp := mapGet_finalGrouping_sorted env revs hsort L
    exact ⟨List.Pairwise.chain' hp, hp⟩
  · rintro ⟨r, hr, hne⟩
    have h0 : ¬ (groupRevisions revs []).length = 0 := by
      intro h
      exact hne ((length_groupRevisions_eq_zero revs).mp h r hr)
    rw [hrun]
    simp [h0]
  · intro hrevs
    subst hrevs
    constructor
    · have hp := mapGet_finalGrouping_perm env scenarioRevs hsort.perm "MIT"
      rw [scenario_filter_MIT] at hp
      have hp2 : (mapGet (finalGrouping env scenarioRevs) "MIT").Perm [libbar, libfoo] :=
        hp.trans (List.Perm.swap libbar libfoo [])
      refine eq_of_perm_of_title_sorted _ _ hp2
        (mapGet_finalGrouping_sorted env scenarioRevs hsort "MIT") ?_ ?_
      · exact List.pairwise_pair.mpr ((titleLess_false_iff libbar libfoo).mp (by decide))
      · exact (hp2.map (fun r => r.Project.Title)).nodup_iff.mpr (by decide)
    · have hp := mapGet_finalGrouping_perm env scenarioRevs hsort.perm "Apache-2.0"
      rw [scenario_filter_Apache] at hp
      exact List.perm_singleton.mp hp


/-- Witness of C1: the scenario of the specification. -/
theorem licensesRun_no_duplicates_witness :
    scenarioEnv.setContext = none ∧
    scenarioEnv.getRevisionDependencies (locatorOf scenarioEnv) true = Except.ok scenarioRevs ∧
    scenarioEnv.json = false ∧
    (∀ less l, (scenarioEnv.sortSlice less l).Perm l) ∧
    (mapGet (finalGrouping scenarioEnv scenarioRevs) "MIT").Perm
      (scenarioRevs.filter (hasLicense "MIT")) ∧
    (licensesRun scenarioEnv).rendered = some (finalGrouping scenarioEnv scenarioRevs) :=
  ⟨rfl, rfl, rfl, sortSlice_contract.perm,
    (licensesRun_no_duplicates scenarioEnv scenarioRevs rfl rfl rfl
      sortSlice_contract.perm).1 "MIT",
    (licensesRun_no_duplicates scenarioEnv scenarioRevs rfl rfl rfl
      sortSlice_contract.perm).2.2.2 ⟨libfoo, by simp [scenarioRevs], by simp [libfoo]⟩⟩

/-- Witness of C2: the scenario of the specification. -/
theorem licensesRun_lists_sorted_witness :
    scenarioEnv.setContext = none ∧
    scenarioEnv.getRevisionDependencies (locatorOf scenarioEnv) true = Except.ok scenarioRevs ∧
    scenarioEnv.json = false ∧
    SortContract scenarioEnv.sortSlice ∧
    mapGet (finalGrouping scenarioEnv scenarioRevs) "MIT" = [libbar, libfoo] ∧
    mapGet (finalGrouping scenarioEnv scenarioRevs) "Apache-2.0" = [libbar] :=
  ⟨rfl, rfl, rfl, sortSlice_contract,
    (licensesRun_lists_sorted scenarioEnv scenarioRevs rfl rfl rfl
      sortSlice_contract).2.2 rfl⟩

/-- C4, the behaviour of the code: in text mode with a non-empty grouping and a
renderer that reports an error, the command prints what the renderer returned and
returns no error. -/
theorem licensesRun_render_error_dropped :
    (renderFailEnv.templateString defaultLicenseReportTemplate
      (finalGrouping renderFailEnv scenarioRevs)).2 =
        some (GoError.plain "template: nil pointer evaluating *fossa.Project.Title") ∧
    (licensesRun renderFailEnv).outcome = Outcome.returned none ∧
    (licensesRun renderFailEnv).stdout = [Write.Println ""] := by
  have h := licensesRun_text renderFailEnv scenarioRevs rfl rfl rfl
  have h0 : ¬ (groupRevisions scenarioRevs []).length = 0 := by decide
  rw [if_neg h0] at h
  rw [h]
  exact ⟨rfl, rfl, rfl⟩

/-- C5: when the call of the data service fails, whatever the JSON flag, the command
returns an error that wraps the cause and whose text contains the locator, and writes
nothing to standard output. -/
theorem licensesRun_fetch_error (env : Env) (cause : GoError)
    (hctx : env.setContext = none)
    (hfetch : env.getRevisionDependencies (locatorOf env) true = Except.error cause) :
    ∃ err, (licensesRun env).outcome = Outcome.returned (some err) ∧
      err.cause = some cause ∧
      (∃ pre post, err.Error = pre ++ env.locatorString (locatorOf env) ++ post) ∧
      (licensesRun env).stdout = [] ∧
      (licensesRun env).rendered = none := by
  refine ⟨Wrapf cause ("Unable to find licenses for project " ++
    env.locatorString (locatorOf env) ++ ":"), ?_, rfl, ?_, ?_, ?_⟩
  · simp [licensesRun, hctx, hfetch]
  · exact ⟨"Unable to find licenses for project ", ":" ++ ": " ++ cause.Error, by
      simp [Wrapf, GoError.Error, String.append_assoc]⟩
  · simp [licensesRun, hctx, hfetch]
  · simp [licensesRun, hctx, hfetch]

/-- Witness of C5: a refused connection. -/
theorem licensesRun_fetch_error_witness :
    fetchFailEnv.setContext = none ∧
    fetchFailEnv.getRevisionDependencies (locatorOf fetchFailEnv) true =
      Except.error (GoError.plain "connection refused") ∧
    ∃ err, (licensesRun fetchFailEnv).outcome = Outcome.returned (some err) ∧
      err.cause = some (GoError.plain "connection refused") ∧
      (∃ pre post, err.Error = pre ++ fetchFailEnv.locatorString (locatorOf fetchFailEnv) ++ post) ∧
      (licensesRun fetchFailEnv).stdout = [] ∧
      (licensesRun fetchFailEnv).rendered = none :=
  ⟨rfl, rfl, licensesRun_fetch_error fetchFailEnv (GoError.plain "connection refused") rfl rfl⟩

/-- C6: in text mode the grouping is empty exactly when no revision has a license
match; then the command prints the message that names the locator, does not call the
renderer and returns no error. -/
theorem licensesRun_no_licenses (env : Env) (revs : List Revision)
    (hctx : env.setContext = none)
    (hfetch : env.getRevisionDependencies (locatorOf env) true = Except.ok revs)
    (hjson : env.json = false) :
    ((groupRevisions revs []).length = 0 ↔ ∀ r ∈ revs, r.Licenses = []) ∧
    ((∀ r ∈ revs, r.Licenses = []) →
      (licensesRun env).stdout = [Write.Printf
        ("\nNo licenses were found for project " ++ env.locatorString (locatorOf env))] ∧
      (licensesRun env).rendered = none ∧
      (licensesRun env).outcome = Outcome.returned none) := by
  refine ⟨length_groupRevisions_eq_zero revs, ?_⟩
  intro h
  have h0 := (length_groupRevisions_eq_zero revs).mpr h
  rw [licensesRun_text env revs hctx hfetch hjson, if_pos h0]
  exact ⟨rfl, rfl, rfl⟩

/-- Witness of C6: one revision without license matches. -/
theorem licensesRun_no_licenses_witness :
    unlicensedEnv.setContext = none ∧
    unlicensedEnv.getRevisionDependencies (locatorOf unlicensedEnv) true =
      Except.ok [{ Project := { Title := "libbaz", URL := "http://x/baz" }, Licenses := [] }] ∧
    unlicensedEnv.json = false ∧
    (licensesRun unlicensedEnv).stdout = [Write.Printf
      ("\nNo licenses were found for project " ++
        unlicensedEnv.locatorString (locatorOf unlicensedEnv))] ∧
    (licensesRun unlicensedEnv).rendered = none ∧
    (licensesRun unlicensedEnv).outcome = Outcome.returned none :=
  ⟨rfl, rfl, rfl,
    (licensesRun_no_licenses unlicensedEnv _ rfl rfl rfl).2 (by simp)⟩

/-- C7: in JSON mode the command hands the list of the service to the serializer as
it is and prints the result, so every inverse of the serializer reads the list of the
service back from the output; a failure of the serializer is returned as it is and
nothing is printed. -/
theorem licensesRun_json_passthrough (env : Env) (revs : List Revision)
    (hctx : env.setContext = none)
    (hfetch : env.getRevisionDependencies (locatorOf env) true = Except.ok revs)
    (hjson : env.json = true) :
    (∀ out, env.marshal revs = Except.ok out →
      (licensesRun env).stdout = [Write.Println out] ∧
      (licensesRun env).outcome = Outcome.returned none ∧
      (licensesRun env).rendered = none ∧
      ∀ parse : String → Option (List Revision),
        (∀ l s, env.marshal l = Except.ok s → parse s = some l) →
        parse out = some revs ∧ (parse out).map List.length = some revs.length ∧
        (parse out).map (List.map licenseIDs) = some (revs.map licenseIDs)) ∧
    (∀ e, env.marshal revs = Except.error e →
      (licensesRun env).stdout = [] ∧
      (licensesRun env).outcome = Outcome.returned (some e) ∧
      (licensesRun env).rendered = none) := by
  constructor
  · intro out hout
    refine ⟨?_, ?_, ?_, ?_⟩
    · simp [licensesRun, hctx, hfetch, hjson, hout]
    · simp [licensesRun, hctx, hfetch, hjson, hout]
    · simp [licensesRun, hctx, hfetch, hjson, hout]
    · intro parse hinv
      have := hinv revs out hout
      simp [this]
  · intro e he
    refine ⟨?_, ?_, ?_⟩ <;> simp [licensesRun, hctx, hfetch, hjson, he]

theorem exampleUnmarshal_inverse (l : List Revision) (s : String)
    (h : exampleMarshal l = Except.ok s) : exampleUnmarshal s = some l := by
  unfold exampleMarshal at h
  by_cases h1 : l = []
  · simp only [h1, if_true] at h
    cases h
    simp [exampleUnmarshal, h1]
  · by_cases h2 : l = scenarioRevs
    · simp only [h1, h2, if_true, if_false] at h
      have hs : scenarioJSON = s := Except.ok.inj h
      subst hs
      have hne : ¬ scenarioJSON = "[]" := by decide
      simp [exampleUnmarshal, hne, h2]
    · simp [h1, h2] at h

/-- Witness of C7: the scenario of the specification with the JSON flag. -/
theorem licensesRun_json_passthrough_witness :
    scenarioJSONEnv.setContext = none ∧
    scenarioJSONEnv.getRevisionDependencies (locatorOf scenarioJSONEnv) true =
      Except.ok scenarioRevs ∧
    scenarioJSONEnv.json = true ∧
    (licensesRun scenarioJSONEnv).stdout = [Write.Println scenarioJSON] ∧
    exampleUnmarshal scenarioJSON = some scenarioRevs :=
  ⟨rfl, rfl, rfl,
    ((licensesRun_json_passthrough scenarioJSONEnv scenarioRevs rfl rfl rfl).1
      scenarioJSON rfl).1,
    (((licensesRun_json_passthrough scenarioJSONEnv scenarioRevs rfl rfl rfl).1
      scenarioJSON rfl).2.2.2 exampleUnmarshal exampleUnmarshal_inverse).1⟩

/-- C10: with the JSON flag set and a successful fetch, the command never prints the
message for an empty grouping and never renders, whatever the revisions are; what it
prints is the text of the serializer. -/
theorem licensesRun_json_precedence (env : Env) (revs : List Revision)
    (hctx : env.setContext = none)
    (hfetch : env.getRevisionDependencies (locatorOf env) true = Except.ok revs)
    (hjson : env.json = true) :
    (∀ w ∈ (licensesRun env).stdout, ∀ msg, w ≠ Write.Printf msg) ∧
    (licensesRun env).rendered = none ∧
    (∀ out, env.marshal revs = Except.ok out →
      (licensesRun env).stdout = [Write.Println out] ∧
      (licensesRun env).outcome = Outcome.returned none) := by
  refine ⟨?_, ?_, ?_⟩
  · intro w hw msg
    cases hm : env.marshal revs with
    | error e => simp [licensesRun, hctx, hfetch, hjson, hm] at hw
    | ok out =>
      simp [licensesRun, hctx, hfetch, hjson, hm] at hw
      subst hw
      simp
  · cases hm : env.marshal revs <;> simp [licensesRun, hctx, hfetch, hjson, hm]
  · intro out hout
    constructor <;> simp [licensesRun, hctx, hfetch, hjson, hout]

/-- Witness of C10: the JSON flag and a service that returns no revision. -/
theorem licensesRun_json_precedence_witness :
    emptyJSONEnv.setContext = none ∧
    emptyJSONEnv.getRevisionDependencies (locatorOf emptyJSONEnv) true = Except.ok [] ∧
    emptyJSONEnv.json = true ∧
    (licensesRun emptyJSONEnv).stdout = [Write.Println "[]"] ∧
    (licensesRun emptyJSONEnv).outcome = Outcome.returned none :=
  ⟨rfl, rfl, rfl, (licensesRun_json_precedence emptyJSONEnv [] rfl rfl rfl).2.2 "[]" rfl⟩


/-! ## Facts about the rendering of the report -/

set_option maxRecDepth 100000 in
theorem parseTemplate_default : parseTemplate defaultLicenseReportTemplate = some defaultNodes := by
  rfl

set_option maxRecDepth 100000 in
theorem length_default : defaultLicenseReportTemplate.length + 2 = 510 + 20 := by
  decide

theorem unlines_append (l1 l2 : List String) : unlines (l1 ++ l2) = unlines l1 ++ unlines l2 := by
  induction l1 with
  | nil => simp [unlines]
  | cons a rest ih => simp [unlines, ih, String.append_assoc]

/-- The text of a bullet as the template writes it: a newline, then the bullet. -/
theorem evalNodes_bullet (n : Nat) (r : Revision) (k : Value) (vars : Vars) :
    evalNodes (n + 6) bulletNodes r.toValue (("dep", r.toValue) :: ("i", k) :: vars) =
    some ("\n" ++ bulletLine r) := by
  simp [bulletNodes, evalNodes, evalOperand, lookupField, evalFields, printValue,
    Revision.toValue, Project.toValue, bulletLine]
  apply String.ext
  simp [String.data_append]

theorem concatEach_bullets (n : Nat) (revs : List Revision) (i : Nat) (vars : Vars) :
    concatEach (fun k e => evalNodes (n + 6) bulletNodes e (("dep", e) :: ("i", k) :: vars))
      (indexed i (revs.map Revision.toValue)) =
    some (joinTexts (revs.map (fun r => "\n" ++ bulletLine r))) := by
  induction revs generalizing i with
  | nil => simp [indexed, concatEach, joinTexts]
  | cons r rest ih =>
    simp only [List.map_cons, indexed, concatEach, evalNodes_bullet, ih, joinTexts]

theorem joinTexts_bullets (revs : List Revision) :
    joinTexts (revs.map (fun r => "\n" ++ bulletLine r)) ++ "\n" =
      "\n" ++ unlines (revs.map bulletLine) := by
  induction revs with
  | nil => simp [unlines, joinTexts]
  | cons r rest ih =>
    simp only [List.map_cons, unlines, joinTexts, String.append_assoc]
    rw [ih]

/-- The outer body with any inner body whose runs over the revisions give `t`. -/
theorem evalNodes_section_of (n : Nat) (body : List Node) (L t : String) (items : List Value)
    (dot : Value) (vars : Vars)
    (h : concatEach (fun k e => evalNodes (n + 2) body e
        (("dep", e) :: ("i", k) :: ("deps", Value.slice items) :: ("license", Value.str L) :: vars))
      (indexed 0 items) = some t) :
    evalNodes (n + 6)
      [Node.text "\n========================================================================\n",
       Node.print (Operand.var "license" []),
       Node.text ("\n========================================================================\n" ++
         "The following software have components provided under the terms of this license:\n"),
       Node.range "i" "dep" (Operand.var "deps" []) body,
       Node.text "\n"] dot
      (("deps", Value.slice items) :: ("license", Value.str L) :: vars) =
    some (unlines ["", bannerLine, L, bannerLine, introLine] ++ (t ++ "\n")) := by
  simp [evalNodes, evalOperand, lookupField, evalFields, printValue, rangeItems, h]
  apply String.ext
  simp [String.data_append, unlines, bannerLine, introLine]

theorem evalNodes_section (n : Nat) (e : String × List Revision) (dot : Value) (vars : Vars) :
    evalNodes (n + 10) sectionNodes dot
      (("deps", Value.slice (e.2.map Revision.toValue)) :: ("license", Value.str e.1) :: vars) =
    some (unlines (sectionLines e)) := by
  have hb := concatEach_bullets n e.2 0
    (("deps", Value.slice (e.2.map Revision.toValue)) :: ("license", Value.str e.1) :: vars)
  have := evalNodes_section_of (n + 4) bulletNodes e.1 _ (e.2.map Revision.toValue) dot vars hb
  rw [sectionNodes, this, joinTexts_bullets, sectionLines]
  simp [unlines, unlines_append, String.append_assoc]

theorem insertEntry_map {α β : Type} (f : α → β) (e : String × α) (l : List (String × α)) :
    insertEntry (e.1, f e.2) (l.map (fun x => (x.1, f x.2))) =
      (insertEntry e l).map (fun x => (x.1, f x.2)) := by
  induction l with
  | nil => simp [insertEntry]
  | cons a rest ih =>
    simp only [List.map_cons, insertEntry]
    split
    · simp only [List.map_cons, ih]
    · simp only [List.map_cons]

theorem sortEntries_map {α β : Type} (f : α → β) (l : List (String × α)) :
    sortEntries (l.map (fun x => (x.1, f x.2))) =
      (sortEntries l).map (fun x => (x.1, f x.2)) := by
  induction l with
  | nil => simp [sortEntries]
  | cons a rest ih =>
    simp only [List.map_cons, sortEntries, ih]
    exact insertEntry_map f a (sortEntries rest)

theorem concatEach_sections (n : Nat) (g : Grouping) (vars : Vars) :
    concatEach (fun k e => evalNodes (n + 10) sectionNodes e
        (("deps", e) :: ("license", k) :: vars))
      (g.map (fun e => (Value.str e.1, Value.slice (e.2.map Revision.toValue)))) =
    some (unlines (g.map sectionLines).flatten) := by
  induction g with
  | nil => simp [concatEach, unlines]
  | cons e rest ih =>
    simp only [List.map_cons, concatEach, evalNodes_section, ih, List.flatten, unlines_append]

/-- The outer level of the template with any body whose runs over the entries give `t`. -/
theorem evalNodes_report_of (n : Nat) (body : List Node) (t : String)
    (entries : List (String × Value))
    (h : concatEach (fun k e => evalNodes (n + 2) body e [("deps", e), ("license", k)])
      ((sortEntries entries).map (fun e => (Value.str e.1, e.2))) = some t) :
    evalNodes (n + 4)
      [Node.text ("# 3rd-Party Software License Notice\n" ++
        "Generated by fossa-cli (https://github.com/fossas/fossa-cli).\n" ++
        "This software includes the following software and licenses:\n"),
       Node.range "license" "deps" Operand.dot body,
       Node.text "\n"] (Value.map entries) [] =
    some (unlines headerLines ++ (t ++ unlines [""])) := by
  simp [evalNodes, evalOperand, rangeItems, h]
  apply String.ext
  simp [String.data_append, unlines, headerLines]

/-- The default template renders every grouping without error, and the text is made
of the lines of the report for the entries in ascending order of the identifiers. -/
theorem TemplateString_default (g : Grouping) :
    TemplateString defaultLicenseReportTemplate g = (unlines (reportLines (sortEntries g)), none) := by
  have hs : sortEntries (g.map (fun e => (e.1, Value.slice (e.2.map Revision.toValue)))) =
      (sortEntries g).map (fun e => (e.1, Value.slice (e.2.map Revision.toValue))) :=
    sortEntries_map (fun v => Value.slice (v.map Revision.toValue)) g
  have hc := concatEach_sections 516 (sortEntries g) []
  have hr := evalNodes_report_of 526 sectionNodes _
    (g.map (fun e => (e.1, Value.slice (e.2.map Revision.toValue))))
    (by rw [hs, List.map_map]; exact hc)
  simp only [TemplateString, parseTemplate_default, length_default, groupingValue]
  rw [defaultNodes, hr]
  simp only [reportLines, unlines_append, String.append_assoc]


theorem insertEntry_perm {α : Type} (e : String × α) (l : List (String × α)) :
    (insertEntry e l).Perm (e :: l) := by
  induction l with
  | nil => simp [insertEntry]
  | cons a rest ih =>
    simp only [insertEntry]
    split
    · exact (ih.cons a).trans (List.Perm.swap e a rest)
    · exact List.Perm.refl _

theorem sortEntries_perm {α : Type} (l : List (String × α)) : (sortEntries l).Perm l := by
  induction l with
  | nil => simp [sortEntries]
  | cons a rest ih =>
    simp only [sortEntries]
    exact (insertEntry_perm a _).trans (ih.cons a)

theorem dropWhile_append_of_all {α : Type} (p : α → Bool) (l1 l2 : List α)
    (h : ∀ x ∈ l1, p x = true) : (l1 ++ l2).dropWhile p = l2.dropWhile p := by
  induction l1 with
  | nil => rfl
  | cons a rest ih =>
    have ha : p a = true := h a (by simp)
    simp only [List.cons_append, List.dropWhile_cons, ha, if_true]
    exact ih (fun x hx => h x (by simp [hx]))

/-- The lines of the report of the grouping with the single entry MIT: libfoo. -/
theorem rendered_lines_example :
    splitLines (TemplateString defaultLicenseReportTemplate [("MIT", [libfoo])]).1.toList [] =
      ["# 3rd-Party Software License Notice",
       "Generated by fossa-cli (https://github.com/fossas/fossa-cli).",
       "This software includes the following software and licenses:",
       "", bannerLine, "MIT", bannerLine, introLine, "",
       "- libfoo (from http://x/foo)", "", ""] := by
  rw [TemplateString_default]
  decide

/-- C9 as stated fails: for the grouping with the single entry MIT: libfoo, the lines
of the rendered text are not a header, a banner line, the identifier, a second banner
line and the bullet line, whatever the header, the banner and the empty lines at the
end are. In the rendered text the sentence line and an empty line stand between the
second banner and the bullet. -/
theorem report_layout_counterexample :
    ¬ ∃ (header : List String) (banner : String) (trailer : List String),
      (∀ t ∈ trailer, t = "") ∧
      splitLines (TemplateString defaultLicenseReportTemplate [("MIT", [libfoo])]).1.toList [] =
        specLines header banner trailer [("MIT", [libfoo])] := by
  rintro ⟨header, banner, trailer, htr, heq⟩
  rw [rendered_lines_example] at heq
  have hrev := congrArg (fun l => (List.reverse l).dropWhile (fun s => decide (s = ""))) heq
  simp only [specLines, List.map_cons, List.map_nil, List.intercalate, List.intersperse,
    List.flatten, List.append_nil, List.reverse_append, List.append_assoc] at hrev
  rw [dropWhile_append_of_all _ _ _ (by
    intro x hx
    simp only [decide_eq_true_eq]
    exact htr x (List.mem_reverse.mp hx))] at hrev
  simp [bulletLine, libfoo, bannerLine, introLine] at hrev

/-- C9, amended: for every non-empty grouping, the text rendered from
`defaultLicenseReportTemplate` is made of these lines, each followed by a newline: the
fixed header, which is three lines long; then one section per entry of the grouping
(the sections are the entries of the grouping in some order, and there is at least
one); then an empty line. A section is an empty line, the banner of 72 `=`, the license
identifier, the same banner, the fixed sentence line, an empty line and one bullet line
`- title (from url)` per revision of the list of the license, in the order of the list.
Every section starts with an empty line, so two sections are separated by one. -/
theorem report_layout (g : Grouping) (hne : g ≠ []) :
    (∃ sections : List (String × List Revision),
      sections.Perm g ∧ sections ≠ [] ∧
      TemplateString defaultLicenseReportTemplate g =
        (unlines (headerLines ++ (sections.map sectionLines).flatten ++ [""]), none)) ∧
    headerLines.length = 3 ∧
    (∀ e : String × List Revision, sectionLines e =
      "" :: bannerLine :: e.1 :: bannerLine :: introLine :: "" ::
        e.2.map (fun r => "- " ++ r.Project.Title ++ " (from " ++ r.Project.URL ++ ")")) ∧
    bannerLine.toList = List.replicate 72 '=' ∧
    introLine =
      "The following software have components provided under the terms of this license:" := by
  refine ⟨⟨sortEntries g, sortEntries_perm g, ?_, TemplateString_default g⟩,
    rfl, fun e => rfl, by decide, rfl⟩
  intro h
  apply hne
  have hp := sortEntries_perm g
  rw [h] at hp
  exact (List.Perm.nil_eq hp).symm

set_option maxRecDepth 100000 in
/-- Witness of C9: the grouping of the scenario of the specification. -/
theorem report_layout_witness :
    finalGrouping scenarioEnv scenarioRevs ≠ [] ∧
    (∃ sections : List (String × List Revision),
      sections.Perm (finalGrouping scenarioEnv scenarioRevs) ∧ sections ≠ [] ∧
      TemplateString defaultLicenseReportTemplate (finalGrouping scenarioEnv scenarioRevs) =
        (unlines (headerLines ++ (sections.map sectionLines).flatten ++ [""]), none)) :=
  ⟨by decide, (report_layout (finalGrouping scenarioEnv scenarioRevs) (by decide)).1⟩

/-! ## Facts about the sections of the report -/

theorem mapGet_of_mem (m : Grouping) (k : String) (v : List Revision)
    (hnd : (mapKeys m).Nodup) (h : (k, v) ∈ m) : mapGet m k = v := by
  induction m with
  | nil => simp at h
  | cons e rest ih =>
    obtain ⟨k0, v0⟩ := e
    simp only [mapKeys, List.map_cons, List.nodup_cons] at hnd
    rcases List.mem_cons.mp h with heq | hmem
    · cases heq
      simp [mapGet]
    · have hne : ¬ k0 = k := by
        intro hk
        apply hnd.1
        rw [hk]
        exact List.mem_map.mpr ⟨(k, v), hmem, rfl⟩
      simp only [mapGet, hne, if_false]
      exact ih hnd.2 hmem

theorem totalEntries_mapSet (m : Grouping) (k : String) (r : Revision) :
    totalEntries (mapSet m k (mapGet m k ++ [r])) = totalEntries m + 1 := by
  induction m with
  | nil => simp [mapSet, mapGet, totalEntries]
  | cons e rest ih =>
    obtain ⟨k0, v0⟩ := e
    by_cases h : k0 = k
    · simp [mapSet, mapGet, totalEntries, h]
      omega
    · simp only [totalEntries] at ih
      simp [mapSet, mapGet, totalEntries, h, ih]
      omega

theorem totalEntries_groupLicenses (rev : Revision) (ls : List License) (found : List String)
    (m : Grouping) :
    totalEntries (groupLicenses rev ls found m) =
      totalEntries m + ((ls.map License.LicenseID).toFinset \ found.toFinset).card := by
  induction ls generalizing found m with
  | nil => simp [groupLicenses]
  | cons l rest ih =>
    by_cases hf : l.LicenseID ∈ found
    · simp only [groupLicenses, hf, if_true, ih]
      congr 2
      ext x
      simp only [List.map_cons, List.toFinset_cons, Finset.mem_sdiff, Finset.mem_insert,
        List.mem_toFinset]
      constructor
      · rintro ⟨h1, h2⟩
        exact ⟨Or.inr h1, h2⟩
      · rintro ⟨h1 | h1, h2⟩
        · exact absurd (h1 ▸ hf) h2
        · exact ⟨h1, h2⟩
    · simp only [groupLicenses, hf, if_false, ih, totalEntries_mapSet]
      have hs : (List.map License.LicenseID (l :: rest)).toFinset \ found.toFinset =
          insert l.LicenseID ((List.map License.LicenseID rest).toFinset \
            (l.LicenseID :: found).toFinset) := by
        ext x
        simp only [List.map_cons, List.toFinset_cons, Finset.mem_sdiff, Finset.mem_insert,
          List.mem_toFinset, not_or]
        constructor
        · rintro ⟨h1 | h1, h2⟩
          · exact Or.inl h1
          · by_cases hx : x = l.LicenseID
            · exact Or.inl hx
            · exact Or.inr ⟨h1, hx, h2⟩
        · rintro (h1 | ⟨h1, _, h3⟩)
          · exact ⟨Or.inl h1, h1 ▸ hf⟩
          · exact ⟨Or.inr h1, h3⟩
      rw [hs, Finset.card_insert_of_not_mem (by simp)]
      omega

theorem totalEntries_groupRevisions (revs : List Revision) (m : Grouping) :
    totalEntries (groupRevisions revs m) =
      totalEntries m + (revs.map (fun r => (licenseIDs r).dedup.length)).sum := by
  induction revs generalizing m with
  | nil => simp [groupRevisions]
  | cons r rest ih =>
    simp only [groupRevisions, ih, totalEntries_groupLicenses, List.map_cons, List.sum_cons,
      List.toFinset_nil, Finset.sdiff_empty, List.card_toFinset, licenseIDs]
    omega

theorem totalEntries_perm (m1 m2 : Grouping) (h : m1.Perm m2) :
    totalEntries m1 = totalEntries m2 := by
  simp only [totalEntries]
  exact (h.map _).sum_eq

theorem totalEntries_sortLists
    (sort : (Revision → Revision → Bool) → List Revision → List Revision)
    (hperm : ∀ less l, (sort less l).Perm l) (m : Grouping) :
    totalEntries (sortLists sort m) = totalEntries m := by
  simp only [totalEntries, sortLists, List.map_map]
  congr 1
  apply List.map_congr_left
  intro e _
  exact (hperm titleLess e.2).length_eq

theorem mapKeys_finalGrouping (env : Env) (revs : List Revision) :
    mapKeys (finalGrouping env revs) = mapKeys (groupRevisions revs []) := by
  rw [finalGrouping, mapKeys_sortLists]

theorem mem_mapKeys_finalGrouping (env : Env) (revs : List Revision) (L : String) :
    L ∈ mapKeys (finalGrouping env revs) ↔ ∃ r ∈ revs, L ∈ licenseIDs r := by
  rw [mapKeys_finalGrouping, mem_mapKeys_groupRevisions]
  simp [mapKeys]

theorem nodup_mapKeys_finalGrouping (env : Env) (revs : List Revision) :
    (mapKeys (finalGrouping env revs)).Nodup := by
  rw [mapKeys_finalGrouping]
  exact nodup_mapKeys_groupRevisions revs [] (by simp [mapKeys])

theorem length_filter_keys (keys : List String) (ids : List String) (hnd : keys.Nodup)
    (hsub : ∀ L ∈ ids, L ∈ keys) :
    (keys.filter (fun L => decide (L ∈ ids))).length = ids.dedup.length := by
  rw [← List.card_toFinset, ← List.toFinset_card_of_nodup (hnd.filter _)]
  congr 1
  ext x
  simp only [List.mem_toFinset, List.mem_filter, decide_eq_true_eq]
  exact ⟨fun h => h.2, fun h => ⟨hsub x h, h⟩⟩

/-- C8: grouping and rendering the default template gives one section per distinct
license identifier of the input: the keys of the grouping are pairwise distinct and are
exactly the identifiers that occur, no list is empty, the list of an identifier holds
each revision that carries it once, the report is the header followed by the sections
of the entries, a revision is in as many sections as it has distinct identifiers, and
the number of bullets is the sum of these numbers over the revisions. -/
theorem report_sections (env : Env) (revs : List Revision)
    (hperm : ∀ less l, (env.sortSlice less l).Perm l) :
    (mapKeys (finalGrouping env revs)).Nodup ∧
    (∀ L, L ∈ mapKeys (finalGrouping env revs) ↔ ∃ r ∈ revs, L ∈ licenseIDs r) ∧
    (∀ L ∈ mapKeys (finalGrouping env revs), mapGet (finalGrouping env revs) L ≠ []) ∧
    (∀ L, (mapGet (finalGrouping env revs) L).Perm (revs.filter (hasLicense L))) ∧
    (TemplateString defaultLicenseReportTemplate (finalGrouping env revs)).1 =
      unlines (headerLines ++
        ((sortEntries (finalGrouping env revs)).map sectionLines).flatten ++ [""]) ∧
    (sortEntries (finalGrouping env revs)).Perm (finalGrouping env revs) ∧
    (∀ e ∈ sortEntries (finalGrouping env revs), e.2 = mapGet (finalGrouping env revs) e.1) ∧
    (sortEntries (finalGrouping env revs)).length = (revs.map licenseIDs).flatten.dedup.length ∧
    (∀ r ∈ revs, ((sortEntries (finalGrouping env revs)).filter
      (fun e => hasLicense e.1 r)).length = (licenseIDs r).dedup.length) ∧
    totalEntries (sortEntries (finalGrouping env revs)) =
      (revs.map (fun r => (licenseIDs r).dedup.length)).sum := by
  have hnd := nodup_mapKeys_finalGrouping env revs
  have hmem := mem_mapKeys_finalGrouping env revs
  have hsp := sortEntries_perm (finalGrouping env revs)
  refine ⟨hnd, hmem, ?_, mapGet_finalGrouping_perm env revs hperm, ?_, hsp, ?_, ?_, ?_, ?_⟩
  · intro L hL hnil
    obtain ⟨r, hr, hLr⟩ := (hmem L).mp hL
    have hp := mapGet_finalGrouping_perm env revs hperm L
    rw [hnil] at hp
    have hrf : r ∈ revs.filter (hasLicense L) :=
      List.mem_filter.mpr ⟨hr, by simp [hasLicense, hLr]⟩
    rw [← hp.nil_eq] at hrf
    simp at hrf
  · rw [TemplateString_default, reportLines]
  · intro e he
    exact (mapGet_of_mem _ e.1 e.2 hnd (hsp.subset he)).symm
  · rw [hsp.length_eq]
    have hl : (finalGrouping env revs).length = (mapKeys (finalGrouping env revs)).length := by
      simp [mapKeys]
    rw [hl, ← List.card_toFinset, ← List.toFinset_card_of_nodup hnd]
    congr 1
    ext x
    simp only [List.mem_toFinset, hmem, List.mem_flatten, List.mem_map]
    constructor
    · rintro ⟨r, hr, hx⟩
      exact ⟨licenseIDs r, ⟨r, hr, rfl⟩, hx⟩
    · rintro ⟨l, ⟨r, hr, rfl⟩, hx⟩
      exact ⟨r, hr, hx⟩
  · intro r hr
    rw [(hsp.filter _).length_eq]
    have hk : ((finalGrouping env revs).filter (fun e => hasLicense e.1 r)).length =
        ((mapKeys (finalGrouping env revs)).filter (fun L => decide (L ∈ licenseIDs r))).length := by
      simp only [mapKeys, List.filter_map, List.length_map]
      rfl
    rw [hk]
    exact length_filter_keys _ _ hnd (fun L hL => (hmem L).mpr ⟨r, hr, hL⟩)
  · rw [totalEntries_perm _ _ hsp, finalGrouping, totalEntries_sortLists _ hperm,
      totalEntries_groupRevisions]
    simp [totalEntries]

/-- Witness of C8: the scenario of the specification has two sections and three
bullets. -/
theorem report_sections_witness :
    (∀ less l, (scenarioEnv.sortSlice less l).Perm l) ∧
    (sortEntries (finalGrouping scenarioEnv scenarioRevs)).length = 2 ∧
    totalEntries (sortEntries (finalGrouping scenarioEnv scenarioRevs)) = 3 :=
  ⟨sortSlice_contract.perm,
    (report_sections scenarioEnv scenarioRevs sortSlice_contract.perm).2.2.2.2.2.2.2.1.trans
      (by decide),
    (report_sections scenarioEnv scenarioRevs
      sortSlice_contract.perm).2.2.2.2.2.2.2.2.2.trans (by decide)⟩

/-! ## Stability of the sort -/

theorem stableSortByTitle_perm (l : List Revision) : (stableSortByTitle l).Perm l :=
  List.perm_insertionSort _ l

theorem stableSortByTitle_sorted (l : List Revision) :
    (stableSortByTitle l).Pairwise (fun a b => a.Project.Title ≤ b.Project.Title) := by
  haveI : IsTotal Revision (fun a b => titleLess b a = false) :=
    ⟨fun a b => by
      simp only [titleLess_false_iff]
      exact le_total _ _⟩
  haveI : IsTrans Revision (fun a b => titleLess b a = false) :=
    ⟨fun a b c hab hbc => titleLess_negtrans c b a hbc hab⟩
  exact (List.sorted_insertionSort (fun a b => titleLess b a = false) l).imp
    (fun {a b} hab => (titleLess_false_iff a b).mp hab)

set_option maxRecDepth 100000 in
/-- C3 as stated fails: the service returns thirteen revisions under MIT, in title
order except that the seventh one has the title of the first; `sort.Slice` puts the
seventh one in front of the first, so the final list differs from the stable sort of
the input. -/
theorem stable_sort_counterexample :
    unstableEnv.setContext = none ∧
    unstableEnv.getRevisionDependencies (locatorOf unstableEnv) true = Except.ok unstableRevs ∧
    unstableEnv.json = false ∧
    (licensesRun unstableEnv).rendered = some (finalGrouping unstableEnv unstableRevs) ∧
    unstableRevs.filter (hasLicense "MIT") = unstableRevs ∧
    mapGet (finalGrouping unstableEnv unstableRevs) "MIT" =
      [mitRevision "liba" "http://y/a", mitRevision "liba" "http://x/a",
       mitRevision "libb" "http://x/b", mitRevision "libc" "http://x/c",
       mitRevision "libd" "http://x/d", mitRevision "libe" "http://x/e",
       mitRevision "libf" "http://x/f", mitRevision "libg" "http://x/g",
       mitRevision "libh" "http://x/h", mitRevision "libi" "http://x/i",
       mitRevision "libj" "http://x/j", mitRevision "libk" "http://x/k",
       mitRevision "libl" "http://x/l"] ∧
    mapGet (finalGrouping unstableEnv unstableRevs) "MIT" ≠
      stableSortByTitle (unstableRevs.filter (hasLicense "MIT")) := by
  refine ⟨rfl, rfl, rfl, ?_, ?_, ?_, ?_⟩ <;> decide

/-- C3, amended: in text mode, for every license identifier the final list is a
rearrangement of the input revisions that carry the identifier and is in ascending
order of the titles; the order among equal titles is not determined. When the titles
of these revisions are pairwise distinct, the final list is the stable sort by title
of the subsequence of the input. -/
theorem licensesRun_sorted_rearrangement (env : Env) (revs : List Revision)
    (hctx : env.setContext = none)
    (hfetch : env.getRevisionDependencies (locatorOf env) true = Except.ok revs)
    (hjson : env.json = false)
    (hsort : SortContract env.sortSlice) (L : String) :
    (mapGet (finalGrouping env revs) L).Perm (revs.filter (hasLicense L)) ∧
    (mapGet (finalGrouping env revs) L).Pairwise
      (fun a b => a.Project.Title ≤ b.Project.Title) ∧
    (((revs.filter (hasLicense L)).map (fun r => r.Project.Title)).Nodup →
      mapGet (finalGrouping env revs) L = stableSortByTitle (revs.filter (hasLicense L))) ∧
    (∀ g, (licensesRun env).rendered = some g → g = finalGrouping env revs) := by
  have hp := mapGet_finalGrouping_perm env revs hsort.perm L
  have hs := mapGet_finalGrouping_sorted env revs hsort L
  refine ⟨hp, hs, ?_, ?_⟩
  · intro hnd
    refine eq_of_perm_of_title_sorted _ _
      (hp.trans (stableSortByTitle_perm _).symm) hs (stableSortByTitle_sorted _) ?_
    exact (hp.map (fun r => r.Project.Title)).nodup_iff.mpr hnd
  · intro g hg
    rw [licensesRun_text env revs hctx hfetch hjson] at hg
    by_cases h0 : (groupRevisions revs []).length = 0
    · simp [h0] at hg
    · simp only [h0, if_false] at hg
      exact (Option.some.inj hg).symm

/-- Witness of C3, amended: the scenario of the specification. -/
theorem licensesRun_sorted_rearrangement_witness :
    scenarioEnv.setContext = none ∧
    scenarioEnv.getRevisionDependencies (locatorOf scenarioEnv) true = Except.ok scenarioRevs ∧
    scenarioEnv.json = false ∧
    SortContract scenarioEnv.sortSlice ∧
    ((scenarioRevs.filter (hasLicense "MIT")).map (fun r => r.Project.Title)).Nodup ∧
    mapGet (finalGrouping scenarioEnv scenarioRevs) "MIT" =
      stableSortByTitle (scenarioRevs.filter (hasLicense "MIT")) :=
  ⟨rfl, rfl, rfl, sortSlice_contract, by decide,
    (licensesRun_sorted_rearrangement scenarioEnv scenarioRevs rfl rfl rfl
      sortSlice_contract "MIT").2.2.1 (by decide)⟩

end Fossa
